import Mathlib

/-!
Shallow embedding of the OSINT AI framework's meta-search core
(`backend/apps/search/utils.py` and `backend/apps/search/orchestrator.py`)
and proofs about the spec's claims over that embedding.

Strings are modelled as Lean `String` / `List Char`; Python `str` methods
(`strip`, `lower`, `split`, slicing) and the `urllib.parse` helpers used by
the code (`urlparse`, `urlunparse`, `parse_qs`, `urlencode`,
`quote_plus`/`unquote_plus`) are modelled as executable Lean functions below.
Wall-clock durations are abstracted to `0` (they only feed the `total_time`
statistics, which no claim constrains numerically), and thread scheduling is
abstracted by a per-adapter completion flag (see `AdapterModel`).
-/

namespace Osint

/-! ## §1 Character and string utilities (Python `str` methods, ASCII fragment) -/

/-- ASCII uppercase test (used by `str.lower` on the ASCII fragment). -/
def isUpperA (c : Char) : Bool := 'A' ≤ c && c ≤ 'Z'

/-- `str.lower` on one character (ASCII fragment of Python's Unicode lower). -/
def lowerChar (c : Char) : Char :=
  if isUpperA c then Char.ofNat (c.toNat + 32) else c

/-- `str.lower` on a character list. -/
def lowerL (l : List Char) : List Char := l.map lowerChar

/-- Python whitespace for `str.strip()` (ASCII fragment). -/
def isPyWs (c : Char) : Bool :=
  c = ' ' || c = '\t' || c = '\n' || c = '\x0d' || c = '\x0b' || c = '\x0c'

/-- `str.strip()` on a character list. -/
def pyStripL (l : List Char) : List Char :=
  ((l.dropWhile isPyWs).reverse.dropWhile isPyWs).reverse

/-- `str.strip()` on a string. -/
def pyStrip (s : String) : String := ⟨pyStripL s.data⟩

/-- `str.lower()` on a string. -/
def lowerStr (s : String) : String := ⟨lowerL s.data⟩

/-- Split a character list at every occurrence of `sep` (Python `str.split(sep)`:
keeps empty pieces). -/
def splitSep (sep : Char) : List Char → List (List Char)
  | [] => [[]]
  | c :: rest =>
    let r := splitSep sep rest
    if c = sep then [] :: r
    else
      match r with
      | [] => [[c]]
      | h :: t => (c :: h) :: t

/-- Split at the first occurrence of `sep`, if any (Python `str.split(sep, 1)` /
`str.partition`). Returns the parts before and after the separator. -/
def splitFirst (sep : Char) : List Char → Option (List Char × List Char)
  | [] => none
  | c :: rest =>
    if c = sep then some ([], rest)
    else
      match splitFirst sep rest with
      | none => none
      | some (a, b) => some (c :: a, b)

/-- Index of the first occurrence of any character of `stops`, or the length if
none occurs (used for `urlsplit`'s netloc delimiting). -/
def findAny (stops : List Char) : List Char → Nat
  | [] => 0
  | c :: rest => if c ∈ stops then 0 else findAny stops rest + 1

/-- `List.take` up to the first occurrence of any of `stops`. -/
def takeUntilAny (stops : List Char) : List Char → List Char
  | [] => []
  | c :: rest => if c ∈ stops then [] else c :: takeUntilAny stops rest

/-- `List.drop` from the first occurrence of any of `stops` (inclusive). -/
def dropFromAny (stops : List Char) : List Char → List Char
  | [] => []
  | c :: rest => if c ∈ stops then c :: rest else dropFromAny stops rest

/-- Boolean lexicographic strict comparison on character lists: Python string
`<` (code-point order). -/
def strLt : List Char → List Char → Bool
  | [], [] => false
  | [], _ :: _ => true
  | _ :: _, [] => false
  | a :: as, b :: bs => if a < b then true else if b < a then false else strLt as bs

/-- Python string `<=` (used for `sorted` on keys/values). -/
def strLe (a b : List Char) : Bool := !strLt b a

/-! ## §2 Percent-encoding (`urllib.parse.quote_plus` / `unquote_plus`) -/

/-- Uppercase hexadecimal digit of `n % 16` (Python `quote` uses uppercase). -/
def hexDigit (n : Nat) : Char :=
  if n < 10 then Char.ofNat ('0'.toNat + n)
  else Char.ofNat ('A'.toNat + (n - 10))

/-- Value of a hexadecimal digit character, if it is one (both cases accepted,
as in Python `unquote`). -/
def hexVal (c : Char) : Option Nat :=
  let n := c.toNat
  if 48 ≤ n ∧ n ≤ 57 then some (n - 48)
  else if 97 ≤ n ∧ n ≤ 102 then some (n - 87)
  else if 65 ≤ n ∧ n ≤ 70 then some (n - 55)
  else none

/-- Characters `quote` never escapes: ASCII letters, digits, and `_.-~`. -/
def alwaysSafe (c : Char) : Bool :=
  ('a' ≤ c && c ≤ 'z') || ('A' ≤ c && c ≤ 'Z') || ('0' ≤ c && c ≤ '9') ||
    c = '_' || c = '.' || c = '-' || c = '~'

/-- UTF-8 bytes of a character (what Python's `quote` escapes byte-wise). -/
def utf8Bytes (c : Char) : List Nat :=
  let n := c.toNat
  if n < 0x80 then [n]
  else if n < 0x800 then [0xC0 + n / 64, 0x80 + n % 64]
  else if n < 0x10000 then [0xE0 + n / 4096, 0x80 + n / 64 % 64, 0x80 + n % 64]
  else [0xF0 + n / 262144, 0x80 + n / 4096 % 64, 0x80 + n / 64 % 64, 0x80 + n % 64]

/-- `quote_plus` applied to one character (`urlencode`'s `quote_via` with
`safe=''`): safe characters kept, space becomes `+`, anything else becomes the
percent-escapes of its UTF-8 bytes. -/
def quoteCharPlus (c : Char) : List Char :=
  if alwaysSafe c then [c]
  else if c = ' ' then ['+']
  else (utf8Bytes c).flatMap fun b => ['%', hexDigit (b / 16), hexDigit (b % 16)]

/-- `urllib.parse.quote_plus` with `safe=''` on a character list. -/
def quotePlusL (s : List Char) : List Char := s.flatMap quoteCharPlus

/-- UTF-8 decoding of a byte list with `errors='replace'` semantics, as a
byte-at-a-time state machine: `need` counts the continuation bytes still
expected and `acc` holds the partial code point. ASCII bytes decode to
themselves, well-formed multi-byte sequences to their code point, anything
else to U+FFFD. (For ill-formed sequences the exact number of replacement
characters may differ from CPython's policy; the theorems below only rely on
the well-formed branches.) -/
def utf8DecodeAux : List Nat → Nat → Nat → List Char
  | [], 0, _ => []
  | [], _ + 1, _ => [Char.ofNat 0xFFFD]
  | b :: rest, 0, _ =>
    if b < 0x80 then Char.ofNat b :: utf8DecodeAux rest 0 0
    else if 0xC2 ≤ b && b < 0xE0 then utf8DecodeAux rest 1 (b - 0xC0)
    else if 0xE0 ≤ b && b < 0xF0 then utf8DecodeAux rest 2 (b - 0xE0)
    else if 0xF0 ≤ b && b < 0xF5 then utf8DecodeAux rest 3 (b - 0xF0)
    else Char.ofNat 0xFFFD :: utf8DecodeAux rest 0 0
  | b :: rest, 1, acc =>
    if 0x80 ≤ b && b < 0xC0 then
      Char.ofNat (acc * 64 + (b - 0x80)) :: utf8DecodeAux rest 0 0
    else Char.ofNat 0xFFFD :: utf8DecodeAux rest 0 0
  | b :: rest, n + 2, acc =>
    if 0x80 ≤ b && b < 0xC0 then utf8DecodeAux rest (n + 1) (acc * 64 + (b - 0x80))
    else Char.ofNat 0xFFFD :: utf8DecodeAux rest 0 0

/-- `bytes.decode('utf-8', errors='replace')` on a byte list. -/
def utf8DecodeR (l : List Nat) : List Char := utf8DecodeAux l 0 0

/-- Core of `unquote`: scan the character list, turning maximal runs of
percent-escapes and literal ASCII characters into bytes which are UTF-8
decoded together (Python decodes whole ASCII runs at once; non-ASCII literal
characters pass through directly and flush the pending byte buffer). `buf`
holds the pending bytes in reverse order. The `fuel` argument only makes the
recursion structural; it is always called with enough fuel to finish. -/
def unquoteAuxF : Nat → List Char → List Nat → List Char
  | _, [], buf => utf8DecodeR buf.reverse
  | 0, s, buf => utf8DecodeR buf.reverse ++ s
  | fuel + 1, c :: rest, buf =>
    if c = '%' then
      match rest with
      | a :: b :: rest2 =>
        match hexVal a, hexVal b with
        | some ha, some hb => unquoteAuxF fuel rest2 ((ha * 16 + hb) :: buf)
        | _, _ => unquoteAuxF fuel rest (0x25 :: buf)
      | _ => unquoteAuxF fuel rest (0x25 :: buf)
    else if c.toNat < 0x80 then unquoteAuxF fuel rest (c.toNat :: buf)
    else utf8DecodeR buf.reverse ++ c :: unquoteAuxF fuel rest []

/-- `urllib.parse.unquote_plus`: `+` becomes space, then percent-unquoting. -/
def unquotePlusL (s : List Char) : List Char :=
  unquoteAuxF s.length (s.map fun c => if c = '+' then ' ' else c) []

/-! ## §3 `parse_qs` / `urlencode` -/

/-- `urllib.parse.parse_qsl(qs, keep_blank_values=False)`: split on `&`, skip
empty pieces, skip pieces without `=` and pieces with an empty raw value,
unquote names and values. -/
def parseQsl (q : List Char) : List (List Char × List Char) :=
  (splitSep '&' q).filterMap fun piece =>
    if piece = [] then none
    else
      match splitFirst '=' piece with
      | none => none
      | some (n, v) =>
        if v = [] then none else some (unquotePlusL n, unquotePlusL v)

/-- Append a binding to an insertion-ordered association list of grouped
values (the `dict` built by `parse_qs`). -/
def dictAppend (d : List (List Char × List (List Char))) (k : List Char)
    (v : List Char) : List (List Char × List (List Char)) :=
  match d with
  | [] => [(k, [v])]
  | (k', vs) :: rest =>
    if k' = k then (k', vs ++ [v]) :: rest else (k', vs) :: dictAppend rest k v

/-- `urllib.parse.parse_qs(qs, keep_blank_values=False)`. -/
def parseQs (q : List Char) : List (List Char × List (List Char)) :=
  (parseQsl q).foldl (fun d p => dictAppend d p.1 p.2) []

/-- `urllib.parse.urlencode` on an explicit pair list (default `quote_via`
is `quote_plus` with `safe=''`). -/
def urlencodeL (pairs : List (List Char × List Char)) : List Char :=
  List.intercalate ['&'] (pairs.map fun p => quotePlusL p.1 ++ '=' :: quotePlusL p.2)

/-! ## §4 `urlparse` / `urlunparse` -/

/-- The six components of `urllib.parse.urlparse`'s result. -/
structure UrlParts where
  scheme : List Char
  netloc : List Char
  path : List Char
  params : List Char
  query : List Char
  fragment : List Char
  deriving Repr, DecidableEq

/-- Characters a URL scheme may contain (`urllib.parse.scheme_chars`). -/
def isSchemeChar (c : Char) : Bool :=
  ('a' ≤ c && c ≤ 'z') || ('A' ≤ c && c ≤ 'Z') || ('0' ≤ c && c ≤ '9') ||
    c = '+' || c = '-' || c = '.'

/-- ASCII alphabetic test (scheme must start with a letter). -/
def isAlphaA (c : Char) : Bool := ('a' ≤ c && c ≤ 'z') || ('A' ≤ c && c ≤ 'Z')

/-- Scheme detection of `urlsplit`: a leading `name:` where `name` starts with
an ASCII letter and contains only scheme characters. Returns the lowercased
scheme and the remainder. -/
def splitScheme (l : List Char) : List Char × List Char :=
  match splitFirst ':' l with
  | none => ([], l)
  | some (before, after) =>
    match before with
    | [] => ([], l)
    | c :: _ =>
      if isAlphaA c && before.all isSchemeChar then (lowerL before, after)
      else ([], l)

/-- The WHATWG cleanup `urlsplit` performs before parsing (strip leading C0
controls and space, remove tab/CR/LF anywhere), followed by scheme
detection. -/
def schemeRest (input : List Char) : List Char × List Char :=
  splitScheme ((input.dropWhile fun c => c.toNat ≤ 0x20).filter
    fun c => !(c = '\t' || c = '\x0d' || c = '\n'))

/-- Netloc detection of `urlsplit`: after `//`, the netloc runs to the first
of `/?#`. -/
def netlocSplit : List Char → List Char × List Char
  | '/' :: '/' :: r => (takeUntilAny ['/', '?', '#'] r, dropFromAny ['/', '?', '#'] r)
  | r => ([], r)

/-- `url.split('#', 1)` of `urlsplit`. -/
def fragSplit (rest : List Char) : List Char × List Char :=
  match splitFirst '#' rest with
  | none => (rest, [])
  | some (a, b) => (a, b)

/-- `url.split('?', 1)` of `urlsplit`. -/
def querySplit (rest : List Char) : List Char × List Char :=
  match splitFirst '?' rest with
  | none => (rest, [])
  | some (a, b) => (a, b)

/-- `urllib.parse.urlsplit`. Fails (Python `ValueError`) on a netloc with
unbalanced square brackets. The IPv6 validity check on bracketed hosts and
the non-ASCII netloc check are not modelled (ASCII bracket-free netlocs are
unaffected). -/
def urlsplitL (input : List Char) : Option UrlParts :=
  if ('[' ∈ (netlocSplit (schemeRest input).2).1 &&
        ']' ∉ (netlocSplit (schemeRest input).2).1)
      || (']' ∈ (netlocSplit (schemeRest input).2).1 &&
        '[' ∉ (netlocSplit (schemeRest input).2).1) then none
  else
    some ⟨(schemeRest input).1,
      (netlocSplit (schemeRest input).2).1,
      (querySplit (fragSplit (netlocSplit (schemeRest input).2).2).1).1,
      [],
      (querySplit (fragSplit (netlocSplit (schemeRest input).2).2).1).2,
      (fragSplit (netlocSplit (schemeRest input).2).2).2⟩

/-- `_splitparams`: split `;params` off the last path segment. -/
def splitParams (path : List Char) : List Char × List Char :=
  if '/' ∈ path then
    -- first ';' at or after the last '/'
    let pre := (path.reverse.dropWhile (· ≠ '/')).reverse  -- up to and incl. last '/'
    let seg := path.drop pre.length                         -- the last segment
    match splitFirst ';' seg with
    | none => (path, [])
    | some (a, b) => (pre ++ a, b)
  else
    match splitFirst ';' path with
    | none => (path, [])
    | some (a, b) => (a, b)

/-- `urllib.parse.urlparse`. -/
def urlparseL (l : List Char) : Option UrlParts :=
  match urlsplitL l with
  | none => none
  | some p =>
    if ';' ∈ p.path then
      let (path, params) := splitParams p.path
      some { p with path := path, params := params }
    else some p

/-- Schemes that use a network location (`urllib.parse.uses_netloc`). -/
def usesNetloc : List String :=
  ["", "ftp", "http", "gopher", "nntp", "telnet", "imap", "wais", "file",
   "mms", "https", "shttp", "snews", "prospero", "rtsp", "rtsps", "rtspu",
   "rsync", "svn", "svn+ssh", "sftp", "nfs", "git", "git+ssh", "ws", "wss"]

/-- The netloc-joining step of `urllib.parse.urlunsplit` (CPython 3.11
condition: emit `//` when a netloc is present, or when the scheme uses a
netloc and the url does not already start with `//`). -/
def urlNet (scheme netloc url : List Char) : List Char :=
  if netloc ≠ [] ||
      (scheme ≠ [] && decide (String.mk scheme ∈ usesNetloc) &&
        url.take 2 ≠ ['/', '/']) then
    '/' :: '/' :: (netloc ++ (if url ≠ [] && url.take 1 ≠ ['/'] then '/' :: url else url))
  else url

/-- `scheme + ':' + url` when a scheme is present. -/
def schemeJoin (scheme rest : List Char) : List Char :=
  if scheme ≠ [] then scheme ++ ':' :: rest else rest

/-- `url + '?' + query` when a query is present. -/
def queryJoin (u query : List Char) : List Char :=
  if query ≠ [] then u ++ '?' :: query else u

/-- `url + '#' + fragment` when a fragment is present. -/
def fragJoin (u fragment : List Char) : List Char :=
  if fragment ≠ [] then u ++ '#' :: fragment else u

/-- `urllib.parse.urlunsplit`. -/
def urlunsplitL (scheme netloc url query fragment : List Char) : List Char :=
  fragJoin (queryJoin (schemeJoin scheme (urlNet scheme netloc url)) query) fragment

/-- `urllib.parse.urlunparse`. -/
def urlunparseL (p : UrlParts) : List Char :=
  urlunsplitL p.scheme p.netloc
    (if p.params ≠ [] then p.path ++ ';' :: p.params else p.path) p.query p.fragment

/-! ## §5 `URLCanonicalizer` (`backend/apps/search/utils.py`) -/

/-- The tracking parameters removed during canonicalization
(`URLCanonicalizer.tracking_params`, verbatim — note the mixed-case `ranMID`
family, which can never match a lowercased key). -/
def trackingParams : List String :=
  ["utm_source", "utm_medium", "utm_campaign", "utm_term", "utm_content",
   "utm_id", "utm_source_platform", "utm_creative_format",
   "utm_marketing_tactic",
   "fbclid", "fb_action_ids", "fb_action_types", "fb_ref", "fb_source",
   "ref_src", "ref_url", "twclid",
   "gclid", "gclsrc", "dclid", "zanpid", "ranMID", "ranEAID", "ranSiteID",
   "spm", "_hsenc", "_hsmi", "hsctatracking", "mc_cid", "mc_eid",
   "pk_campaign", "pk_kwd", "pk_medium", "pk_source",
   "ref", "referer", "referrer", "source", "campaign", "medium",
   "t", "timestamp", "_t",
   "v", "version", "ver", "cache", "random", "r", "_"]

/-- Key filter of `_normalize_query`: `key.lower()` is in the tracking set or
starts with `utm_`. Takes the already-lowercased key. -/
def isTrackingKey (lk : List Char) : Bool :=
  decide (String.mk lk ∈ trackingParams) || List.isPrefixOf "utm_".data lk

/-- ASCII digit test. -/
def isDigitA (c : Char) : Bool := '0' ≤ c && c ≤ '9'

/-- One application of `re.sub(r"^www\d*\.", "", domain, IGNORECASE)` (the
anchored pattern matches at most once). -/
def stripWww (d : List Char) : List Char :=
  match d with
  | w1 :: w2 :: w3 :: rest =>
    if lowerChar w1 = 'w' && lowerChar w2 = 'w' && lowerChar w3 = 'w' then
      match rest.dropWhile isDigitA with
      | '.' :: tail => tail
      | _ => d
    else d
  | _ => d

/-- One application of `re.sub(r"^m\.", "", domain, IGNORECASE)`. -/
def stripM (d : List Char) : List Char :=
  match d with
  | m1 :: '.' :: tail => if lowerChar m1 = 'm' then tail else d
  | _ => d

/-- One application of `re.sub(r"^mobile\.", "", domain, IGNORECASE)`. -/
def stripMobile (d : List Char) : List Char :=
  if lowerL (d.take 7) = "mobile.".data then d.drop 7 else d

/-- `URLCanonicalizer._normalize_domain`: the three prefix patterns applied in
order. -/
def normalizeDomainL (d : List Char) : List Char :=
  if d = [] then d else stripMobile (stripM (stripWww d))

/-- Scanner for `re.sub(r"/+", "/", path)`: `prevSlash` records whether the
previous kept character was a slash (in which case further slashes are
dropped). -/
def collapseAux : List Char → Bool → List Char
  | [], _ => []
  | c :: rest, prevSlash =>
    if c = '/' then
      if prevSlash then collapseAux rest true
      else '/' :: collapseAux rest true
    else c :: collapseAux rest false

/-- `re.sub(r"/+", "/", path)`: collapse slash runs. -/
def collapseSlashes (l : List Char) : List Char := collapseAux l false

/-- `str.rstrip("/")`. -/
def rstripSlash (l : List Char) : List Char :=
  (l.reverse.dropWhile (· = '/')).reverse

/-- The trailing-slash removal step of `_normalize_path`:
`if len(path) > 1 and path.endswith("/"): path = path.rstrip("/")`. -/
def pathStep2 (path : List Char) : List Char :=
  if path.length > 1 && path.getLast? = some '/' then rstripSlash path
  else path

/-- `URLCanonicalizer._normalize_path`. -/
def normalizePathL (path : List Char) : List Char :=
  if path = [] then ['/']
  else if (pathStep2 (collapseSlashes path)).take 1 ≠ ['/'] then
    '/' :: pathStep2 (collapseSlashes path)
  else pathStep2 (collapseSlashes path)

/-- Python string `<=` as a relation (for `sorted`). -/
def strLeP (a b : List Char) : Prop := strLe a b = true

instance : DecidableRel strLeP := fun a b => instDecidableEqBool (strLe a b) true

/-- Values of a key in the `parse_qs` dict (`params[key]`). -/
def lookupVals : List (List Char × List (List Char)) → List Char → List (List Char)
  | [], _ => []
  | (k', vs) :: rest, k => if k' = k then vs else lookupVals rest k

/-- The parameter dict of `_normalize_query` after the two comprehension
filters (tracking keys removed, empty values removed). -/
def queryParams (query : List Char) : List (List Char × List (List Char)) :=
  ((parseQs query).filter fun p => !isTrackingKey (lowerL p.1)).filter fun p =>
    p.2 ≠ [] && p.2.any fun v => pyStripL v ≠ []

/-- `URLCanonicalizer._normalize_query` with the default flags
(`remove_tracking=True`, `sort_params=True`). -/
def normalizeQueryL (query : List Char) : List Char :=
  if query = [] then []
  else if queryParams query = [] then []
  else
    urlencodeL ((List.insertionSort strLeP ((queryParams query).map Prod.fst)).flatMap
      fun k => (List.insertionSort strLeP (lookupVals (queryParams query) k)).map
        fun v => (k, v))

/-- The component normalization of `canonicalize_url` (scheme lowercased or
defaulted to `https`, domain lowercased and stripped, path and query
normalized, `params` passed through, fragment removed). -/
def canonParts (p : UrlParts) : UrlParts :=
  ⟨if p.scheme ≠ [] then lowerL p.scheme else "https".data,
   normalizeDomainL (if p.netloc ≠ [] then lowerL p.netloc else []),
   normalizePathL p.path,
   p.params,
   normalizeQueryL p.query,
   []⟩

/-- `URLCanonicalizer.canonicalize_url` with the default options
(`remove_fragment`, `remove_tracking`, `normalize_domain`,
`sort_query_params` all true); also the module-level convenience function
`canonicalize_url`. -/
def canonicalizeUrl (url : String) : String :=
  if pyStripL url.data = [] then ""
  else
    match urlparseL (pyStripL url.data) with
    | none => String.mk (pyStripL url.data)  -- parsing raised; except returns input
    | some p =>
      if p.scheme = [] && p.netloc = [] then String.mk (pyStripL url.data)
      else String.mk (urlunparseL (canonParts p))

/-- `URLCanonicalizer.deduplicate_urls` (and the module-level
`deduplicate_urls`): keep each URL whose canonical form was not seen before. -/
def dedupUrlsAux : List String → List String → List String
  | [], _ => []
  | u :: rest, seen =>
    let c := canonicalizeUrl u
    if c ∈ seen then dedupUrlsAux rest seen
    else u :: dedupUrlsAux rest (c :: seen)

/-- `deduplicate_urls(urls)`. -/
def deduplicateUrls (urls : List String) : List String := dedupUrlsAux urls []

/-! ## §6 `ResultRanker` (`backend/apps/search/orchestrator.py`)

Scores are modelled in `ℚ` (the Python code uses floats; the structural
properties claimed — permutation, sortedness by the computed score, stability,
behaviour on empty input — do not depend on the numeric representation). -/

/-- `SearchResult` (`backend/apps/search/adapters.py`). `__post_init__`
canonicalizes `url` at construction; adapters in the orchestrator model below
produce arbitrary `SearchResult` values, which subsumes that. -/
structure SearchResult where
  title : String
  url : String
  snippet : String
  source : String
  deriving DecidableEq, Repr

/-- Python `str.split()`: split on whitespace runs, discarding empty pieces.
`acc` holds the current word reversed. -/
def splitWsAux : List Char → List Char → List (List Char)
  | [], acc => if acc = [] then [] else [acc.reverse]
  | c :: rest, acc =>
    if isPyWs c then
      if acc = [] then splitWsAux rest [] else acc.reverse :: splitWsAux rest []
    else splitWsAux rest (c :: acc)

/-- `s.split()` on a character list. -/
def splitWsL (l : List Char) : List (List Char) := splitWsAux l []

/-- `set(query.lower().split())` — the distinct lowercased words; modelled as
a duplicate-free list (only membership and cardinality are used). -/
def queryTermsOf (q : String) : List (List Char) :=
  (splitWsL (lowerL q.data)).dedup

/-- `len(query_terms.intersection(words))`: the number of distinct terms
occurring among `words`. -/
def interCount (terms : List (List Char)) (words : List (List Char)) : Nat :=
  (terms.filter fun t => decide (t ∈ words)).length

/-- `ResultRanker.source_scores` lookup with default `0.5`. -/
def sourceScore (src : String) : ℚ :=
  if src = "duckduckgo" then 9/10
  else if src = "google" then 19/20
  else if src = "bing" then 17/20
  else if src = "lynx" then 4/5
  else if src = "curl" then 3/4
  else 1/2

/-- Python's `needle in hay` prefix test helper: does `hay` start with
`needle`? -/
def startsWithL : List Char → List Char → Bool
  | [], _ => true
  | _ :: _, [] => false
  | a :: as, b :: bs => a = b && startsWithL as bs

/-- Python's substring test `needle in hay`. -/
def isSubL (needle : List Char) : List Char → Bool
  | [] => startsWithL needle []
  | hay@(_ :: rest) => startsWithL needle hay || isSubL needle rest

/-- `ResultRanker._calculate_domain_authority`: first matching indicator in
insertion order, default `0.5`. -/
def domainAuthority (url : String) : ℚ :=
  let u := lowerL url.data
  if isSubL ".edu".data u then 9/10
  else if isSubL ".gov".data u then 19/20
  else if isSubL ".org".data u then 4/5
  else if isSubL "wikipedia".data u then 17/20
  else if isSubL "github".data u then 4/5
  else if isSubL "stackoverflow".data u then 4/5
  else 1/2

/-- `ResultRanker._calculate_result_score` with the ranking factors
0.30/0.25/0.15/0.15/0.10/0.05. `terms` is the query-term set. -/
def calcScore (terms : List (List Char)) (r : SearchResult) : ℚ :=
  let titleWords := splitWsL (lowerL r.title.data)
  let titleScore : ℚ :=
    if terms = [] then 0 else (interCount terms titleWords : ℚ) / terms.length
  let snippetWords := splitWsL (lowerL r.snippet.data)
  let snippetScore : ℚ :=
    if terms = [] then 0 else (interCount terms snippetWords : ℚ) / terms.length
  let urlScore : ℚ := max 0 (1 - (r.url.data.length : ℚ) / 100)
  let contentScore : ℚ := min 1 ((r.snippet.data.length : ℚ) / 200)
  titleScore * (3/10) + snippetScore * (1/4) + urlScore * (3/20) +
    sourceScore r.source * (3/20) + contentScore * (1/10) +
    domainAuthority r.url * (1/20)

/-- The score of a result for a query. -/
def resultScore (q : String) (r : SearchResult) : ℚ :=
  calcScore (queryTermsOf q) r

/-- Ordering used to model Python's stable descending sort on the score:
higher score first, ties broken by the original position. On score-index
pairs with distinct indices this is a linear order, so the unique sorted
permutation below coincides with the output of any stable descending sort,
in particular CPython's `list.sort(key=score, reverse=True)`. -/
def rankRel (a b : ℚ × ℕ × SearchResult) : Prop :=
  b.1 < a.1 ∨ (a.1 = b.1 ∧ a.2.1 ≤ b.2.1)

instance : DecidableRel rankRel := fun a b =>
  decidable_of_iff (b.1 < a.1 ∨ (a.1 = b.1 ∧ a.2.1 ≤ b.2.1)) Iff.rfl

instance : IsTrans (ℚ × ℕ × SearchResult) rankRel where
  trans a b c hab hbc := by
    rcases hab with h1 | ⟨e1, i1⟩ <;> rcases hbc with h2 | ⟨e2, i2⟩
    · exact Or.inl (h2.trans h1)
    · exact Or.inl (by rw [← e2]; exact h1)
    · exact Or.inl (by rw [e1]; exact h2)
    · exact Or.inr ⟨e1.trans e2, i1.trans i2⟩

instance : IsTotal (ℚ × ℕ × SearchResult) rankRel where
  total a b := by
    rcases lt_trichotomy a.1 b.1 with h | h | h
    · exact Or.inr (Or.inl h)
    · rcases Nat.le_total a.2.1 b.2.1 with hi | hi
      · exact Or.inl (Or.inr ⟨h, hi⟩)
      · exact Or.inr (Or.inr ⟨h.symm, hi⟩)
    · exact Or.inl (Or.inl h)

/-- `ResultRanker.rank_results`. -/
def rankResults (results : List SearchResult) (query : String) :
    List SearchResult :=
  if results = [] then []
  else
    let terms := queryTermsOf query
    let scored := results.enum.map fun p => (calcScore terms p.2, p.1, p.2)
    (List.insertionSort rankRel scored).map fun t => t.2.2

/-! ## §7 `MetaSearchOrchestrator` (`backend/apps/search/orchestrator.py`)

An adapter is modelled by its name, a function from the query and limit to
either returned results (`some rs`) or a raised exception (`none`), and a
flag saying whether its future completed before `as_completed`'s shared
`timeout_seconds` deadline in a parallel fan-out. Elapsed wall-clock times
are 0, and completed futures are collected in adapter-list order (completion
order is not observable through any claim proved here). -/

/-- A loaded search adapter, as seen by the orchestrator. -/
structure AdapterModel where
  name : String
  run : String → Nat → Option (List SearchResult)
  completes : Bool

/-- Per-adapter performance counters
(`search_stats["adapter_performance"][name]`). -/
structure AdapterStats where
  calls : Nat
  successes : Nat
  totalTime : ℚ
  deriving DecidableEq, Repr

/-- The zero counters a `defaultdict` entry starts from. -/
def freshAdapterStats : AdapterStats := ⟨0, 0, 0⟩

/-- Aggregate orchestrator statistics (`search_stats`); the defaultdict is an
insertion-ordered association list. -/
structure SearchStats where
  totalSearches : Nat
  successfulSearches : Nat
  failedSearches : Nat
  totalResponseTime : ℚ
  adapterPerformance : List (String × AdapterStats)
  deriving DecidableEq, Repr

/-- All-zero statistics (a fresh orchestrator). -/
def emptyStats : SearchStats := ⟨0, 0, 0, 0, []⟩

/-- `SearchConfig` with its field defaults. -/
structure SearchConfig where
  maxResultsPerAdapter : Nat
  timeoutSeconds : Nat
  enableDeduplication : Bool
  enableRanking : Bool
  preferredAdapters : List String
  fallbackAdapters : List String
  minSnippetLength : Nat
  maxTotalResults : Nat
  deriving DecidableEq, Repr

/-- `SearchConfig()` — the dataclass defaults. -/
def defaultConfig : SearchConfig :=
  ⟨10, 30, true, true, ["duckduckgo", "lynx", "curl"], ["google", "bing"],
    20, 50⟩

/-- The strategy argument of `search`. Python's parameter is an arbitrary
object compared against the three `SearchStrategy` members; `invalid` stands
for any value that is none of them (reaching the `raise ValueError` branch). -/
inductive StrategyArg
  | parallel
  | sequential
  | adaptive
  | invalid
  deriving DecidableEq, Repr

/-- Update one entry of the adapter-performance association list, creating the
defaultdict entry if absent. -/
def perfUpdate (perf : List (String × AdapterStats)) (name : String)
    (success : Bool) (t : ℚ) : List (String × AdapterStats) :=
  match perf with
  | [] => [(name, ⟨1, if success then 1 else 0, t⟩)]
  | (n, a) :: rest =>
    if n = name then
      (n, ⟨a.calls + 1, a.successes + (if success then 1 else 0),
        a.totalTime + t⟩) :: rest
    else (n, a) :: perfUpdate rest name success t

/-- `MetaSearchOrchestrator._update_adapter_stats`. -/
def updateAdapterStats (st : SearchStats) (name : String) (success : Bool)
    (t : ℚ) : SearchStats :=
  { st with adapterPerformance := perfUpdate st.adapterPerformance name success t }

/-- Association-list read (missing entries read as the defaultdict zeros). -/
def lookupPerf : List (String × AdapterStats) → String → AdapterStats
  | [], _ => freshAdapterStats
  | (n, a) :: rest, name => if n = name then a else lookupPerf rest name

/-- Read an adapter's counters from the statistics. -/
def perfOf (st : SearchStats) (name : String) : AdapterStats :=
  lookupPerf st.adapterPerformance name

/-- `MetaSearchOrchestrator._search_with_adapter`: call the adapter, filter
by `min_snippet_length`, update the adapter's stats; on an exception update
stats with `success=False` and re-raise (`none`). -/
def searchWithAdapter (st : SearchStats) (a : AdapterModel) (query : String)
    (cfg : SearchConfig) : SearchStats × Option (List SearchResult) :=
  match a.run query cfg.maxResultsPerAdapter with
  | some rs =>
    let filtered := rs.filter fun r => cfg.minSnippetLength ≤ r.snippet.data.length
    (updateAdapterStats st a.name true 0, some filtered)
  | none => (updateAdapterStats st a.name false 0, none)

/-- The result-collection loop of `_execute_parallel_search`: each future that
completed before the deadline is collected; a future whose wrapper re-raised
has its exception caught here and the adapter's stats updated once more
(`success=False`). Futures still pending contribute nothing. -/
def parallelCollect (st : SearchStats) (adapters : List AdapterModel)
    (query : String) (cfg : SearchConfig) : SearchStats × List SearchResult :=
  match adapters with
  | [] => (st, [])
  | a :: rest =>
    if a.completes then
      match searchWithAdapter st a query cfg with
      | (st', some rs) =>
        let (st'', acc) := parallelCollect st' rest query cfg
        (st'', rs ++ acc)
      | (st', none) =>
        let st'' := updateAdapterStats st' a.name false 0
        parallelCollect st'' rest query cfg
    else parallelCollect st rest query cfg

/-- `MetaSearchOrchestrator._execute_parallel_search`: empty adapter list
returns `[]` at once; otherwise collect completed futures, and if any future
was still pending when the shared budget expired, `as_completed` raises
`TimeoutError` (`error`), discarding the collected results. -/
def executeParallel (st : SearchStats) (adapters : List AdapterModel)
    (query : String) (cfg : SearchConfig) :
    SearchStats × Except Unit (List SearchResult) :=
  if adapters.isEmpty then (st, .ok [])
  else
    let (st', rs) := parallelCollect st adapters query cfg
    if adapters.all (·.completes) then (st', .ok rs) else (st', .error ())

/-- `MetaSearchOrchestrator._execute_sequential_search`: adapters run one at
a time on the calling thread (no timeout mechanism; the model assumes each
call returns). A raising adapter is caught in the loop and its stats updated
once more. -/
def executeSequential (st : SearchStats) (adapters : List AdapterModel)
    (query : String) (cfg : SearchConfig) : SearchStats × List SearchResult :=
  match adapters with
  | [] => (st, [])
  | a :: rest =>
    match searchWithAdapter st a query cfg with
    | (st', some rs) =>
      let (st'', acc) := executeSequential st' rest query cfg
      (st'', rs ++ acc)
    | (st', none) =>
      let st'' := updateAdapterStats st' a.name false 0
      executeSequential st'' rest query cfg

/-- Orchestrator state: configuration, loaded adapters, statistics. -/
structure OrchState where
  config : SearchConfig
  adapters : List AdapterModel
  stats : SearchStats

/-- The fresh `SearchConfig(...)` built for the adaptive quick pass: unset
fields take the dataclass defaults, in particular `min_snippet_length = 20`
and the default adapter tier lists. -/
def adaptiveQuickCfg (cfg : SearchConfig) : SearchConfig :=
  { defaultConfig with
    maxResultsPerAdapter := cfg.maxResultsPerAdapter / 2
    timeoutSeconds := cfg.timeoutSeconds / 2
    enableDeduplication := cfg.enableDeduplication
    enableRanking := false }

/-- First (preferred) tier of `_execute_adaptive_search`: the source swaps
`self.adapters` to the preferred subset around the parallel sub-pass and
swaps it back afterwards; if the sub-pass raises, the restoring assignment is
never executed, so the state keeps the swapped subset. -/
def adaptiveTier1 (s : OrchState) (query : String) (cfg : SearchConfig) :
    OrchState × Except Unit (List SearchResult) :=
  if (s.adapters.filter fun a => decide (a.name ∈ cfg.preferredAdapters)).isEmpty then
    (s, .ok [])
  else
    match executeParallel s.stats
        (s.adapters.filter fun a => decide (a.name ∈ cfg.preferredAdapters))
        query (adaptiveQuickCfg cfg) with
    | (st', Except.ok rs) => ({ s with stats := st' }, .ok rs)
    | (st', Except.error e) =>
      ({ s with
          stats := st'
          adapters := s.adapters.filter fun a => decide (a.name ∈ cfg.preferredAdapters) },
        .error e)

/-- Second (fallback) tier of `_execute_adaptive_search`, entered when the
first tier underdelivers; same swap behaviour. -/
def adaptiveTier2 (s1 : OrchState) (results : List SearchResult)
    (query : String) (cfg : SearchConfig) :
    OrchState × Except Unit (List SearchResult) :=
  if results.length < cfg.maxTotalResults / 2 then
    if (s1.adapters.filter fun a => decide (a.name ∈ cfg.fallbackAdapters)).isEmpty then
      (s1, .ok results)
    else
      match executeParallel s1.stats
          (s1.adapters.filter fun a => decide (a.name ∈ cfg.fallbackAdapters))
          query cfg with
      | (st', Except.ok rs2) => ({ s1 with stats := st' }, .ok (results ++ rs2))
      | (st', Except.error e) =>
        ({ s1 with
            stats := st'
            adapters := s1.adapters.filter fun a => decide (a.name ∈ cfg.fallbackAdapters) },
          .error e)
  else (s1, .ok results)

/-- `MetaSearchOrchestrator._execute_adaptive_search`. -/
def executeAdaptive (s : OrchState) (query : String) (cfg : SearchConfig) :
    OrchState × Except Unit (List SearchResult) :=
  match adaptiveTier1 s query cfg with
  | (s1, Except.error e) => (s1, .error e)
  | (s1, Except.ok results) => adaptiveTier2 s1 results query cfg

/-- Inner loop of `_deduplicate_results`: keep a result whose URL is among the
deduplicated URLs and not yet seen. -/
def dedupResultsAux : List SearchResult → List String → List String →
    List SearchResult
  | [], _, _ => []
  | r :: rest, uniq, seen =>
    if decide (r.url ∈ uniq) && !decide (r.url ∈ seen) then
      r :: dedupResultsAux rest uniq (r.url :: seen)
    else dedupResultsAux rest uniq seen

/-- `MetaSearchOrchestrator._deduplicate_results`. -/
def dedupResults (rs : List SearchResult) : List SearchResult :=
  if rs = [] then []
  else dedupResultsAux rs (deduplicateUrls (rs.map (·.url))) []

/-- The `total_searches` increment `search` performs before dispatching. -/
def bumpTotal (s : OrchState) : OrchState :=
  { s with stats := { s.stats with totalSearches := s.stats.totalSearches + 1 } }

/-- The strategy dispatch inside `search`'s `try` block. `invalid` reaches the
`raise ValueError(f"Unknown search strategy: ...")` branch. -/
def dispatchStrategy (s : OrchState) (query : String) (strategy : StrategyArg)
    (cfg : SearchConfig) : OrchState × Except Unit (List SearchResult) :=
  match strategy with
  | .parallel =>
    let (st', r) := executeParallel s.stats s.adapters query cfg
    ({ s with stats := st' }, r)
  | .sequential =>
    let (st', rs) := executeSequential s.stats s.adapters query cfg
    ({ s with stats := st' }, .ok rs)
  | .adaptive => executeAdaptive s query cfg
  | .invalid => (s, .error ())

/-- The post-processing steps of `search`: optional deduplication, optional
ranking, truncation to `max_total_results`. -/
def postProcess (cfg : SearchConfig) (query : String)
    (results : List SearchResult) : List SearchResult :=
  let results := if cfg.enableDeduplication then dedupResults results else results
  let results := if cfg.enableRanking then rankResults results query else results
  results.take cfg.maxTotalResults

/-- `MetaSearchOrchestrator.search`. The whole strategy dispatch and
post-processing run inside `try: ... except Exception:`, which catches both
the `raise ValueError` for an unknown strategy and any `TimeoutError`
escaping a parallel fan-out, counts a failed search, and returns `[]`. -/
def search (s : OrchState) (query : String) (strategy : StrategyArg)
    (cfgOverride : Option SearchConfig) : OrchState × List SearchResult :=
  match dispatchStrategy (bumpTotal s) query strategy (cfgOverride.getD s.config) with
  | (s', Except.error _) =>
    ({ s' with stats :=
        { s'.stats with failedSearches := s'.stats.failedSearches + 1 } }, [])
  | (s', Except.ok results) =>
    ({ s' with stats :=
        { s'.stats with
          successfulSearches := s'.stats.successfulSearches + 1
          totalResponseTime := s'.stats.totalResponseTime + 0 } },
      postProcess (cfgOverride.getD s.config) query results)

/-- No two adjacent slashes (characterizes `collapseSlashes` output). -/
def noDS : List Char → Bool
  | [] => true
  | c :: rest =>
    match rest with
    | [] => true
    | b :: _ => !(c = '/' && b = '/') && noDS rest

/-! ## §8 Concrete fixtures used by counterexamples and witnesses -/

/-- A 30-character snippet (passes the default quality gate). -/
def snippet30 : String := ⟨List.replicate 30 'x'⟩

/-- A 20-character snippet (passes the default gate, fails a gate of 25). -/
def snippet20 : String := ⟨List.replicate 20 'x'⟩

/-- A result with a long snippet. -/
def resGood : SearchResult := ⟨"T", "https://good-example.com/a", snippet30, "duckduckgo"⟩

/-- A result whose snippet has exactly 20 characters. -/
def resShort : SearchResult := ⟨"T", "https://short-example.com/a", snippet20, "duckduckgo"⟩

/-- An adapter whose `search` always raises. -/
def adapterFailing : AdapterModel := ⟨"duckduckgo", fun _ _ => none, true⟩

/-- An adapter returning one good result, completing in time. -/
def adapterGood : AdapterModel := ⟨"duckduckgo", fun _ _ => some [resGood], true⟩

/-- An adapter returning a result but still pending at the deadline. -/
def adapterPending : AdapterModel := ⟨"google", fun _ _ => some [resGood], false⟩

/-- An adapter returning only the short-snippet result. -/
def adapterShort : AdapterModel := ⟨"duckduckgo", fun _ _ => some [resShort], true⟩

/-- A preferred-tier adapter still pending at the (halved) deadline. -/
def adapterPrefPending : AdapterModel := ⟨"duckduckgo", fun _ _ => some [resGood], false⟩

/-- An adapter that belongs to neither the preferred nor the fallback tier. -/
def adapterOther : AdapterModel := ⟨"zzz", fun _ _ => some [resGood], true⟩

/-- Default config with `min_snippet_length` raised to 25. -/
def cfgMin25 : SearchConfig := { defaultConfig with minSnippetLength := 25 }

/-- Orchestrator with a single failing provider. -/
def c1State : OrchState := ⟨defaultConfig, [adapterFailing], emptyStats⟩

/-- Orchestrator with one completing and one pending provider. -/
def c3State : OrchState := ⟨defaultConfig, [adapterGood, adapterPending], emptyStats⟩

/-- Orchestrator with `minSnippetLength = 25` and a short-snippet provider. -/
def c4State : OrchState := ⟨cfgMin25, [adapterShort], emptyStats⟩

/-- Orchestrator whose preferred-tier adapter is pending. -/
def c9State : OrchState := ⟨defaultConfig, [adapterPrefPending, adapterOther], emptyStats⟩

/-- Orchestrator with no providers loaded. -/
def emptyState : OrchState := ⟨defaultConfig, [], emptyStats⟩

/-! ## §9 Helper lemmas about the orchestrator -/

theorem lookupPerf_perfUpdate_self (perf : List (String × AdapterStats))
    (name : String) (b : Bool) (t : ℚ) :
    lookupPerf (perfUpdate perf name b t) name =
      ⟨(lookupPerf perf name).calls + 1,
        (lookupPerf perf name).successes + (if b then 1 else 0),
        (lookupPerf perf name).totalTime + t⟩ := by
  induction perf with
  | nil => simp [lookupPerf, perfUpdate, freshAdapterStats]
  | cons p rest ih =>
    obtain ⟨n, a⟩ := p
    by_cases h : n = name
    · simp [lookupPerf, perfUpdate, h]
    · simp [lookupPerf, perfUpdate, h, ih]

theorem perfOf_update_self (st : SearchStats) (name : String) (b : Bool) (t : ℚ) :
    perfOf (updateAdapterStats st name b t) name =
      ⟨(perfOf st name).calls + 1,
        (perfOf st name).successes + (if b then 1 else 0),
        (perfOf st name).totalTime + t⟩ := by
  simp [perfOf, updateAdapterStats, lookupPerf_perfUpdate_self]

/-- `updateAdapterStats` touches only the per-adapter map. -/
theorem updateAdapterStats_counters (st : SearchStats) (name : String)
    (b : Bool) (t : ℚ) :
    (updateAdapterStats st name b t).totalSearches = st.totalSearches ∧
    (updateAdapterStats st name b t).successfulSearches = st.successfulSearches ∧
    (updateAdapterStats st name b t).failedSearches = st.failedSearches :=
  ⟨rfl, rfl, rfl⟩

/-- `searchWithAdapter` does not touch the aggregate counters. -/
theorem searchWithAdapter_counters (st : SearchStats) (a : AdapterModel)
    (q : String) (cfg : SearchConfig) :
    ((searchWithAdapter st a q cfg).1).totalSearches = st.totalSearches ∧
    ((searchWithAdapter st a q cfg).1).successfulSearches = st.successfulSearches ∧
    ((searchWithAdapter st a q cfg).1).failedSearches = st.failedSearches := by
  unfold searchWithAdapter
  cases a.run q cfg.maxResultsPerAdapter <;> exact ⟨rfl, rfl, rfl⟩

/-- If every listed adapter raises, the parallel collection loop gathers no
results. -/
theorem parallelCollect_results_nil (q : String) (cfg : SearchConfig) :
    ∀ (l : List AdapterModel) (st : SearchStats),
      (∀ a ∈ l, a.run q cfg.maxResultsPerAdapter = none) →
      (parallelCollect st l q cfg).2 = [] := by
  intro l
  induction l with
  | nil => intro st _; rfl
  | cons a rest ih =>
    intro st hfail
    have ha := hfail a (List.mem_cons_self a rest)
    have hrest : ∀ b ∈ rest, b.run q cfg.maxResultsPerAdapter = none :=
      fun b hb => hfail b (List.mem_cons_of_mem a hb)
    unfold parallelCollect
    by_cases hc : a.completes
    · simp only [hc, if_true]
      unfold searchWithAdapter
      rw [ha]
      exact ih _ hrest
    · simp only [hc, if_false]
      exact ih _ hrest

/-- When every listed adapter's future completes before the deadline,
`_execute_parallel_search` returns the collected results normally. -/
theorem executeParallel_allComplete (st : SearchStats) (l : List AdapterModel)
    (q : String) (cfg : SearchConfig) (hc : ∀ a ∈ l, a.completes = true) :
    executeParallel st l q cfg =
      ((parallelCollect st l q cfg).1, .ok (parallelCollect st l q cfg).2) := by
  unfold executeParallel
  cases l with
  | nil => rfl
  | cons a rest =>
    have hall : (a :: rest).all (·.completes) = true := List.all_eq_true.mpr hc
    simp [hall]

/-- If some listed adapter is still pending at the deadline (and the list is
nonempty), the parallel fan-out raises `TimeoutError`, discarding the
collected results. -/
theorem executeParallel_pending (st : SearchStats) (l : List AdapterModel)
    (q : String) (cfg : SearchConfig) (a : AdapterModel) (ha : a ∈ l)
    (hp : a.completes = false) :
    (executeParallel st l q cfg).2 = .error () := by
  unfold executeParallel
  cases l with
  | nil => cases ha
  | cons b rest =>
    have hall : (b :: rest).all (·.completes) = false := by
      rw [List.all_eq_false]
      exact ⟨a, ha, by simp [hp]⟩
    simp [hall]

/-- If every listed adapter raises, the sequential strategy gathers no
results. -/
theorem executeSequential_results_nil (q : String) (cfg : SearchConfig) :
    ∀ (l : List AdapterModel) (st : SearchStats),
      (∀ a ∈ l, a.run q cfg.maxResultsPerAdapter = none) →
      (executeSequential st l q cfg).2 = [] := by
  intro l
  induction l with
  | nil => intro st _; rfl
  | cons a rest ih =>
    intro st hfail
    have ha := hfail a (List.mem_cons_self a rest)
    have hrest : ∀ b ∈ rest, b.run q cfg.maxResultsPerAdapter = none :=
      fun b hb => hfail b (List.mem_cons_of_mem a hb)
    unfold executeSequential searchWithAdapter
    rw [ha]
    exact ih _ hrest

/-- When every loaded adapter completes, the first adaptive tier returns
normally and its swap is undone. -/
theorem adaptiveTier1_allComplete (s : OrchState) (q : String)
    (cfg : SearchConfig) (hc : ∀ a ∈ s.adapters, a.completes = true) :
    ((adaptiveTier1 s q cfg).1).adapters = s.adapters ∧
      ∃ rs, (adaptiveTier1 s q cfg).2 = .ok rs := by
  have hpref : ∀ a ∈ s.adapters.filter
      (fun a => decide (a.name ∈ cfg.preferredAdapters)), a.completes = true :=
    fun a haf => hc a (List.mem_of_mem_filter haf)
  unfold adaptiveTier1
  by_cases h1 : (s.adapters.filter
      (fun a => decide (a.name ∈ cfg.preferredAdapters))).isEmpty
  · simp [h1]
  · rw [executeParallel_allComplete _ _ _ _ hpref]
    simp [h1]

/-- When every adapter of the (restored) state completes, the second adaptive
tier returns normally and its swap is undone. -/
theorem adaptiveTier2_allComplete (s1 : OrchState) (results : List SearchResult)
    (q : String) (cfg : SearchConfig)
    (hc : ∀ a ∈ s1.adapters, a.completes = true) :
    ((adaptiveTier2 s1 results q cfg).1).adapters = s1.adapters ∧
      ∃ rs, (adaptiveTier2 s1 results q cfg).2 = .ok rs := by
  have hfall : ∀ a ∈ s1.adapters.filter
      (fun a => decide (a.name ∈ cfg.fallbackAdapters)), a.completes = true :=
    fun a haf => hc a (List.mem_of_mem_filter haf)
  unfold adaptiveTier2
  by_cases h2 : results.length < cfg.maxTotalResults / 2
  · by_cases h1 : (s1.adapters.filter
        (fun a => decide (a.name ∈ cfg.fallbackAdapters))).isEmpty
    · simp [h1, h2]
    · rw [executeParallel_allComplete _ _ _ _ hfall]
      simp [h1, h2]
  · simp [h2]

/-- When every loaded adapter completes, the adaptive strategy returns
normally and the temporary adapter-list swaps are undone. -/
theorem executeAdaptive_allComplete (s : OrchState) (q : String)
    (cfg : SearchConfig) (hc : ∀ a ∈ s.adapters, a.completes = true) :
    ((executeAdaptive s q cfg).1).adapters = s.adapters ∧
      ∃ rs, (executeAdaptive s q cfg).2 = .ok rs := by
  obtain ⟨ha1, rs1, hr1⟩ := adaptiveTier1_allComplete s q cfg hc
  unfold executeAdaptive
  rcases hE : adaptiveTier1 s q cfg with ⟨s1, r1⟩
  rw [hE] at ha1 hr1
  simp only [Prod.snd] at hr1
  simp only [Prod.fst] at ha1
  rw [hr1]
  have hcs1 : ∀ a ∈ s1.adapters, a.completes = true := by rw [ha1]; exact hc
  obtain ⟨ha2, rs2, hr2⟩ := adaptiveTier2_allComplete s1 rs1 q cfg hcs1
  exact ⟨by rw [← ha1]; exact ha2, rs2, hr2⟩

/-- The collection loop never touches the aggregate counters. -/
theorem parallelCollect_counters (q : String) (cfg : SearchConfig) :
    ∀ (l : List AdapterModel) (st : SearchStats),
      ((parallelCollect st l q cfg).1.totalSearches = st.totalSearches ∧
        (parallelCollect st l q cfg).1.successfulSearches = st.successfulSearches ∧
        (parallelCollect st l q cfg).1.failedSearches = st.failedSearches) := by
  intro l
  induction l with
  | nil => intro st; exact ⟨rfl, rfl, rfl⟩
  | cons a rest ih =>
    intro st
    unfold parallelCollect searchWithAdapter
    by_cases hc : a.completes
    · simp only [hc, if_true]
      cases hR : a.run q cfg.maxResultsPerAdapter with
      | some rs =>
        rcases hP : parallelCollect (updateAdapterStats st a.name true 0)
            rest q cfg with ⟨st2, acc⟩
        have h := ih (updateAdapterStats st a.name true 0)
        rw [hP] at h
        exact ⟨by simp [hP]; exact h.1, by simp [hP]; exact h.2.1,
          by simp [hP]; exact h.2.2⟩
      | none => exact ih _
    · simp only [hc, if_false]
      exact ih st

/-- `_execute_parallel_search` never touches the aggregate counters. -/
theorem executeParallel_counters (st : SearchStats) (l : List AdapterModel)
    (q : String) (cfg : SearchConfig) :
    (executeParallel st l q cfg).1.totalSearches = st.totalSearches ∧
    (executeParallel st l q cfg).1.successfulSearches = st.successfulSearches ∧
    (executeParallel st l q cfg).1.failedSearches = st.failedSearches := by
  unfold executeParallel
  have h := parallelCollect_counters q cfg l st
  by_cases he : l.isEmpty
  · simp [he]
  · by_cases ha : l.all (·.completes)
    · simp only [he, ha, if_false, if_true]
      exact h
    · simp only [he, ha, if_false]
      exact h

/-- `_execute_sequential_search` never touches the aggregate counters. -/
theorem executeSequential_counters (q : String) (cfg : SearchConfig) :
    ∀ (l : List AdapterModel) (st : SearchStats),
      ((executeSequential st l q cfg).1.totalSearches = st.totalSearches ∧
        (executeSequential st l q cfg).1.successfulSearches = st.successfulSearches ∧
        (executeSequential st l q cfg).1.failedSearches = st.failedSearches) := by
  intro l
  induction l with
  | nil => intro st; exact ⟨rfl, rfl, rfl⟩
  | cons a rest ih =>
    intro st
    unfold executeSequential searchWithAdapter
    cases hR : a.run q cfg.maxResultsPerAdapter with
    | some rs =>
      rcases hP : executeSequential (updateAdapterStats st a.name true 0)
          rest q cfg with ⟨st2, acc⟩
      have h := ih (updateAdapterStats st a.name true 0)
      rw [hP] at h
      exact ⟨by simp [hP]; exact h.1, by simp [hP]; exact h.2.1,
        by simp [hP]; exact h.2.2⟩
    | none => exact ih _

/-- The first adaptive tier never touches the aggregate counters. -/
theorem adaptiveTier1_counters (s : OrchState) (q : String) (cfg : SearchConfig) :
    ((adaptiveTier1 s q cfg).1).stats.totalSearches = s.stats.totalSearches ∧
    ((adaptiveTier1 s q cfg).1).stats.successfulSearches = s.stats.successfulSearches ∧
    ((adaptiveTier1 s q cfg).1).stats.failedSearches = s.stats.failedSearches := by
  unfold adaptiveTier1
  by_cases h1 : (s.adapters.filter
      (fun a => decide (a.name ∈ cfg.preferredAdapters))).isEmpty
  · simp [h1]
  · simp only [h1, if_false]
    rcases hE : executeParallel s.stats
        (s.adapters.filter fun a => decide (a.name ∈ cfg.preferredAdapters))
        q (adaptiveQuickCfg cfg) with ⟨st', r⟩
    have hcnt := executeParallel_counters s.stats
      (s.adapters.filter fun a => decide (a.name ∈ cfg.preferredAdapters))
      q (adaptiveQuickCfg cfg)
    rw [hE] at hcnt
    cases r <;> exact hcnt

/-- The second adaptive tier never touches the aggregate counters. -/
theorem adaptiveTier2_counters (s1 : OrchState) (results : List SearchResult)
    (q : String) (cfg : SearchConfig) :
    ((adaptiveTier2 s1 results q cfg).1).stats.totalSearches = s1.stats.totalSearches ∧
    ((adaptiveTier2 s1 results q cfg).1).stats.successfulSearches = s1.stats.successfulSearches ∧
    ((adaptiveTier2 s1 results q cfg).1).stats.failedSearches = s1.stats.failedSearches := by
  unfold adaptiveTier2
  by_cases h2 : results.length < cfg.maxTotalResults / 2
  · by_cases h1 : (s1.adapters.filter
        (fun a => decide (a.name ∈ cfg.fallbackAdapters))).isEmpty
    · simp [h1, h2]
    · simp only [h1, h2, if_true, if_false]
      rcases hE : executeParallel s1.stats
          (s1.adapters.filter fun a => decide (a.name ∈ cfg.fallbackAdapters))
          q cfg with ⟨st', r⟩
      have hcnt := executeParallel_counters s1.stats
        (s1.adapters.filter fun a => decide (a.name ∈ cfg.fallbackAdapters)) q cfg
      rw [hE] at hcnt
      cases r <;> exact hcnt
  · simp [h2]

/-- `_execute_adaptive_search` never touches the aggregate counters. -/
theorem executeAdaptive_counters (s : OrchState) (q : String) (cfg : SearchConfig) :
    ((executeAdaptive s q cfg).1).stats.totalSearches = s.stats.totalSearches ∧
    ((executeAdaptive s q cfg).1).stats.successfulSearches = s.stats.successfulSearches ∧
    ((executeAdaptive s q cfg).1).stats.failedSearches = s.stats.failedSearches := by
  unfold executeAdaptive
  rcases hE : adaptiveTier1 s q cfg with ⟨s1, r1⟩
  have h1 := adaptiveTier1_counters s q cfg
  rw [hE] at h1
  cases r1 with
  | error e => exact h1
  | ok results =>
    have h2 := adaptiveTier2_counters s1 results q cfg
    exact ⟨h2.1.trans h1.1, h2.2.1.trans h1.2.1, h2.2.2.trans h1.2.2⟩

/-- The dispatch layer never touches the aggregate counters. -/
theorem dispatchStrategy_counters (s : OrchState) (q : String)
    (strat : StrategyArg) (cfg : SearchConfig) :
    ((dispatchStrategy s q strat cfg).1).stats.totalSearches = s.stats.totalSearches ∧
    ((dispatchStrategy s q strat cfg).1).stats.successfulSearches = s.stats.successfulSearches ∧
    ((dispatchStrategy s q strat cfg).1).stats.failedSearches = s.stats.failedSearches := by
  cases strat with
  | parallel =>
    have := executeParallel_counters s.stats s.adapters q cfg
    unfold dispatchStrategy
    rcases hE : executeParallel s.stats s.adapters q cfg with ⟨st', r⟩
    rw [hE] at this
    exact this
  | sequential =>
    have := executeSequential_counters q cfg s.adapters s.stats
    unfold dispatchStrategy
    rcases hE : executeSequential s.stats s.adapters q cfg with ⟨st', r⟩
    rw [hE] at this
    exact this
  | adaptive => exact executeAdaptive_counters s q cfg
  | invalid => exact ⟨rfl, rfl, rfl⟩

/-- Post-processing an empty result list yields an empty list. -/
theorem postProcess_nil (cfg : SearchConfig) (q : String) :
    postProcess cfg q [] = [] := by
  unfold postProcess
  cases hd : cfg.enableDeduplication <;> cases hr : cfg.enableRanking <;>
    simp [dedupResults, rankResults]

/-- Shape of `search` when the dispatch returns normally. -/
theorem search_ok_shape (s : OrchState) (q : String) (strat : StrategyArg)
    (cfgO : Option SearchConfig) (s' : OrchState) (rs : List SearchResult)
    (h : dispatchStrategy (bumpTotal s) q strat (cfgO.getD s.config) = (s', Except.ok rs)) :
    search s q strat cfgO =
      ({ s' with stats :=
          { s'.stats with
            successfulSearches := s'.stats.successfulSearches + 1
            totalResponseTime := s'.stats.totalResponseTime + 0 } },
        postProcess (cfgO.getD s.config) q rs) := by
  unfold search
  rw [h]

/-- Shape of `search` when the dispatch raises. -/
theorem search_error_shape (s : OrchState) (q : String) (strat : StrategyArg)
    (cfgO : Option SearchConfig) (s' : OrchState) (e : Unit)
    (h : dispatchStrategy (bumpTotal s) q strat (cfgO.getD s.config) = (s', Except.error e)) :
    search s q strat cfgO =
      ({ s' with stats :=
          { s'.stats with failedSearches := s'.stats.failedSearches + 1 } }, []) := by
  unfold search
  rw [h]

/-- Dispatch with the Parallel strategy: result component. -/
theorem dispatchParallel_eq (s : OrchState) (q : String) (cfg : SearchConfig) :
    dispatchStrategy s q .parallel cfg =
      ({ s with stats := (executeParallel s.stats s.adapters q cfg).1 },
        (executeParallel s.stats s.adapters q cfg).2) := by
  unfold dispatchStrategy
  rcases hE : executeParallel s.stats s.adapters q cfg with ⟨st', r⟩
  simp [hE]

/-- Dispatch with the Sequential strategy. -/
theorem dispatchSequential_eq (s : OrchState) (q : String) (cfg : SearchConfig) :
    dispatchStrategy s q .sequential cfg =
      ({ s with stats := (executeSequential s.stats s.adapters q cfg).1 },
        .ok (executeSequential s.stats s.adapters q cfg).2) := by
  unfold dispatchStrategy
  rcases hE : executeSequential s.stats s.adapters q cfg with ⟨st', r⟩
  simp [hE]

/-- If every loaded adapter raises but completes, the first adaptive tier
returns no results and restores the adapter list. -/
theorem adaptiveTier1_allFail (s : OrchState) (q : String) (cfg : SearchConfig)
    (hfail : ∀ a ∈ s.adapters, ∀ q' n, a.run q' n = none)
    (hdone : ∀ a ∈ s.adapters, a.completes = true) :
    ((adaptiveTier1 s q cfg).1).adapters = s.adapters ∧
      (adaptiveTier1 s q cfg).2 = .ok [] := by
  have hpref : ∀ a ∈ s.adapters.filter
      (fun a => decide (a.name ∈ cfg.preferredAdapters)), a.completes = true :=
    fun a haf => hdone a (List.mem_of_mem_filter haf)
  unfold adaptiveTier1
  by_cases h1 : (s.adapters.filter
      (fun a => decide (a.name ∈ cfg.preferredAdapters))).isEmpty
  · simp [h1]
  · rw [executeParallel_allComplete _ _ _ _ hpref]
    have hnil := parallelCollect_results_nil q (adaptiveQuickCfg cfg)
      (s.adapters.filter fun a => decide (a.name ∈ cfg.preferredAdapters)) s.stats
      (fun a haf => hfail a (List.mem_of_mem_filter haf) _ _)
    simp [h1, hnil]

/-- If every adapter of the restored state raises but completes, the second
adaptive tier passes through its input results and restores the list. -/
theorem adaptiveTier2_allFail (s1 : OrchState) (results : List SearchResult)
    (q : String) (cfg : SearchConfig)
    (hfail : ∀ a ∈ s1.adapters, ∀ q' n, a.run q' n = none)
    (hdone : ∀ a ∈ s1.adapters, a.completes = true) :
    ((adaptiveTier2 s1 results q cfg).1).adapters = s1.adapters ∧
      (adaptiveTier2 s1 results q cfg).2 = .ok results := by
  have hfall : ∀ a ∈ s1.adapters.filter
      (fun a => decide (a.name ∈ cfg.fallbackAdapters)), a.completes = true :=
    fun a haf => hdone a (List.mem_of_mem_filter haf)
  unfold adaptiveTier2
  by_cases h2 : results.length < cfg.maxTotalResults / 2
  · by_cases h1 : (s1.adapters.filter
        (fun a => decide (a.name ∈ cfg.fallbackAdapters))).isEmpty
    · simp [h1, h2]
    · rw [executeParallel_allComplete _ _ _ _ hfall]
      have hnil := parallelCollect_results_nil q cfg
        (s1.adapters.filter fun a => decide (a.name ∈ cfg.fallbackAdapters)) s1.stats
        (fun a haf => hfail a (List.mem_of_mem_filter haf) _ _)
      simp [h1, h2, hnil]
  · simp [h2]

/-- If every loaded adapter raises but completes, the whole adaptive strategy
returns no results and restores the adapter list. -/
theorem executeAdaptive_allFail (s : OrchState) (q : String) (cfg : SearchConfig)
    (hfail : ∀ a ∈ s.adapters, ∀ q' n, a.run q' n = none)
    (hdone : ∀ a ∈ s.adapters, a.completes = true) :
    (executeAdaptive s q cfg).2 = .ok [] := by
  obtain ⟨ha1, hr1⟩ := adaptiveTier1_allFail s q cfg hfail hdone
  unfold executeAdaptive
  rcases hE : adaptiveTier1 s q cfg with ⟨s1, r1⟩
  rw [hE] at ha1 hr1
  simp only at ha1 hr1
  rw [hr1]
  have hf1 : ∀ a ∈ s1.adapters, ∀ q' n, a.run q' n = none := by
    rw [ha1]; exact hfail
  have hd1 : ∀ a ∈ s1.adapters, a.completes = true := by
    rw [ha1]; exact hdone
  exact (adaptiveTier2_allFail s1 [] q cfg hf1 hd1).2

/-- If every loaded adapter raises but completes, the strategy dispatch (for
any genuine strategy) succeeds with an empty result list. -/
theorem dispatchStrategy_allFail (s : OrchState) (q : String)
    (strat : StrategyArg) (cfg : SearchConfig) (hstrat : strat ≠ .invalid)
    (hfail : ∀ a ∈ s.adapters, ∀ q' n, a.run q' n = none)
    (hdone : ∀ a ∈ s.adapters, a.completes = true) :
    (dispatchStrategy s q strat cfg).2 = .ok [] := by
  cases strat with
  | invalid => exact absurd rfl hstrat
  | parallel =>
    rw [dispatchParallel_eq, executeParallel_allComplete _ _ _ _ hdone]
    have hnil := parallelCollect_results_nil q cfg s.adapters s.stats
      (fun a ha => hfail a ha _ _)
    simp [hnil]
  | sequential =>
    rw [dispatchSequential_eq]
    have hnil := executeSequential_results_nil q cfg s.adapters s.stats
      (fun a ha => hfail a ha _ _)
    simp [hnil]
  | adaptive => exact executeAdaptive_allFail s q cfg hfail hdone

/-- C1 (amended): if every loaded provider fails (raises) during a Search
call under any genuine strategy, and every provider future completes before
the deadline, `Orchestrator.search` returns normally with an empty list and
the call is recorded as SUCCESSFUL: `total_searches` and
`successful_searches` are incremented and `failed_searches` is unchanged —
provider failures are contained below the strategy layer and never reach the
failed-search counter. -/
theorem c1_allProvidersFail_countedSuccessful (s : OrchState) (q : String)
    (strat : StrategyArg) (cfgO : Option SearchConfig)
    (hstrat : strat ≠ .invalid)
    (hfail : ∀ a ∈ s.adapters, ∀ q' n, a.run q' n = none)
    (hdone : ∀ a ∈ s.adapters, a.completes = true) :
    (search s q strat cfgO).2 = [] ∧
    ((search s q strat cfgO).1).stats.totalSearches = s.stats.totalSearches + 1 ∧
    ((search s q strat cfgO).1).stats.successfulSearches = s.stats.successfulSearches + 1 ∧
    ((search s q strat cfgO).1).stats.failedSearches = s.stats.failedSearches := by
  have hd := dispatchStrategy_allFail (bumpTotal s) q strat (cfgO.getD s.config)
    hstrat hfail hdone
  have hcnt := dispatchStrategy_counters (bumpTotal s) q strat (cfgO.getD s.config)
  rcases hE : dispatchStrategy (bumpTotal s) q strat (cfgO.getD s.config) with ⟨s', r⟩
  rw [hE] at hd hcnt
  simp only at hd hcnt
  subst hd
  rw [search_ok_shape s q strat cfgO s' [] hE]
  refine ⟨postProcess_nil _ _, hcnt.1, ?_, hcnt.2.2⟩
  show s'.stats.successfulSearches + 1 = s.stats.successfulSearches + 1
  rw [hcnt.2.1]
  rfl

/-- C1 witness for its hypotheses: a concrete orchestrator with one failing
provider. -/
theorem c1_allProvidersFail_countedSuccessful_witness :
    (search c1State "q" .parallel none).2 = [] ∧
    ((search c1State "q" .parallel none).1).stats.totalSearches =
      c1State.stats.totalSearches + 1 ∧
    ((search c1State "q" .parallel none).1).stats.successfulSearches =
      c1State.stats.successfulSearches + 1 ∧
    ((search c1State "q" .parallel none).1).stats.failedSearches =
      c1State.stats.failedSearches :=
  c1_allProvidersFail_countedSuccessful c1State "q" .parallel none
    (by intro h; cases h)
    (by intro a ha q' n; cases ha with
        | head => rfl
        | tail _ h => cases h)
    (by intro a ha; cases ha with
        | head => rfl
        | tail _ h => cases h)

/-- C1 counterexample: with one loaded provider that always raises (and
completes), a Parallel search returns an empty list but the call is counted
as SUCCESSFUL — `successful_searches` is incremented and `failed_searches`
stays 0, refuting the claim that `failed_searches` is incremented rather
than `successful_searches`. -/
theorem c1_counterexample :
    (search c1State "q" .parallel none).2 = [] ∧
    ((search c1State "q" .parallel none).1).stats.successfulSearches = 1 ∧
    ((search c1State "q" .parallel none).1).stats.failedSearches = 0 :=
  ⟨rfl, rfl, rfl⟩

/-- C2 (amended): an invalid strategy value reaches the
`raise ValueError(...)` branch inside `search`'s own `try`, so the exception
is caught by the blanket `except Exception` handler: for every state, query
and config override, the call returns normally with an empty list,
increments `total_searches` and `failed_searches`, and leaves
`successful_searches` and the loaded adapter list unchanged. No error
propagates to the caller. -/
theorem c2_invalidStrategy_degradesGracefully (s : OrchState) (q : String)
    (cfgO : Option SearchConfig) :
    (search s q .invalid cfgO).2 = [] ∧
    ((search s q .invalid cfgO).1).stats.totalSearches = s.stats.totalSearches + 1 ∧
    ((search s q .invalid cfgO).1).stats.failedSearches = s.stats.failedSearches + 1 ∧
    ((search s q .invalid cfgO).1).stats.successfulSearches = s.stats.successfulSearches ∧
    ((search s q .invalid cfgO).1).adapters = s.adapters :=
  ⟨rfl, rfl, rfl, rfl, rfl⟩

/-- C2 counterexample: at a concrete orchestrator, `search` with an invalid
strategy value returns normally — an empty result list with
`failed_searches` incremented — instead of raising to the caller, refuting
the claim that an invalid strategy fails loudly rather than degrading into
an empty result list. -/
theorem c2_counterexample :
    (search c1State "q" .invalid none).2 = [] ∧
    ((search c1State "q" .invalid none).1).stats.failedSearches = 1 ∧
    ((search c1State "q" .invalid none).1).stats.successfulSearches = 0 :=
  ⟨rfl, rfl, rfl⟩

/-- C3 (amended): if the parallel fan-out's shared budget expires while some
provider has not completed, `as_completed` raises `TimeoutError`; the
exception never surfaces to the caller (it is caught at the `search`
boundary), but the whole call becomes an empty failed search: the results
already collected from providers that completed are discarded, the call
returns `[]`, and `failed_searches` (not `successful_searches`) is
incremented. -/
theorem c3_timeoutDiscardsCollectedResults (s : OrchState) (q : String)
    (cfgO : Option SearchConfig) (a : AdapterModel) (ha : a ∈ s.adapters)
    (hp : a.completes = false) :
    (search s q .parallel cfgO).2 = [] ∧
    ((search s q .parallel cfgO).1).stats.totalSearches = s.stats.totalSearches + 1 ∧
    ((search s q .parallel cfgO).1).stats.failedSearches = s.stats.failedSearches + 1 ∧
    ((search s q .parallel cfgO).1).stats.successfulSearches = s.stats.successfulSearches := by
  have herr := executeParallel_pending (bumpTotal s).stats (bumpTotal s).adapters q
    (cfgO.getD s.config) a ha hp
  rcases hE : dispatchStrategy (bumpTotal s) q .parallel (cfgO.getD s.config) with ⟨s', r⟩
  have hq := dispatchParallel_eq (bumpTotal s) q (cfgO.getD s.config)
  rw [hE] at hq
  have hr : r = (executeParallel (bumpTotal s).stats (bumpTotal s).adapters q
      (cfgO.getD s.config)).2 := congrArg Prod.snd hq
  rw [herr] at hr
  subst hr
  have hcnt := dispatchStrategy_counters (bumpTotal s) q .parallel (cfgO.getD s.config)
  rw [hE] at hcnt
  simp only at hcnt
  rw [search_error_shape s q .parallel cfgO s' () hE]
  refine ⟨rfl, hcnt.1, ?_, hcnt.2.1⟩
  show s'.stats.failedSearches + 1 = s.stats.failedSearches + 1
  rw [hcnt.2.2]
  rfl

/-- C3 witness for its hypotheses: the concrete two-provider orchestrator
with one pending provider. -/
theorem c3_timeoutDiscardsCollectedResults_witness :
    (search c3State "q" .parallel none).2 = [] ∧
    ((search c3State "q" .parallel none).1).stats.totalSearches =
      c3State.stats.totalSearches + 1 ∧
    ((search c3State "q" .parallel none).1).stats.failedSearches =
      c3State.stats.failedSearches + 1 ∧
    ((search c3State "q" .parallel none).1).stats.successfulSearches =
      c3State.stats.successfulSearches :=
  c3_timeoutDiscardsCollectedResults c3State "q" none adapterPending
    (List.mem_cons_of_mem _ (List.mem_cons_self _ _)) rfl

/-- C3 counterexample: one provider completed in time with a quality result
(`resGood`, snippet length 30 ≥ 20) while the other was still pending; the
claim predicts `search` still returns the completed provider's results, but
the call returns `[]` and is counted as failed — the collected results are
discarded. -/
theorem c3_counterexample :
    adapterGood ∈ c3State.adapters ∧ adapterGood.completes = true ∧
    adapterGood.run "q" defaultConfig.maxResultsPerAdapter = some [resGood] ∧
    20 ≤ resGood.snippet.data.length ∧
    (search c3State "q" .parallel none).2 = [] ∧
    ((search c3State "q" .parallel none).1).stats.failedSearches = 1 :=
  ⟨List.mem_cons_self _ _, rfl, rfl, by decide, rfl, rfl⟩

/-- C9 (amended): `search` leaves the loaded adapter list unchanged whenever
no parallel sub-pass raises; in particular, for every state whose adapters
all complete before their deadlines, the Adaptive strategy's temporary swap
of the adapter list is always undone, and Parallel/Sequential (and the
caught invalid-strategy error) never touch the list at all. When an Adaptive
sub-pass raises (deadline expiry with a straggler), the swap is NOT undone
and the loaded list permanently becomes the sub-pass's subset. -/
theorem c9_adapterListRestored (s : OrchState) (q : String)
    (strat : StrategyArg) (cfgO : Option SearchConfig)
    (hdone : ∀ a ∈ s.adapters, a.completes = true) :
    ((search s q strat cfgO).1).adapters = s.adapters := by
  have hmain : ((dispatchStrategy (bumpTotal s) q strat (cfgO.getD s.config)).1).adapters
      = s.adapters := by
    cases strat with
    | parallel => rw [dispatchParallel_eq]; rfl
    | sequential => rw [dispatchSequential_eq]; rfl
    | adaptive => exact (executeAdaptive_allComplete (bumpTotal s) q
        (cfgO.getD s.config) hdone).1
    | invalid => rfl
  unfold search
  rcases hE : dispatchStrategy (bumpTotal s) q strat (cfgO.getD s.config) with ⟨s', r⟩
  rw [hE] at hmain
  cases r with
  | error e => exact hmain
  | ok results => exact hmain

/-- C9 witness for its hypothesis: a concrete all-completing orchestrator
searched with the Adaptive strategy. -/
theorem c9_adapterListRestored_witness :
    ((search c1State "q" .adaptive none).1).adapters = c1State.adapters :=
  c9_adapterListRestored c1State "q" .adaptive none
    (by intro a ha; cases ha with
        | head => rfl
        | tail _ h => cases h)

/-- C9 counterexample: when the Adaptive quick pass times out (the preferred
provider's future is still pending), the restoring assignment is never
reached, so after `search` returns the loaded adapter list has permanently
shrunk from 2 adapters to the preferred subset of 1 — refuting the claim
that the list is identical after every call. -/
theorem c9_counterexample :
    ((search c9State "q" .adaptive none).1).adapters.length = 1 ∧
    c9State.adapters.length = 2 ∧
    ((search c9State "q" .adaptive none).1).adapters.map (fun a => a.name) =
      ["duckduckgo"] ∧
    (search c9State "q" .adaptive none).2 = [] :=
  ⟨rfl, rfl, rfl, rfl⟩

/-- C10: with no providers loaded, a Parallel `search` returns an empty list
without raising, and the call is counted as successful: `total_searches` and
`successful_searches` are each incremented by exactly 1 and
`failed_searches` is unchanged. -/
theorem c10_noProviders_parallelSuccessful (s : OrchState) (q : String)
    (cfgO : Option SearchConfig) (h : s.adapters = []) :
    (search s q .parallel cfgO).2 = [] ∧
    ((search s q .parallel cfgO).1).stats.totalSearches = s.stats.totalSearches + 1 ∧
    ((search s q .parallel cfgO).1).stats.successfulSearches = s.stats.successfulSearches + 1 ∧
    ((search s q .parallel cfgO).1).stats.failedSearches = s.stats.failedSearches := by
  refine c1_allProvidersFail_countedSuccessful s q .parallel cfgO
    (by intro hx; cases hx) ?_ ?_ <;> rw [h]
  · intro a ha; cases ha
  · intro a ha; cases ha

/-- C10 witness for its hypothesis: the concrete empty orchestrator. -/
theorem c10_noProviders_parallelSuccessful_witness :
    (search emptyState "osint" .parallel none).2 = [] ∧
    ((search emptyState "osint" .parallel none).1).stats.totalSearches =
      emptyState.stats.totalSearches + 1 ∧
    ((search emptyState "osint" .parallel none).1).stats.successfulSearches =
      emptyState.stats.successfulSearches + 1 ∧
    ((search emptyState "osint" .parallel none).1).stats.failedSearches =
      emptyState.stats.failedSearches :=
  c10_noProviders_parallelSuccessful emptyState "osint" none rfl

/-- C5 (amended): for a single invocation of the per-provider wrapper within
one Search call — stated for a one-adapter list under both the Sequential
loop and the Parallel fan-out, from an arbitrary starting statistics state:
if the provider's `search` returns normally, its `calls` and `successes`
counters each increase by exactly 1 and the snippet-filtered results are
contributed; if the provider raises, the wrapper increments `calls` once
(not `successes`) before re-raising, and the strategy loop's own exception
handler then updates the stats AGAIN, so `calls` increases by 2 in total and
`successes` by 0; the exception is converted to zero contributed results and
does not propagate out of the strategy loop. -/
theorem c5_perInvocationAdapterStats (st : SearchStats) (a : AdapterModel)
    (q : String) (cfg : SearchConfig) (hdone : a.completes = true) :
    (∀ rs, a.run q cfg.maxResultsPerAdapter = some rs →
      ((perfOf (executeSequential st [a] q cfg).1 a.name).calls =
          (perfOf st a.name).calls + 1 ∧
        (perfOf (executeSequential st [a] q cfg).1 a.name).successes =
          (perfOf st a.name).successes + 1 ∧
        (executeSequential st [a] q cfg).2 =
          rs.filter (fun r => cfg.minSnippetLength ≤ r.snippet.data.length) ∧
        (perfOf (executeParallel st [a] q cfg).1 a.name).calls =
          (perfOf st a.name).calls + 1 ∧
        (perfOf (executeParallel st [a] q cfg).1 a.name).successes =
          (perfOf st a.name).successes + 1 ∧
        (executeParallel st [a] q cfg).2 =
          .ok (rs.filter (fun r => cfg.minSnippetLength ≤ r.snippet.data.length)))) ∧
    (a.run q cfg.maxResultsPerAdapter = none →
      ((perfOf (executeSequential st [a] q cfg).1 a.name).calls =
          (perfOf st a.name).calls + 2 ∧
        (perfOf (executeSequential st [a] q cfg).1 a.name).successes =
          (perfOf st a.name).successes ∧
        (executeSequential st [a] q cfg).2 = [] ∧
        (perfOf (executeParallel st [a] q cfg).1 a.name).calls =
          (perfOf st a.name).calls + 2 ∧
        (perfOf (executeParallel st [a] q cfg).1 a.name).successes =
          (perfOf st a.name).successes ∧
        (executeParallel st [a] q cfg).2 = .ok [])) := by
  constructor
  · intro rs hR
    refine ⟨?_, ?_, ?_, ?_, ?_, ?_⟩ <;>
      simp [executeSequential, executeParallel, parallelCollect, searchWithAdapter,
        hR, hdone, perfOf_update_self]
  · intro hR
    refine ⟨?_, ?_, ?_, ?_, ?_, ?_⟩ <;>
      simp [executeSequential, executeParallel, parallelCollect, searchWithAdapter,
        hR, hdone, perfOf_update_self]

/-- C5 witness for its hypotheses: the always-raising concrete adapter,
for which `calls` grows by 2 while the exception stays contained. -/
theorem c5_perInvocationAdapterStats_witness :
    (perfOf (executeSequential emptyStats [adapterFailing] "q" defaultConfig).1
        adapterFailing.name).calls = (perfOf emptyStats adapterFailing.name).calls + 2 ∧
    (executeParallel emptyStats [adapterFailing] "q" defaultConfig).2 = .ok [] :=
  ⟨((c5_perInvocationAdapterStats emptyStats adapterFailing "q" defaultConfig
      rfl).2 rfl).1,
    ((c5_perInvocationAdapterStats emptyStats adapterFailing "q" defaultConfig
      rfl).2 rfl).2.2.2.2.2⟩

/-- C5 counterexample: a Sequential search over one provider that raises
leaves that provider's `calls` counter at 2 (the wrapper's update plus the
strategy loop's exception-handler update), not 1 as the claim requires. -/
theorem c5_counterexample :
    (perfOf ((search c1State "q" .sequential none).1).stats "duckduckgo").calls = 2 ∧
    (perfOf ((search c1State "q" .sequential none).1).stats "duckduckgo").successes = 0 :=
  ⟨rfl, rfl⟩

/-- The ranked list is a permutation of the input (shared by C4 and C8). -/
theorem rankResults_perm (rs : List SearchResult) (q : String) :
    (rankResults rs q).Perm rs := by
  unfold rankResults
  by_cases h : rs = []
  · simp [h]
  · simp only [h, if_false]
    refine ((List.perm_insertionSort rankRel _).map _).trans ?_
    rw [List.map_map]
    have hcomp : ((fun t : ℚ × ℕ × SearchResult => t.2.2) ∘
        (fun p : ℕ × SearchResult =>
          (calcScore (queryTermsOf q) p.2, p.1, p.2))) = Prod.snd := rfl
    rw [hcomp, List.enum_map_snd]

/-- Every collected parallel result passed the configured snippet filter. -/
theorem parallelCollect_minSnippet (q : String) (cfg : SearchConfig) :
    ∀ (l : List AdapterModel) (st : SearchStats),
      ∀ r ∈ (parallelCollect st l q cfg).2,
        cfg.minSnippetLength ≤ r.snippet.data.length := by
  intro l
  induction l with
  | nil => intro st r hr; cases hr
  | cons a rest ih =>
    intro st r hr
    by_cases hc : a.completes
    · cases hR : a.run q cfg.maxResultsPerAdapter with
      | some rs =>
        have hstep : (parallelCollect st (a :: rest) q cfg).2 =
            rs.filter (fun r => cfg.minSnippetLength ≤ r.snippet.data.length) ++
              (parallelCollect (updateAdapterStats st a.name true 0) rest q cfg).2 := by
          simp [parallelCollect, searchWithAdapter, hc, hR]
        rw [hstep] at hr
        rcases List.mem_append.mp hr with h | h
        · simpa using (List.mem_filter.mp h).2
        · exact ih _ r h
      | none =>
        have hstep : (parallelCollect st (a :: rest) q cfg).2 =
            (parallelCollect (updateAdapterStats (updateAdapterStats st a.name false 0)
              a.name false 0) rest q cfg).2 := by
          simp [parallelCollect, searchWithAdapter, hc, hR]
        rw [hstep] at hr
        exact ih _ r hr
    · have hstep : (parallelCollect st (a :: rest) q cfg).2 =
          (parallelCollect st rest q cfg).2 := by
        simp [parallelCollect, hc]
      rw [hstep] at hr
      exact ih st r hr

/-- Parallel results (when the fan-out returns) passed the snippet filter. -/
theorem executeParallel_minSnippet (st : SearchStats) (l : List AdapterModel)
    (q : String) (cfg : SearchConfig) (rs : List SearchResult)
    (h : (executeParallel st l q cfg).2 = .ok rs) :
    ∀ r ∈ rs, cfg.minSnippetLength ≤ r.snippet.data.length := by
  unfold executeParallel at h
  by_cases he : l.isEmpty
  · simp only [he, if_true] at h
    cases h
    intro r hr; cases hr
  · simp only [he, if_false] at h
    by_cases ha : l.all (·.completes)
    · simp only [ha, if_true] at h
      cases h
      exact fun r hr => parallelCollect_minSnippet q cfg l st r hr
    · simp only [ha, if_false] at h
      cases h

/-- Sequential results passed the snippet filter. -/
theorem executeSequential_minSnippet (q : String) (cfg : SearchConfig) :
    ∀ (l : List AdapterModel) (st : SearchStats),
      ∀ r ∈ (executeSequential st l q cfg).2,
        cfg.minSnippetLength ≤ r.snippet.data.length := by
  intro l
  induction l with
  | nil => intro st r hr; cases hr
  | cons a rest ih =>
    intro st r hr
    cases hR : a.run q cfg.maxResultsPerAdapter with
    | some rs =>
      have hstep : (executeSequential st (a :: rest) q cfg).2 =
          rs.filter (fun r => cfg.minSnippetLength ≤ r.snippet.data.length) ++
            (executeSequential (updateAdapterStats st a.name true 0) rest q cfg).2 := by
        simp [executeSequential, searchWithAdapter, hR]
      rw [hstep] at hr
      rcases List.mem_append.mp hr with h | h
      · simpa using (List.mem_filter.mp h).2
      · exact ih _ r h
    | none =>
      have hstep : (executeSequential st (a :: rest) q cfg).2 =
          (executeSequential (updateAdapterStats (updateAdapterStats st a.name false 0)
            a.name false 0) rest q cfg).2 := by
        simp [executeSequential, searchWithAdapter, hR]
      rw [hstep] at hr
      exact ih _ r hr

/-- Quick-tier results passed the DEFAULT snippet filter (length ≥ 20): the
fresh `SearchConfig` built for the quick pass leaves `min_snippet_length` at
its dataclass default instead of the effective config's value. -/
theorem adaptiveTier1_minSnippet (s : OrchState) (q : String)
    (cfg : SearchConfig) (rs : List SearchResult)
    (h : (adaptiveTier1 s q cfg).2 = .ok rs) :
    ∀ r ∈ rs, 20 ≤ r.snippet.data.length := by
  unfold adaptiveTier1 at h
  by_cases h1 : (s.adapters.filter
      (fun a => decide (a.name ∈ cfg.preferredAdapters))).isEmpty
  · simp only [h1, if_true] at h
    cases h
    intro r hr; cases hr
  · simp only [h1, if_false] at h
    rcases hX : executeParallel s.stats
        (s.adapters.filter fun a => decide (a.name ∈ cfg.preferredAdapters))
        q (adaptiveQuickCfg cfg) with ⟨st', rr⟩
    rw [hX] at h
    cases rr with
    | error e => cases h
    | ok rs0 =>
      simp only at h
      cases h
      exact executeParallel_minSnippet s.stats
        (s.adapters.filter fun a => decide (a.name ∈ cfg.preferredAdapters))
        q (adaptiveQuickCfg cfg) rs (by rw [hX])

/-- Fallback-tier additions passed the effective snippet filter; inherited
results pass through unchanged. -/
theorem adaptiveTier2_minSnippet (s1 : OrchState) (results : List SearchResult)
    (q : String) (cfg : SearchConfig) (rs : List SearchResult)
    (h : (adaptiveTier2 s1 results q cfg).2 = .ok rs) :
    ∀ r ∈ rs, r ∈ results ∨ cfg.minSnippetLength ≤ r.snippet.data.length := by
  unfold adaptiveTier2 at h
  by_cases h2 : results.length < cfg.maxTotalResults / 2
  · simp only [h2, if_true] at h
    by_cases h1 : (s1.adapters.filter
        (fun a => decide (a.name ∈ cfg.fallbackAdapters))).isEmpty
    · simp only [h1, if_true] at h
      cases h
      exact fun r hr => Or.inl hr
    · simp only [h1, if_false] at h
      rcases hX : executeParallel s1.stats
          (s1.adapters.filter fun a => decide (a.name ∈ cfg.fallbackAdapters))
          q cfg with ⟨st', rr⟩
      rw [hX] at h
      cases rr with
      | error e => cases h
      | ok rs2 =>
        simp only at h
        cases h
        intro r hr
        rcases List.mem_append.mp hr with hl | hr2
        · exact Or.inl hl
        · exact Or.inr (executeParallel_minSnippet s1.stats
            (s1.adapters.filter fun a => decide (a.name ∈ cfg.fallbackAdapters))
            q cfg rs2 (by rw [hX]) r hr2)
  · simp only [h2, if_false] at h
    cases h
    exact fun r hr => Or.inl hr

/-- Any result of the adaptive strategy has snippet length at least
`min(minSnippetLength, 20)`. -/
theorem executeAdaptive_minSnippet (s : OrchState) (q : String)
    (cfg : SearchConfig) (rs : List SearchResult)
    (h : (executeAdaptive s q cfg).2 = .ok rs) :
    ∀ r ∈ rs, min cfg.minSnippetLength 20 ≤ r.snippet.data.length := by
  unfold executeAdaptive at h
  rcases hE : adaptiveTier1 s q cfg with ⟨s1, r1⟩
  rw [hE] at h
  cases r1 with
  | error e => cases h
  | ok results =>
    have h1 := adaptiveTier1_minSnippet s q cfg results (by rw [hE])
    simp only at h
    have h2 := adaptiveTier2_minSnippet s1 results q cfg rs h
    intro r hr
    rcases h2 r hr with hl | hb
    · exact le_trans (min_le_right _ _) (h1 r hl)
    · exact le_trans (min_le_left _ _) hb

/-- `_deduplicate_results` only selects results from its input. -/
theorem dedupResultsAux_subset :
    ∀ (rs : List SearchResult) (uniq seen : List String),
      ∀ r ∈ dedupResultsAux rs uniq seen, r ∈ rs := by
  intro rs
  induction rs with
  | nil => intro uniq seen r hr; cases hr
  | cons x rest ih =>
    intro uniq seen r hr
    unfold dedupResultsAux at hr
    by_cases hx : decide (x.url ∈ uniq) && !decide (x.url ∈ seen)
    · rw [if_pos hx] at hr
      cases hr with
      | head => exact List.mem_cons_self _ _
      | tail _ hr2 => exact List.mem_cons_of_mem _ (ih _ _ r hr2)
    · rw [if_neg hx] at hr
      exact List.mem_cons_of_mem _ (ih _ _ r hr)

/-- `_deduplicate_results` output is a subset of its input. -/
theorem dedupResults_subset (rs : List SearchResult) :
    ∀ r ∈ dedupResults rs, r ∈ rs := by
  unfold dedupResults
  by_cases h : rs = []
  · simp [h]
  · simp only [h, if_false]
    exact fun r hr => dedupResultsAux_subset rs _ [] r hr

/-- The post-processing pipeline only returns results it was given. -/
theorem postProcess_subset (cfg : SearchConfig) (q : String)
    (rs : List SearchResult) : ∀ r ∈ postProcess cfg q rs, r ∈ rs := by
  unfold postProcess
  intro r hr
  have h1 := List.take_subset cfg.maxTotalResults _ hr
  by_cases hd : cfg.enableDeduplication <;> by_cases hk : cfg.enableRanking <;>
    simp only [hd, hk, if_true, if_false] at h1
  · exact dedupResults_subset rs r (((rankResults_perm _ q).mem_iff).mp h1)
  · exact dedupResults_subset rs r h1
  · exact ((rankResults_perm _ q).mem_iff).mp h1
  · exact h1

/-- C4 (amended): every result returned by `Orchestrator.search` has a
snippet of length at least the effective config's `minSnippetLength` under
the Parallel and Sequential strategies; under the Adaptive strategy the
preferred-tier quick pass filters with the DEFAULT `minSnippetLength` of 20
(the freshly constructed quick config does not inherit the effective one),
so the guarantee weakens to `min(minSnippetLength, 20)` — when the effective
`minSnippetLength` exceeds 20, shorter snippets from the preferred tier can
reach the final list. -/
theorem c4_minSnippetFilter (s : OrchState) (q : String)
    (cfgO : Option SearchConfig) :
    (∀ r ∈ (search s q .parallel cfgO).2,
      (cfgO.getD s.config).minSnippetLength ≤ r.snippet.data.length) ∧
    (∀ r ∈ (search s q .sequential cfgO).2,
      (cfgO.getD s.config).minSnippetLength ≤ r.snippet.data.length) ∧
    (∀ r ∈ (search s q .adaptive cfgO).2,
      min (cfgO.getD s.config).minSnippetLength 20 ≤ r.snippet.data.length) := by
  refine ⟨?_, ?_, ?_⟩
  · intro r hr
    rcases hE : dispatchStrategy (bumpTotal s) q .parallel (cfgO.getD s.config) with ⟨s', rr⟩
    cases rr with
    | error e =>
      rw [search_error_shape s q .parallel cfgO s' e hE] at hr
      cases hr
    | ok results =>
      rw [search_ok_shape s q .parallel cfgO s' results hE] at hr
      have hsub := postProcess_subset (cfgO.getD s.config) q results r hr
      have hq := dispatchParallel_eq (bumpTotal s) q (cfgO.getD s.config)
      rw [hE] at hq
      have hok : (executeParallel (bumpTotal s).stats (bumpTotal s).adapters q
          (cfgO.getD s.config)).2 = .ok results := (congrArg Prod.snd hq).symm
      exact executeParallel_minSnippet _ _ _ _ results hok r hsub
  · intro r hr
    rcases hE : dispatchStrategy (bumpTotal s) q .sequential (cfgO.getD s.config) with ⟨s', rr⟩
    cases rr with
    | error e =>
      rw [search_error_shape s q .sequential cfgO s' e hE] at hr
      cases hr
    | ok results =>
      rw [search_ok_shape s q .sequential cfgO s' results hE] at hr
      have hsub := postProcess_subset (cfgO.getD s.config) q results r hr
      have hq := dispatchSequential_eq (bumpTotal s) q (cfgO.getD s.config)
      rw [hE] at hq
      have hok : results = (executeSequential (bumpTotal s).stats (bumpTotal s).adapters q
          (cfgO.getD s.config)).2 := by
        have := congrArg Prod.snd hq
        simp only at this
        exact Except.ok.inj this
      rw [hok] at hsub
      exact executeSequential_minSnippet q (cfgO.getD s.config) _ _ r hsub
  · intro r hr
    rcases hE : dispatchStrategy (bumpTotal s) q .adaptive (cfgO.getD s.config) with ⟨s', rr⟩
    cases rr with
    | error e =>
      rw [search_error_shape s q .adaptive cfgO s' e hE] at hr
      cases hr
    | ok results =>
      rw [search_ok_shape s q .adaptive cfgO s' results hE] at hr
      have hsub := postProcess_subset (cfgO.getD s.config) q results r hr
      have hok : (executeAdaptive (bumpTotal s) q (cfgO.getD s.config)).2 = .ok results := by
        show (dispatchStrategy (bumpTotal s) q .adaptive (cfgO.getD s.config)).2 = .ok results
        rw [hE]
      exact executeAdaptive_minSnippet _ q _ results hok r hsub

/-- C4 witness for its membership hypotheses: under the default config a
Parallel search of the good adapter returns `resGood`, whose snippet indeed
meets the bound. -/
theorem c4_minSnippetFilter_witness :
    defaultConfig.minSnippetLength ≤ resGood.snippet.data.length ∧
    min cfgMin25.minSnippetLength 20 ≤ resShort.snippet.data.length :=
  ⟨(c4_minSnippetFilter (OrchState.mk defaultConfig [adapterGood] emptyStats)
      "q" none).1 resGood (by decide),
    (c4_minSnippetFilter c4State "q" none).2.2 resShort (by decide)⟩

/-- C4 counterexample: with the effective `minSnippetLength` raised to 25 and
a preferred-tier provider returning a snippet of length 20, the Adaptive
strategy returns that result even though 20 < 25 — the quick pass filtered
with the default 20 instead of the effective 25. -/
theorem c4_counterexample :
    c4State.config.minSnippetLength = 25 ∧
    (search c4State "q" .adaptive none).2 = [resShort] ∧
    resShort.snippet.data.length = 20 :=
  ⟨rfl, rfl, by decide⟩

/-- Ranked output is sorted by non-increasing score. -/
theorem rankResults_sorted (rs : List SearchResult) (q : String) :
    (rankResults rs q).Pairwise
      (fun a b => resultScore q b ≤ resultScore q a) := by
  unfold rankResults
  by_cases hnil : rs = []
  · simp [hnil]
  · simp only [hnil, if_false]
    have hsorted := List.sorted_insertionSort rankRel
      (rs.enum.map fun p => (calcScore (queryTermsOf q) p.2, p.1, p.2))
    rw [List.pairwise_map]
    refine hsorted.imp_of_mem ?_
    intro a b ha hb hab
    have hmem : ∀ x ∈ List.insertionSort rankRel
        (rs.enum.map fun p => (calcScore (queryTermsOf q) p.2, p.1, p.2)),
        x.1 = resultScore q x.2.2 := by
      intro x hx
      rcases List.mem_map.mp ((List.mem_insertionSort rankRel).mp hx) with ⟨p, _, rfl⟩
      rfl
    have ha' := hmem a ha
    have hb' := hmem b hb
    rcases hab with h | ⟨h, _⟩
    · rw [← ha', ← hb']
      exact le_of_lt h
    · rw [← ha', ← hb', h]

/-- Filtering the sorted triple list to one score value gives exactly the
same sublist as filtering the unsorted one: among equal scores the strictly
increasing original indices force a unique order. -/
theorem insertionSort_filter_score (scored : List (ℚ × ℕ × SearchResult))
    (sc : ℚ) (hidx : scored.Pairwise (fun x y => x.2.1 < y.2.1)) :
    (List.insertionSort rankRel scored).filter (fun x => x.1 = sc) =
      scored.filter (fun x => x.1 = sc) := by
  have hperm : ((List.insertionSort rankRel scored).filter
        (fun x => decide (x.1 = sc))).Perm
      (scored.filter (fun x => decide (x.1 = sc))) :=
    (List.perm_insertionSort rankRel scored).filter _
  have hs2 : (scored.filter (fun x => decide (x.1 = sc))).Pairwise
      (fun x y => x.2.1 < y.2.1) := hidx.sublist (List.filter_sublist _)
  have hne : (List.insertionSort rankRel scored).Pairwise
      (fun x y => x.2.1 ≠ y.2.1) := by
    have h1 : scored.Pairwise (fun x y => x.2.1 ≠ y.2.1) :=
      hidx.imp fun h => Nat.ne_of_lt h
    exact ((List.perm_insertionSort rankRel scored).pairwise_iff
      (fun h => Ne.symm h)).mpr h1
  have hsorted := List.sorted_insertionSort rankRel scored
  have hs1le : ((List.insertionSort rankRel scored).filter
      (fun x => decide (x.1 = sc))).Pairwise (fun x y => x.2.1 ≤ y.2.1) := by
    have hf : ((List.insertionSort rankRel scored).filter
        (fun x => decide (x.1 = sc))).Pairwise rankRel :=
      hsorted.sublist (List.filter_sublist _)
    refine hf.imp_of_mem ?_
    intro a b ha hb hab
    have ha' : a.1 = sc := of_decide_eq_true (List.mem_filter.mp ha).2
    have hb' : b.1 = sc := of_decide_eq_true (List.mem_filter.mp hb).2
    rcases hab with h | ⟨_, hi⟩
    · rw [ha', hb'] at h
      exact absurd h (lt_irrefl sc)
    · exact hi
  have hs1ne : ((List.insertionSort rankRel scored).filter
      (fun x => decide (x.1 = sc))).Pairwise (fun x y => x.2.1 ≠ y.2.1) :=
    hne.sublist (List.filter_sublist _)
  have hs1 : ((List.insertionSort rankRel scored).filter
      (fun x => decide (x.1 = sc))).Pairwise (fun x y => x.2.1 < y.2.1) :=
    (hs1le.and hs1ne).imp fun h => lt_of_le_of_ne h.1 h.2
  haveI : IsAntisymm (ℚ × ℕ × SearchResult) (fun x y => x.2.1 < y.2.1) :=
    ⟨fun a b h1 h2 => absurd (h1.trans h2) (lt_irrefl _)⟩
  exact List.eq_of_perm_of_sorted hperm hs1 hs2

/-- Stability of the ranking: for every score value, the results carrying
that score appear in the ranked list in exactly their original relative
order. -/
theorem rankResults_stable (rs : List SearchResult) (q : String) (sc : ℚ) :
    (rankResults rs q).filter (fun r => resultScore q r = sc) =
      rs.filter (fun r => resultScore q r = sc) := by
  by_cases hnil : rs = []
  · subst hnil; rfl
  · unfold rankResults
    simp only [hnil, if_false]
    have hidx : (rs.enum.map fun p =>
        (calcScore (queryTermsOf q) p.2, p.1, p.2)).Pairwise
        (fun x y => x.2.1 < y.2.1) := by
      have h := List.pairwise_lt_range rs.length
      rw [← List.enum_map_fst rs] at h
      exact List.pairwise_map.mpr (List.pairwise_map.mp h)
    rw [List.filter_map]
    have hcongr : (List.insertionSort rankRel
          (rs.enum.map fun p => (calcScore (queryTermsOf q) p.2, p.1, p.2))).filter
          ((fun r => decide (resultScore q r = sc)) ∘ fun t => t.2.2) =
        (List.insertionSort rankRel
          (rs.enum.map fun p => (calcScore (queryTermsOf q) p.2, p.1, p.2))).filter
          (fun x => decide (x.1 = sc)) := by
      apply List.filter_congr
      intro x hx
      rcases List.mem_map.mp ((List.mem_insertionSort rankRel).mp hx) with ⟨p, _, rfl⟩
      rfl
    rw [hcongr, insertionSort_filter_score _ sc hidx]
    have hpf : ((fun x : ℚ × ℕ × SearchResult => decide (x.1 = sc)) ∘
          (fun p : ℕ × SearchResult =>
            (calcScore (queryTermsOf q) p.2, p.1, p.2))) =
        ((fun r => decide (resultScore q r = sc)) ∘ Prod.snd) := rfl
    rw [List.filter_map, List.map_map, hpf]
    have hgf : ((fun t : ℚ × ℕ × SearchResult => t.2.2) ∘
          (fun p : ℕ × SearchResult =>
            (calcScore (queryTermsOf q) p.2, p.1, p.2))) =
        (Prod.snd : ℕ × SearchResult → SearchResult) := rfl
    rw [hgf, ← List.filter_map Prod.snd rs.enum, List.enum_map_snd]

/-- C8: `rank_results` returns a permutation of its input, ordered by
non-increasing weighted score (the six-factor weighted sum with weights
0.30/0.25/0.15/0.15/0.10/0.05, embedded in `calcScore`); equal-score results
preserve their original relative order (stable sort, expressed per score
value via `filter`); the empty input list yields the empty list; and an
empty query yields an empty term set, for which the score degenerates to the
four non-relevance factors — the two relevance factors contribute 0 with no
division by zero. -/
theorem c8_rankResultsContract (rs : List SearchResult) (q : String) :
    (rankResults rs q).Perm rs ∧
    (rankResults rs q).Pairwise (fun a b => resultScore q b ≤ resultScore q a) ∧
    (∀ sc : ℚ, (rankResults rs q).filter (fun r => resultScore q r = sc) =
      rs.filter (fun r => resultScore q r = sc)) ∧
    rankResults [] q = [] ∧
    queryTermsOf "" = [] ∧
    (∀ r : SearchResult, calcScore [] r =
      max 0 (1 - (r.url.data.length : ℚ) / 100) * (3/20) +
        sourceScore r.source * (3/20) +
        min 1 ((r.snippet.data.length : ℚ) / 200) * (1/10) +
        domainAuthority r.url * (1/20)) :=
  ⟨rankResults_perm rs q, rankResults_sorted rs q, rankResults_stable rs q,
    by simp [rankResults], rfl,
    fun r => by simp [calcScore]⟩

/-! ## §10 Character toolkit and path-normalization idempotence -/

theorem charLe_toNat {a b : Char} (h : a ≤ b) : a.toNat ≤ b.toNat := h

theorem charLe_of_toNat {a b : Char} (h : a.toNat ≤ b.toNat) : a ≤ b := h

theorem charOfNat_toNat {n : Nat} (h : n.isValidChar) :
    (Char.ofNat n).toNat = n := by
  show (Char.ofNat n).val.toNat = n
  rw [Char.ofNat, dif_pos h]
  show BitVec.toNat (BitVec.ofNatLt n _) = n
  rw [BitVec.toNat_ofNatLt]

theorem isUpperA_iff {c : Char} :
    isUpperA c = true ↔ 65 ≤ c.toNat ∧ c.toNat ≤ 90 := by
  unfold isUpperA
  constructor
  · intro h
    simp only [Bool.and_eq_true, decide_eq_true_eq] at h
    exact ⟨charLe_toNat h.1, charLe_toNat h.2⟩
  · intro h
    simp only [Bool.and_eq_true, decide_eq_true_eq]
    exact ⟨charLe_of_toNat h.1, charLe_of_toNat h.2⟩

theorem lowerChar_toNat (c : Char) :
    (lowerChar c).toNat = if isUpperA c then c.toNat + 32 else c.toNat := by
  unfold lowerChar
  by_cases h : isUpperA c
  · rw [if_pos h, if_pos h]
    have hb := isUpperA_iff.mp h
    exact charOfNat_toNat (Or.inl (by omega))
  · rw [if_neg h, if_neg h]

theorem lowerChar_not_upper (c : Char) : isUpperA (lowerChar c) = false := by
  have ht := lowerChar_toNat c
  by_cases h : isUpperA c
  · rw [if_pos h] at ht
    have hb := isUpperA_iff.mp h
    rw [Bool.eq_false_iff]
    intro hu
    have := isUpperA_iff.mp hu
    omega
  · have hc : lowerChar c = c := by
      unfold lowerChar
      rw [if_neg h]
    rw [hc]
    exact Bool.eq_false_iff.mpr h

theorem lowerChar_idem (c : Char) : lowerChar (lowerChar c) = lowerChar c := by
  nth_rewrite 1 [lowerChar]
  rw [lowerChar_not_upper c]
  simp

theorem lowerL_idem (l : List Char) : lowerL (lowerL l) = lowerL l := by
  unfold lowerL
  rw [List.map_map]
  exact List.map_congr_left fun c _ => lowerChar_idem c

/-- The slash-collapsing scanner keeps the head of the list. -/
theorem collapse_cons (b : Char) (r : List Char) :
    ∃ t, collapseAux (b :: r) false = b :: t := by
  unfold collapseAux
  by_cases h : b = '/'
  · rw [if_pos h, if_neg (by simp)]
    exact ⟨collapseAux r true, by rw [h]⟩
  · rw [if_neg h]
    exact ⟨collapseAux r false, rfl⟩

/-- A `noDS`-friendly cons: the head pair is compatible. -/
theorem noDS_cons_of (c : Char) (X : List Char) (hX : noDS X = true)
    (hpair : ∀ x0 t, X = x0 :: t → ¬(c = '/' ∧ x0 = '/')) :
    noDS (c :: X) = true := by
  cases X with
  | nil => rfl
  | cons x0 t =>
    unfold noDS
    simp only [Bool.and_eq_true, Bool.not_eq_true']
    refine ⟨?_, hX⟩
    have := hpair x0 t rfl
    simp only [Bool.and_eq_false_iff]
    by_cases hc : c = '/'
    · right
      simp only [decide_eq_false_iff_not]
      exact fun hx => this ⟨hc, hx⟩
    · left
      simp only [decide_eq_false_iff_not]
      exact hc

theorem collapseAux_noDS : ∀ l : List Char,
    (noDS (collapseAux l false) = true) ∧
    (noDS (collapseAux l true) = true ∧
      ∀ t, collapseAux l true ≠ '/' :: t) := by
  intro l
  induction l with
  | nil => exact ⟨rfl, rfl, fun t h => by cases h⟩
  | cons c rest ih =>
    obtain ⟨ihf, iht, ihh⟩ := ih
    by_cases hc : c = '/'
    · constructor
      · show noDS (collapseAux (c :: rest) false) = true
        unfold collapseAux
        rw [if_pos hc, if_neg (by simp)]
        refine noDS_cons_of '/' _ iht ?_
        intro x0 t hX hand
        exact ihh t (by rw [hX, hand.2])
      · constructor
        · show noDS (collapseAux (c :: rest) true) = true
          unfold collapseAux
          rw [if_pos hc, if_pos rfl]
          exact iht
        · intro t
          unfold collapseAux
          rw [if_pos hc, if_pos rfl]
          exact ihh t
    · have hstep : ∀ b : Bool, collapseAux (c :: rest) b = c :: collapseAux rest false := by
        intro b
        simp only [collapseAux]
        rw [if_neg hc]
      have hns : noDS (c :: collapseAux rest false) = true := by
        refine noDS_cons_of c _ ihf ?_
        intro x0 t _ hand
        exact hc hand.1
      exact ⟨by rw [hstep false]; exact hns,
        by rw [hstep true]; exact hns,
        fun t h => by rw [hstep true] at h; cases h; exact hc rfl⟩

theorem collapseSlashes_noDS (l : List Char) : noDS (collapseSlashes l) = true :=
  (collapseAux_noDS l).1

theorem noDS_collapse_aux : ∀ l : List Char, noDS l = true →
    (collapseAux l false = l ∧ (l.take 1 ≠ ['/'] → collapseAux l true = l)) := by
  intro l
  induction l with
  | nil => exact fun _ => ⟨rfl, fun _ => rfl⟩
  | cons c rest ih =>
    intro h
    have hrest : noDS rest = true := by
      cases rest with
      | nil => rfl
      | cons b r2 =>
        unfold noDS at h
        simp only [Bool.and_eq_true] at h
        exact h.2
    have hpair : ∀ b r2, rest = b :: r2 → ¬(c = '/' ∧ b = '/') := by
      intro b r2 hr hand
      rw [hr] at h
      unfold noDS at h
      simp only [Bool.and_eq_true, Bool.not_eq_true'] at h
      rw [hand.1, hand.2] at h
      simp at h
    obtain ⟨ihf, iht⟩ := ih hrest
    by_cases hc : c = '/'
    · have htk : rest.take 1 ≠ ['/'] := by
        cases rest with
        | nil => simp
        | cons b r2 =>
          intro habs
          simp only [List.take, List.take_zero] at habs
          cases habs
          exact hpair '/' r2 rfl ⟨hc, rfl⟩
      constructor
      · unfold collapseAux
        rw [if_pos hc, if_neg (by simp), iht htk, hc]
      · intro htake
        exact absurd (by rw [hc]; rfl : (c :: rest).take 1 = ['/']) htake
    · have hstep : ∀ b : Bool, collapseAux (c :: rest) b = c :: collapseAux rest false := by
        intro b
        simp only [collapseAux]
        rw [if_neg hc]
      exact ⟨by rw [hstep false, ihf], fun _ => by rw [hstep true, ihf]⟩

theorem noDS_collapse_id (l : List Char) (h : noDS l = true) :
    collapseSlashes l = l := (noDS_collapse_aux l h).1

theorem noDS_of_append_left : ∀ l1 l2 : List Char,
    noDS (l1 ++ l2) = true → noDS l1 = true := by
  intro l1
  induction l1 with
  | nil => intro _ _; rfl
  | cons a rest ih =>
    intro l2 h
    cases rest with
    | nil => rfl
    | cons b r2 =>
      rw [List.cons_append, List.cons_append] at h
      unfold noDS at h ⊢
      simp only [Bool.and_eq_true] at h ⊢
      exact ⟨h.1, ih l2 h.2⟩

theorem rstripSlash_decomp (l : List Char) :
    rstripSlash l ++ (l.reverse.takeWhile (· = '/')).reverse = l := by
  unfold rstripSlash
  rw [← List.reverse_append, List.takeWhile_append_dropWhile, List.reverse_reverse]

theorem noDS_rstrip (l : List Char) (h : noDS l = true) :
    noDS (rstripSlash l) = true := by
  apply noDS_of_append_left (rstripSlash l) (l.reverse.takeWhile (· = '/')).reverse
  rw [rstripSlash_decomp]
  exact h

theorem dropWhile_head_not (p : Char → Bool) :
    ∀ (r : List Char) (c : Char) (t : List Char),
      r.dropWhile p = c :: t → p c = false := by
  intro r
  induction r with
  | nil => intro c t h; cases h
  | cons a rest ih =>
    intro c t h
    rw [List.dropWhile_cons] at h
    by_cases hp : p a
    · rw [if_pos hp] at h
      exact ih c t h
    · rw [if_neg hp] at h
      cases h
      exact Bool.eq_false_iff.mpr hp

theorem rstrip_last (l : List Char) :
    rstripSlash l = [] ∨ ∃ c t, rstripSlash l = t ++ [c] ∧ c ≠ '/' := by
  unfold rstripSlash
  cases hd : l.reverse.dropWhile (· = '/') with
  | nil => exact Or.inl rfl
  | cons c t =>
    refine Or.inr ⟨c, t.reverse, by simp, ?_⟩
    have := dropWhile_head_not (· = '/') l.reverse c t hd
    simpa using this

theorem collapse_all_slash (l : List Char) (h : noDS l = true)
    (hlen : 1 < l.length) (hall : ∀ c ∈ l, c = '/') : False := by
  cases l with
  | nil => simp at hlen
  | cons a rest =>
    cases rest with
    | nil => simp at hlen
    | cons b r2 =>
      unfold noDS at h
      simp only [Bool.and_eq_true, Bool.not_eq_true'] at h
      have ha := hall a (List.mem_cons_self _ _)
      have hb := hall b (List.mem_cons_of_mem _ (List.mem_cons_self _ _))
      rw [ha, hb] at h
      simp at h

theorem rstrip_nil_all_slash (l : List Char) (h : rstripSlash l = []) :
    ∀ c ∈ l, c = '/' := by
  intro c hc
  have hd := rstripSlash_decomp l
  rw [h, List.nil_append] at hd
  rw [← hd] at hc
  have := List.mem_takeWhile_imp (List.mem_reverse.mp hc)
  simpa using this

theorem pathStep2_noDS (l : List Char) (h : noDS l = true) :
    noDS (pathStep2 l) = true := by
  unfold pathStep2
  by_cases hc : (decide (l.length > 1) && decide (l.getLast? = some '/')) = true
  · rw [if_pos hc]
    exact noDS_rstrip l h
  · rw [if_neg hc]
    exact h

theorem pathStep2_last (l : List Char) (h : noDS l = true) (hne : l ≠ []) :
    pathStep2 l = ['/'] ∨ ∃ c t, pathStep2 l = t ++ [c] ∧ c ≠ '/' := by
  unfold pathStep2
  by_cases hc : (decide (l.length > 1) && decide (l.getLast? = some '/')) = true
  · rw [if_pos hc]
    rcases rstrip_last l with hnil | hend
    · exfalso
      simp only [Bool.and_eq_true, decide_eq_true_eq] at hc
      exact collapse_all_slash l h hc.1 (rstrip_nil_all_slash l hnil)
    · exact Or.inr hend
  · rw [if_neg hc]
    simp only [Bool.and_eq_true, decide_eq_true_eq, not_and_or, not_lt] at hc
    rcases hc with hlen | hlast
    · cases l with
      | nil => exact absurd rfl hne
      | cons c rest =>
        cases rest with
        | nil =>
          by_cases hcs : c = '/'
          · exact Or.inl (by rw [hcs])
          · exact Or.inr ⟨c, [], rfl, hcs⟩
        | cons d r2 => simp at hlen
    · have hld : l.dropLast ++ [l.getLast hne] = l := List.dropLast_append_getLast hne
      refine Or.inr ⟨l.getLast hne, l.dropLast, hld.symm, ?_⟩
      intro he
      apply hlast
      rw [← hld, he, List.getLast?_concat]

theorem normPath_starts (p : List Char) : (normalizePathL p).take 1 = ['/'] := by
  unfold normalizePathL
  by_cases hp : p = []
  · rw [if_pos hp]
    rfl
  · rw [if_neg hp]
    by_cases h : (pathStep2 (collapseSlashes p)).take 1 = ['/']
    · rw [if_neg (by simpa using h)]
      exact h
    · rw [if_pos (by simpa using h)]
      rfl

theorem noDS_cons_slash (m : List Char) (h1 : noDS m = true)
    (h2 : m.take 1 ≠ ['/']) : noDS ('/' :: m) = true := by
  cases m with
  | nil => rfl
  | cons m0 mrest =>
    have hm0 : m0 ≠ '/' := by
      intro he
      apply h2
      rw [he]
      rfl
    unfold noDS
    simp only [Bool.and_eq_true]
    exact ⟨by simp [hm0], h1⟩

theorem normPath_noDS (p : List Char) : noDS (normalizePathL p) = true := by
  unfold normalizePathL
  by_cases hp : p = []
  · rw [if_pos hp]
    rfl
  · rw [if_neg hp]
    have h1 := pathStep2_noDS (collapseSlashes p) (collapseSlashes_noDS p)
    by_cases h : (pathStep2 (collapseSlashes p)).take 1 = ['/']
    · rw [if_neg (by simpa using h)]
      exact h1
    · rw [if_pos (by simpa using h)]
      exact noDS_cons_slash _ h1 h

theorem normPath_last (p : List Char) :
    normalizePathL p = ['/'] ∨
      ∃ c t, normalizePathL p = t ++ [c] ∧ c ≠ '/' := by
  unfold normalizePathL
  by_cases hp : p = []
  · rw [if_pos hp]
    exact Or.inl rfl
  · rw [if_neg hp]
    have hcne : collapseSlashes p ≠ [] := by
      cases p with
      | nil => exact absurd rfl hp
      | cons b r =>
        obtain ⟨t, ht⟩ := collapse_cons b r
        unfold collapseSlashes
        rw [ht]
        exact List.cons_ne_nil b t
    rcases pathStep2_last (collapseSlashes p) (collapseSlashes_noDS p) hcne with hm | ⟨c, t, hm, hc⟩
    · rw [hm]
      rw [if_neg (by simp)]
      exact Or.inl rfl
    · rw [hm]
      by_cases h : ((t ++ [c]).take 1 : List Char) = ['/']
      · rw [if_neg (by simpa using h)]
        exact Or.inr ⟨c, t, rfl, hc⟩
      · rw [if_pos (by simpa using h)]
        exact Or.inr ⟨c, '/' :: t, rfl, hc⟩

theorem normPath_fixpoint (P : List Char) (h1 : P.take 1 = ['/'])
    (h2 : noDS P = true)
    (h3 : P = ['/'] ∨ ∃ c t, P = t ++ [c] ∧ c ≠ '/') :
    normalizePathL P = P := by
  have hne : P ≠ [] := by
    intro h
    rw [h] at h1
    cases h1
  unfold normalizePathL
  rw [if_neg hne, noDS_collapse_id P h2]
  have hcond : (decide (P.length > 1) && decide (P.getLast? = some '/')) = false := by
    rcases h3 with h | ⟨c, t, hP, hc⟩
    · rw [h]
      rfl
    · rw [hP, List.getLast?_concat]
      simp [hc]
  unfold pathStep2
  rw [hcond]
  simp only [Bool.false_eq_true, if_false]
  rw [if_neg (by simpa using h1)]

theorem normPath_idem (p : List Char) :
    normalizePathL (normalizePathL p) = normalizePathL p :=
  normPath_fixpoint (normalizePathL p) (normPath_starts p) (normPath_noDS p)
    (normPath_last p)

/-! ## §11 The code-point order on strings (`sorted`'s comparison) -/

theorem strLt_irrefl : ∀ a : List Char, strLt a a = false := by
  intro a
  induction a with
  | nil => rfl
  | cons c t ih => simp [strLt, ih]

theorem strLt_trans : ∀ a b c : List Char,
    strLt a b = true → strLt b c = true → strLt a c = true := by
  intro a
  induction a with
  | nil =>
    intro b c hab hbc
    cases b with
    | nil => exact hbc
    | cons y ys =>
      cases c with
      | nil => simp [strLt] at hbc
      | cons z zs => rfl
  | cons x xs ih =>
    intro b c hab hbc
    cases b with
    | nil => simp [strLt] at hab
    | cons y ys =>
      cases c with
      | nil => simp [strLt] at hbc
      | cons z zs =>
        simp only [strLt] at hab hbc ⊢
        by_cases hxy : x < y
        · by_cases hyz : y < z
          · rw [if_pos (lt_trans hxy hyz)]
          · rw [if_neg hyz] at hbc
            by_cases hzy : z < y
            · rw [if_pos hzy] at hbc
              cases hbc
            · have hyz' : y = z := le_antisymm (not_lt.mp hzy) (not_lt.mp hyz)
              subst hyz'
              rw [if_pos hxy]
        · rw [if_neg hxy] at hab
          by_cases hyx : y < x
          · rw [if_pos hyx] at hab
            cases hab
          · have hxy' : x = y := le_antisymm (not_lt.mp hyx) (not_lt.mp hxy)
            subst hxy'
            rw [if_neg hyx] at hab
            by_cases hxz : x < z
            · rw [if_pos hxz]
            · rw [if_neg hxz] at hbc ⊢
              by_cases hzx : z < x
              · rw [if_pos hzx] at hbc
                cases hbc
              · rw [if_neg hzx] at hbc ⊢
                exact ih ys zs hab hbc

theorem strLt_connex : ∀ a b : List Char, ¬a = b →
    strLt a b = true ∨ strLt b a = true := by
  intro a
  induction a with
  | nil =>
    intro b hb
    cases b with
    | nil => exact absurd rfl hb
    | cons y ys => exact Or.inl rfl
  | cons x xs ih =>
    intro b hb
    cases b with
    | nil => exact Or.inr rfl
    | cons y ys =>
      by_cases hxy : x < y
      · exact Or.inl (by simp [strLt, hxy])
      · by_cases hyx : y < x
        · exact Or.inr (by simp [strLt, hyx])
        · have hxy' : x = y := le_antisymm (not_lt.mp hyx) (not_lt.mp hxy)
          subst hxy'
          have hxs : ¬xs = ys := fun h => hb (by rw [h])
          rcases ih ys hxs with h | h
          · exact Or.inl (by simp [strLt, h])
          · exact Or.inr (by simp [strLt, h])

theorem strLt_asymm (a b : List Char) (h : strLt a b = true) :
    strLt b a = false := by
  cases hba : strLt b a with
  | false => rfl
  | true =>
    have := strLt_trans a b a h hba
    rw [strLt_irrefl] at this
    cases this

instance : IsTrans (List Char) strLeP where
  trans := by
    intro a b c hab hbc
    simp only [strLeP, strLe, Bool.not_eq_true'] at hab hbc ⊢
    cases hca : strLt c a with
    | false => rfl
    | true =>
      rcases eq_or_ne a b with rfl | hne
      · rw [hca] at hbc
        cases hbc
      · rcases strLt_connex a b hne with h | h
        · rw [strLt_trans c a b hca h] at hbc
          cases hbc
        · rw [h] at hab
          cases hab

instance : IsTotal (List Char) strLeP where
  total := by
    intro a b
    simp only [strLeP, strLe, Bool.not_eq_true']
    rcases eq_or_ne a b with rfl | hne
    · exact Or.inl (strLt_irrefl a)
    · rcases strLt_connex a b hne with h | h
      · exact Or.inl (strLt_asymm a b h)
      · exact Or.inr (strLt_asymm b a h)

/-! ## §12 Percent-encoding roundtrip (`unquote_plus` of `quote_plus`) -/

theorem charToNat_lt (c : Char) : c.toNat < 0x110000 := by
  have h : c.toNat < 0xd800 ∨ (0xdfff < c.toNat ∧ c.toNat < 0x110000) := c.valid
  omega

theorem utf8Bytes_lt (c : Char) : ∀ b ∈ utf8Bytes c, b < 256 := by
  have hlt := charToNat_lt c
  intro b hb
  simp only [utf8Bytes] at hb
  by_cases h1 : c.toNat < 0x80
  · rw [if_pos h1] at hb
    simp only [List.mem_singleton] at hb
    omega
  · rw [if_neg h1] at hb
    by_cases h2 : c.toNat < 0x800
    · rw [if_pos h2] at hb
      simp only [List.mem_cons, List.not_mem_nil, or_false] at hb
      rcases hb with rfl | rfl <;> omega
    · rw [if_neg h2] at hb
      by_cases h3 : c.toNat < 0x10000
      · rw [if_pos h3] at hb
        simp only [List.mem_cons, List.not_mem_nil, or_false] at hb
        rcases hb with rfl | rfl | rfl <;> omega
      · rw [if_neg h3] at hb
        simp only [List.mem_cons, List.not_mem_nil, or_false] at hb
        rcases hb with rfl | rfl | rfl | rfl <;> omega

theorem hexVal_hexDigit : ∀ n, n < 16 → hexVal (hexDigit n) = some n := by decide

theorem hexDigit_safe : ∀ n, n < 16 → alwaysSafe (hexDigit n) = true := by decide

theorem alwaysSafe_lt (c : Char) (h : alwaysSafe c = true) : c.toNat < 0x80 := by
  have hz : ('z').toNat = 122 := rfl
  have hZ : ('Z').toNat = 90 := rfl
  have h9 : ('9').toNat = 57 := rfl
  simp only [alwaysSafe, Bool.or_eq_true, Bool.and_eq_true, decide_eq_true_eq] at h
  rcases h with ((((((⟨_, h2⟩ | ⟨_, h2⟩) | ⟨_, h2⟩) | rfl) | rfl) | rfl) | rfl)
  · have := charLe_toNat h2
    omega
  · have := charLe_toNat h2
    omega
  · have := charLe_toNat h2
    omega
  · decide
  · decide
  · decide
  · decide

theorem utf8DecodeAux_ne : ∀ (l : List Nat) (st a : Nat), l ≠ [] ∨ st ≠ 0 →
    utf8DecodeAux l st a ≠ [] := by
  intro l
  induction l with
  | nil =>
    intro st a h
    cases st with
    | zero =>
      rcases h with h | h
      · exact absurd rfl h
      · exact absurd rfl h
    | succ m => simp [utf8DecodeAux]
  | cons b rest ih =>
    intro st a _
    match st with
    | 0 =>
      simp only [utf8DecodeAux]
      split
      · exact List.cons_ne_nil _ _
      · split
        · exact ih 1 _ (Or.inr (by omega))
        · split
          · exact ih 2 _ (Or.inr (by omega))
          · split
            · exact ih 3 _ (Or.inr (by omega))
            · exact List.cons_ne_nil _ _
    | 1 =>
      simp only [utf8DecodeAux]
      split
      · exact List.cons_ne_nil _ _
      · exact List.cons_ne_nil _ _
    | n + 2 =>
      simp only [utf8DecodeAux]
      split
      · exact ih (n + 1) _ (Or.inr (by omega))
      · exact List.cons_ne_nil _ _

theorem utf8DecodeR_ne (l : List Nat) (h : l ≠ []) : utf8DecodeR l ≠ [] :=
  utf8DecodeAux_ne l 0 0 (Or.inl h)

theorem utf8DecodeR_two (n : Nat) (h1 : 0x80 ≤ n) (h2 : n < 0x800) (bs : List Nat) :
    utf8DecodeR ((0xC0 + n / 64) :: (0x80 + n % 64) :: bs) =
      Char.ofNat n :: utf8DecodeR bs := by
  show utf8DecodeAux _ 0 0 = Char.ofNat n :: utf8DecodeAux bs 0 0
  simp only [utf8DecodeAux]
  rw [if_neg (by omega)]
  rw [if_pos (by simp only [Bool.and_eq_true, decide_eq_true_eq]; omega)]
  rw [if_pos (by simp only [Bool.and_eq_true, decide_eq_true_eq]; omega)]
  have harg : (0xC0 + n / 64 - 0xC0) * 64 + (0x80 + n % 64 - 0x80) = n := by omega
  rw [harg]

theorem utf8DecodeR_three (n : Nat) (h1 : 0x800 ≤ n) (h2 : n < 0x10000) (bs : List Nat) :
    utf8DecodeR ((0xE0 + n / 4096) :: (0x80 + n / 64 % 64) :: (0x80 + n % 64) :: bs) =
      Char.ofNat n :: utf8DecodeR bs := by
  show utf8DecodeAux _ 0 0 = Char.ofNat n :: utf8DecodeAux bs 0 0
  simp only [utf8DecodeAux]
  rw [if_neg (by omega)]
  rw [if_neg (by simp only [Bool.and_eq_true, decide_eq_true_eq]; omega)]
  rw [if_pos (by simp only [Bool.and_eq_true, decide_eq_true_eq]; omega)]
  rw [if_pos (by simp only [Bool.and_eq_true, decide_eq_true_eq]; omega)]
  rw [if_pos (by simp only [Bool.and_eq_true, decide_eq_true_eq]; omega)]
  have harg : ((0xE0 + n / 4096 - 0xE0) * 64 + (0x80 + n / 64 % 64 - 0x80)) * 64 +
      (0x80 + n % 64 - 0x80) = n := by omega
  rw [harg]

theorem utf8DecodeR_four (n : Nat) (h1 : 0x10000 ≤ n) (h2 : n < 0x110000) (bs : List Nat) :
    utf8DecodeR ((0xF0 + n / 262144) :: (0x80 + n / 4096 % 64) :: (0x80 + n / 64 % 64) ::
        (0x80 + n % 64) :: bs) =
      Char.ofNat n :: utf8DecodeR bs := by
  show utf8DecodeAux _ 0 0 = Char.ofNat n :: utf8DecodeAux bs 0 0
  simp only [utf8DecodeAux]
  rw [if_neg (by omega)]
  rw [if_neg (by simp only [Bool.and_eq_true, decide_eq_true_eq]; omega)]
  rw [if_neg (by simp only [Bool.and_eq_true, decide_eq_true_eq]; omega)]
  rw [if_pos (by simp only [Bool.and_eq_true, decide_eq_true_eq]; omega)]
  rw [if_pos (by simp only [Bool.and_eq_true, decide_eq_true_eq]; omega)]
  rw [if_pos (by simp only [Bool.and_eq_true, decide_eq_true_eq]; omega)]
  rw [if_pos (by simp only [Bool.and_eq_true, decide_eq_true_eq]; omega)]
  have harg : (((0xF0 + n / 262144 - 0xF0) * 64 + (0x80 + n / 4096 % 64 - 0x80)) * 64 +
      (0x80 + n / 64 % 64 - 0x80)) * 64 + (0x80 + n % 64 - 0x80) = n := by omega
  rw [harg]

theorem utf8DecodeR_bytes (c : Char) (bs : List Nat) :
    utf8DecodeR (utf8Bytes c ++ bs) = c :: utf8DecodeR bs := by
  have hlt := charToNat_lt c
  simp only [utf8Bytes]
  by_cases h1 : c.toNat < 0x80
  · rw [if_pos h1]
    show utf8DecodeAux (c.toNat :: bs) 0 0 = c :: utf8DecodeR bs
    simp only [utf8DecodeAux]
    rw [if_pos h1, Char.ofNat_toNat]
    rfl
  · rw [if_neg h1]
    by_cases h2 : c.toNat < 0x800
    · rw [if_pos h2]
      show utf8DecodeR ((0xC0 + c.toNat / 64) :: (0x80 + c.toNat % 64) :: bs) = _
      rw [utf8DecodeR_two c.toNat (by omega) h2, Char.ofNat_toNat]
    · rw [if_neg h2]
      by_cases h3 : c.toNat < 0x10000
      · rw [if_pos h3]
        show utf8DecodeR ((0xE0 + c.toNat / 4096) :: (0x80 + c.toNat / 64 % 64) ::
            (0x80 + c.toNat % 64) :: bs) = _
        rw [utf8DecodeR_three c.toNat (by omega) h3, Char.ofNat_toNat]
      · rw [if_neg h3]
        show utf8DecodeR ((0xF0 + c.toNat / 262144) :: (0x80 + c.toNat / 4096 % 64) ::
            (0x80 + c.toNat / 64 % 64) :: (0x80 + c.toNat % 64) :: bs) = _
        rw [utf8DecodeR_four c.toNat (by omega) hlt, Char.ofNat_toNat]

theorem utf8DecodeR_flat (s : List Char) : utf8DecodeR (s.flatMap utf8Bytes) = s := by
  induction s with
  | nil => rfl
  | cons c t ih => rw [List.flatMap_cons, utf8DecodeR_bytes, ih]

theorem esc_length (bytes : List Nat) :
    (bytes.flatMap fun b => ['%', hexDigit (b / 16), hexDigit (b % 16)]).length =
      3 * bytes.length := by
  induction bytes with
  | nil => rfl
  | cons b rest ih =>
    rw [List.flatMap_cons, List.length_append, ih, List.length_cons]
    simp
    omega

theorem unquoteAux_esc : ∀ (bytes : List Nat) (t : List Char) (buf : List Nat) (fuel : Nat),
    (∀ b ∈ bytes, b < 256) → bytes.length + t.length ≤ fuel →
    unquoteAuxF fuel
        (bytes.flatMap (fun b => ['%', hexDigit (b / 16), hexDigit (b % 16)]) ++ t) buf
      = unquoteAuxF (fuel - bytes.length) t (bytes.reverse ++ buf) := by
  intro bytes
  induction bytes with
  | nil =>
    intro t buf fuel _ _
    simp
  | cons b rest ih =>
    intro t buf fuel hb hf
    rw [List.length_cons] at hf
    cases fuel with
    | zero => omega
    | succ f =>
      rw [List.flatMap_cons]
      show unquoteAuxF (f + 1)
          ('%' :: hexDigit (b / 16) :: hexDigit (b % 16) ::
            (rest.flatMap (fun b => ['%', hexDigit (b / 16), hexDigit (b % 16)]) ++ t)) buf = _
      have hb256 : b < 256 := hb b (List.mem_cons_self _ _)
      simp only [unquoteAuxF, eq_self_iff_true, if_true,
        hexVal_hexDigit (b / 16) (by omega), hexVal_hexDigit (b % 16) (by omega)]
      have harg : b / 16 * 16 + b % 16 = b := by omega
      rw [harg]
      rw [ih t (b :: buf) f (fun x hx => hb x (List.mem_cons_of_mem _ hx)) (by omega)]
      rw [List.reverse_cons, List.append_assoc, List.singleton_append]
      have hlen2 : f + 1 - (b :: rest).length = f - rest.length := by
        rw [List.length_cons]
        omega
      rw [hlen2]

theorem quoteMap_escape (c : Char) (hsafe : alwaysSafe c = false) (hsp : ¬c = ' ') :
    (quoteCharPlus c).map (fun x => if x = '+' then ' ' else x)
      = (utf8Bytes c).flatMap fun b => ['%', hexDigit (b / 16), hexDigit (b % 16)] := by
  have hq : quoteCharPlus c =
      (utf8Bytes c).flatMap fun b => ['%', hexDigit (b / 16), hexDigit (b % 16)] := by
    unfold quoteCharPlus
    rw [if_neg (by rw [hsafe]; exact Bool.false_ne_true), if_neg hsp]
  rw [hq, List.map_flatMap]
  have hne : ∀ n, n < 16 → ¬hexDigit n = '+' := by
    intro n hn he
    have := hexDigit_safe n hn
    rw [he] at this
    exact absurd this (by decide)
  have key : ∀ bl : List Nat, (∀ b ∈ bl, b < 256) →
      (bl.flatMap fun a =>
          List.map (fun x => if x = '+' then ' ' else x)
            ['%', hexDigit (a / 16), hexDigit (a % 16)])
        = bl.flatMap fun a => ['%', hexDigit (a / 16), hexDigit (a % 16)] := by
    intro bl hbl
    induction bl with
    | nil => rfl
    | cons b rest ihb =>
      rw [List.flatMap_cons, List.flatMap_cons,
        ihb (fun x hx => hbl x (List.mem_cons_of_mem _ hx))]
      have hb256 : b < 256 := hbl b (List.mem_cons_self _ _)
      simp only [List.map_cons, List.map_nil]
      rw [if_neg (by decide), if_neg (hne (b / 16) (by omega)),
        if_neg (hne (b % 16) (by omega))]
  exact key (utf8Bytes c) (utf8Bytes_lt c)

theorem unquote_scan : ∀ (s : List Char) (buf : List Nat) (fuel : Nat),
    (s.flatMap fun c => (quoteCharPlus c).map fun x => if x = '+' then ' ' else x).length
        ≤ fuel →
    unquoteAuxF fuel
        (s.flatMap fun c => (quoteCharPlus c).map fun x => if x = '+' then ' ' else x) buf
      = utf8DecodeR (buf.reverse ++ s.flatMap utf8Bytes) := by
  intro s
  induction s with
  | nil =>
    intro buf fuel _
    rw [List.flatMap_nil, List.flatMap_nil, List.append_nil]
    cases fuel <;> rfl
  | cons c t ih =>
    intro buf fuel hf
    rw [List.flatMap_cons] at hf ⊢
    by_cases hsafe : alwaysSafe c = true
    · have hplus : ¬c = '+' := fun he => by
        rw [he] at hsafe
        exact absurd hsafe (by decide)
      have hq : (quoteCharPlus c).map (fun x => if x = '+' then ' ' else x) = [c] := by
        unfold quoteCharPlus
        rw [if_pos hsafe]
        simp [hplus]
      rw [hq] at hf ⊢
      rw [List.singleton_append, List.length_cons] at hf
      cases fuel with
      | zero => omega
      | succ f =>
        rw [List.singleton_append]
        have hpct : ¬c = '%' := fun he => by
          rw [he] at hsafe
          exact absurd hsafe (by decide)
        have hascii : c.toNat < 0x80 := alwaysSafe_lt c hsafe
        simp only [unquoteAuxF]
        rw [if_neg hpct, if_pos hascii]
        rw [ih (c.toNat :: buf) f (by omega)]
        have hub : utf8Bytes c = [c.toNat] := by
          simp only [utf8Bytes]
          rw [if_pos hascii]
        rw [List.flatMap_cons, hub]
        rw [List.reverse_cons, List.append_assoc, List.singleton_append]
    · by_cases hsp : c = ' '
      · subst hsp
        have hq : (quoteCharPlus ' ').map (fun x => if x = '+' then ' ' else x) = [' '] := by
          decide
        rw [hq] at hf ⊢
        rw [List.singleton_append, List.length_cons] at hf
        cases fuel with
        | zero => omega
        | succ f =>
          rw [List.singleton_append]
          simp only [unquoteAuxF]
          rw [if_neg (by decide), if_pos (by decide)]
          rw [ih (' '.toNat :: buf) f (by omega)]
          have hub : utf8Bytes ' ' = [' '.toNat] := by decide
          rw [List.flatMap_cons, hub]
          rw [List.reverse_cons, List.append_assoc, List.singleton_append]
      · have hsafeF : alwaysSafe c = false := by
          revert hsafe
          cases alwaysSafe c <;> simp
        rw [quoteMap_escape c hsafeF hsp] at hf ⊢
        rw [List.length_append, esc_length] at hf
        rw [unquoteAux_esc (utf8Bytes c) _ buf fuel (utf8Bytes_lt c) (by omega)]
        rw [ih ((utf8Bytes c).reverse ++ buf) (fuel - (utf8Bytes c).length) (by omega)]
        rw [List.reverse_append, List.reverse_reverse]
        rw [List.flatMap_cons, List.append_assoc]

theorem unquotePlus_quotePlus (s : List Char) : unquotePlusL (quotePlusL s) = s := by
  unfold unquotePlusL quotePlusL
  rw [List.map_flatMap]
  rw [unquote_scan s [] _ (by
    rw [← List.map_flatMap]
    exact (List.length_map _ _).le)]
  rw [List.reverse_nil, List.nil_append, utf8DecodeR_flat]

/-! ## §13 Character classes of `urlencode` output and splitting lemmas -/

theorem quoteCharPlus_class (c : Char) :
    ∀ x ∈ quoteCharPlus c, (alwaysSafe x || x = '+' || x = '%') = true := by
  intro x hx
  unfold quoteCharPlus at hx
  by_cases hs : alwaysSafe c = true
  · rw [if_pos hs] at hx
    simp only [List.mem_singleton] at hx
    subst hx
    simp [hs]
  · rw [if_neg hs] at hx
    by_cases hsp : c = ' '
    · rw [if_pos hsp] at hx
      simp only [List.mem_singleton] at hx
      subst hx
      simp
    · rw [if_neg hsp] at hx
      simp only [List.mem_flatMap] at hx
      obtain ⟨b, hb, hxb⟩ := hx
      have hb256 := utf8Bytes_lt c b hb
      simp only [List.mem_cons, List.not_mem_nil, or_false] at hxb
      rcases hxb with rfl | rfl | rfl
      · simp
      · simp [hexDigit_safe (b / 16) (by omega)]
      · simp [hexDigit_safe (b % 16) (by omega)]

theorem quotePlusL_class (s : List Char) :
    ∀ x ∈ quotePlusL s, (alwaysSafe x || x = '+' || x = '%') = true := by
  intro x hx
  unfold quotePlusL at hx
  simp only [List.mem_flatMap] at hx
  obtain ⟨c, _, hxc⟩ := hx
  exact quoteCharPlus_class c x hxc

theorem quoteCharPlus_ne (c : Char) : quoteCharPlus c ≠ [] := by
  unfold quoteCharPlus
  split
  · exact List.cons_ne_nil _ _
  · split
    · exact List.cons_ne_nil _ _
    · cases hub : utf8Bytes c with
      | nil =>
        exfalso
        revert hub
        simp only [utf8Bytes]
        split
        · exact List.cons_ne_nil _ _
        · split
          · exact List.cons_ne_nil _ _
          · split
            · exact List.cons_ne_nil _ _
            · exact List.cons_ne_nil _ _
      | cons b bs =>
        rw [List.flatMap_cons]
        simp

theorem quotePlusL_ne (s : List Char) (h : s ≠ []) : quotePlusL s ≠ [] := by
  cases s with
  | nil => exact absurd rfl h
  | cons c t =>
    unfold quotePlusL
    rw [List.flatMap_cons]
    intro hnil
    rcases List.append_eq_nil.mp hnil with ⟨h1, _⟩
    exact quoteCharPlus_ne c h1

theorem mem_intercalateAmp : ∀ (ps : List (List Char)) (x : Char),
    x ∈ List.intercalate ['&'] ps → x = '&' ∨ ∃ p ∈ ps, x ∈ p := by
  intro ps
  induction ps with
  | nil =>
    intro x hx
    simp [List.intercalate] at hx
  | cons a rest ihp =>
    intro x hx
    cases rest with
    | nil =>
      simp [List.intercalate] at hx
      exact Or.inr ⟨a, List.mem_cons_self _ _, hx⟩
    | cons b t =>
      have he : List.intercalate ['&'] (a :: b :: t)
          = a ++ '&' :: List.intercalate ['&'] (b :: t) := by
        simp [List.intercalate, List.intersperse_cons_cons]
      rw [he] at hx
      simp only [List.mem_append, List.mem_cons] at hx
      rcases hx with hx | hx | hx
      · exact Or.inr ⟨a, List.mem_cons_self _ _, hx⟩
      · exact Or.inl hx
      · rcases ihp x hx with h | ⟨p, hp, hxp⟩
        · exact Or.inl h
        · exact Or.inr ⟨p, List.mem_cons_of_mem _ hp, hxp⟩

theorem splitSep_no : ∀ (sep : Char) (a : List Char), sep ∉ a →
    splitSep sep a = [a] := by
  intro sep a
  induction a with
  | nil => intro _; rfl
  | cons c rest2 ihs =>
    intro h
    have hcs : ¬c = sep := fun he => h (by rw [he]; exact List.mem_cons_self _ _)
    have hr : sep ∉ rest2 := fun hm => h (List.mem_cons_of_mem _ hm)
    simp only [splitSep, ihs hr, if_neg hcs]

theorem splitSep_app : ∀ (sep : Char) (a r : List Char), sep ∉ a →
    splitSep sep (a ++ sep :: r) = a :: splitSep sep r := by
  intro sep a
  induction a with
  | nil =>
    intro r _
    show splitSep sep (sep :: r) = [] :: splitSep sep r
    simp only [splitSep, eq_self_iff_true, if_true]
  | cons c a2 ihs =>
    intro r h
    have hcs : ¬c = sep := fun he => h (by rw [he]; exact List.mem_cons_self _ _)
    have ha : sep ∉ a2 := fun hm => h (List.mem_cons_of_mem _ hm)
    rw [List.cons_append]
    simp only [splitSep, ihs r ha, if_neg hcs]

theorem splitSep_intercalate : ∀ ps : List (List Char), ps ≠ [] →
    (∀ p ∈ ps, '&' ∉ p) → splitSep '&' (List.intercalate ['&'] ps) = ps := by
  intro ps
  induction ps with
  | nil => intro h; exact absurd rfl h
  | cons a rest ihp =>
    intro _ hp
    cases rest with
    | nil =>
      have he : List.intercalate ['&'] [a] = a := by simp [List.intercalate]
      rw [he, splitSep_no '&' a (hp a (List.mem_cons_self _ _))]
    | cons b t =>
      have he : List.intercalate ['&'] (a :: b :: t)
          = a ++ '&' :: List.intercalate ['&'] (b :: t) := by
        simp [List.intercalate, List.intersperse_cons_cons]
      rw [he, splitSep_app '&' a _ (hp a (List.mem_cons_self _ _)),
        ihp (by simp) (fun p hmem => hp p (List.mem_cons_of_mem _ hmem))]

theorem splitFirst_none : ∀ (sep : Char) (l : List Char), sep ∉ l →
    splitFirst sep l = none := by
  intro sep l
  induction l with
  | nil => intro _; rfl
  | cons c rest2 ihs =>
    intro h
    have hcs : ¬c = sep := fun he => h (by rw [he]; exact List.mem_cons_self _ _)
    have hr : sep ∉ rest2 := fun hm => h (List.mem_cons_of_mem _ hm)
    simp only [splitFirst, ihs hr, if_neg hcs]

theorem splitFirst_app : ∀ (sep : Char) (a b : List Char), sep ∉ a →
    splitFirst sep (a ++ sep :: b) = some (a, b) := by
  intro sep a
  induction a with
  | nil =>
    intro b _
    show splitFirst sep (sep :: b) = some ([], b)
    simp only [splitFirst, eq_self_iff_true, if_true]
  | cons c a2 ihs =>
    intro b h
    have hcs : ¬c = sep := fun he => h (by rw [he]; exact List.mem_cons_self _ _)
    have ha : sep ∉ a2 := fun hm => h (List.mem_cons_of_mem _ hm)
    rw [List.cons_append]
    simp only [splitFirst, ihs b ha, if_neg hcs]

/-! ## §14 `parse_qsl` recovers the pairs `urlencode` was given -/

theorem quotePlusL_not_mem (s : List Char) (x : Char)
    (hx : (alwaysSafe x || x = '+' || x = '%') = false) : x ∉ quotePlusL s := by
  intro hmem
  rw [quotePlusL_class s x hmem] at hx
  cases hx

theorem filterMap_eq_self_of {α β : Type} (g : α → Option β) (f : β → α) :
    ∀ l : List β, (∀ x ∈ l, g (f x) = some x) →
      List.filterMap g (l.map f) = l := by
  intro l h
  induction l with
  | nil => rfl
  | cons x t ihl =>
    rw [List.map_cons, List.filterMap_cons, h x (List.mem_cons_self _ _),
      ihl fun y hy => h y (List.mem_cons_of_mem _ hy)]

theorem parseQsl_urlencode (ps : List (List Char × List Char)) (hne : ps ≠ [])
    (hv : ∀ p ∈ ps, p.2 ≠ []) : parseQsl (urlencodeL ps) = ps := by
  unfold parseQsl urlencodeL
  rw [splitSep_intercalate _ (fun h => hne (List.map_eq_nil_iff.mp h))
    (by
      intro p hp hamp
      simp only [List.mem_map] at hp
      obtain ⟨q, _, rfl⟩ := hp
      simp only [List.mem_append, List.mem_cons] at hamp
      rcases hamp with h | h | h
      · exact absurd (quotePlusL_class _ _ h) (by decide)
      · cases h
      · exact absurd (quotePlusL_class _ _ h) (by decide))]
  apply filterMap_eq_self_of
  intro p hp
  have h1 : ¬(quotePlusL p.1 ++ '=' :: quotePlusL p.2) = [] := by simp
  have h2 := splitFirst_app '=' (quotePlusL p.1) (quotePlusL p.2)
      (quotePlusL_not_mem p.1 '=' (by decide))
  have h3 : ¬quotePlusL p.2 = [] := quotePlusL_ne p.2 (hv p hp)
  show (if (quotePlusL p.1 ++ '=' :: quotePlusL p.2) = [] then none
      else match splitFirst '=' (quotePlusL p.1 ++ '=' :: quotePlusL p.2) with
        | none => none
        | some (n, v) => if v = [] then none else some (unquotePlusL n, unquotePlusL v))
      = some p
  rw [if_neg h1, h2]
  show (if quotePlusL p.2 = [] then none
      else some (unquotePlusL (quotePlusL p.1), unquotePlusL (quotePlusL p.2))) = some p
  rw [if_neg h3, unquotePlus_quotePlus, unquotePlus_quotePlus]

/-! ## §15 Grouping of pairs into the `parse_qs` dict -/

theorem dictAppend_fresh : ∀ (d : List (List Char × List (List Char)))
    (k : List Char) (v : List Char), k ∉ d.map Prod.fst →
    dictAppend d k v = d ++ [(k, [v])] := by
  intro d
  induction d with
  | nil => intro k v _; rfl
  | cons e rest ihd =>
    intro k v h
    obtain ⟨k2, vs⟩ := e
    have hk : ¬k2 = k := fun he => h (by simp [he])
    show dictAppend ((k2, vs) :: rest) k v = _
    simp only [dictAppend, if_neg hk]
    rw [ihd k v fun hm => h (by simp only [List.map_cons]; exact List.mem_cons_of_mem _ hm)]
    rfl

theorem dictAppend_last : ∀ (d : List (List Char × List (List Char)))
    (k : List Char) (vs : List (List Char)) (v : List Char), k ∉ d.map Prod.fst →
    dictAppend (d ++ [(k, vs)]) k v = d ++ [(k, vs ++ [v])] := by
  intro d
  induction d with
  | nil =>
    intro k vs v _
    simp [dictAppend]
  | cons e rest ihd =>
    intro k vs v h
    obtain ⟨k2, vs2⟩ := e
    have hk : ¬k2 = k := fun he => h (by simp [he])
    rw [List.cons_append]
    show dictAppend ((k2, vs2) :: (rest ++ [(k, vs)])) k v = _
    simp only [dictAppend, if_neg hk]
    rw [ihd k vs v fun hm => h (by simp only [List.map_cons]; exact List.mem_cons_of_mem _ hm)]
    rfl

theorem foldl_dict_block : ∀ (vs : List (List Char))
    (d : List (List Char × List (List Char))) (k : List Char) (acc : List (List Char)),
    k ∉ d.map Prod.fst →
    List.foldl (fun d p => dictAppend d p.1 p.2) (d ++ [(k, acc)])
        (vs.map fun v => (k, v))
      = d ++ [(k, acc ++ vs)] := by
  intro vs
  induction vs with
  | nil =>
    intro d k acc _
    simp
  | cons v t ihv =>
    intro d k acc h
    rw [List.map_cons, List.foldl_cons]
    show List.foldl _ (dictAppend (d ++ [(k, acc)]) k v) _ = _
    rw [dictAppend_last d k acc v h, ihv d k (acc ++ [v]) h, List.append_assoc,
      List.singleton_append]

theorem foldl_dict_groups : ∀ (keys : List (List Char))
    (vals : List Char → List (List Char)) (d : List (List Char × List (List Char))),
    keys.Nodup → (∀ k ∈ keys, vals k ≠ []) → (∀ k ∈ keys, k ∉ d.map Prod.fst) →
    List.foldl (fun d p => dictAppend d p.1 p.2) d
        (keys.flatMap fun k => (vals k).map fun v => (k, v))
      = d ++ keys.map fun k => (k, vals k) := by
  intro keys
  induction keys with
  | nil =>
    intro vals d _ _ _
    simp
  | cons k kt ihk =>
    intro vals d hnod hvne hfresh
    rw [List.flatMap_cons, List.foldl_append]
    have hkd : k ∉ d.map Prod.fst := hfresh k (List.mem_cons_self _ _)
    have hblock : List.foldl (fun d p => dictAppend d p.1 p.2) d
        ((vals k).map fun v => (k, v)) = d ++ [(k, vals k)] := by
      cases hvk : vals k with
      | nil => exact absurd hvk (hvne k (List.mem_cons_self _ _))
      | cons v vt =>
        rw [List.map_cons, List.foldl_cons]
        show List.foldl _ (dictAppend d k v) _ = _
        rw [dictAppend_fresh d k v hkd, foldl_dict_block vt d k [v] hkd,
          List.singleton_append]
    rw [hblock]
    rw [ihk vals (d ++ [(k, vals k)]) (List.nodup_cons.mp hnod).2
      (fun k2 h2 => hvne k2 (List.mem_cons_of_mem _ h2))
      (fun k2 h2 hm => by
        rw [List.map_append] at hm
        rcases List.mem_append.mp hm with hm2 | hm2
        · exact hfresh k2 (List.mem_cons_of_mem _ h2) hm2
        · simp only [List.map_cons, List.map_nil, List.mem_singleton] at hm2
          exact (List.nodup_cons.mp hnod).1 (hm2 ▸ h2))]
    rw [List.append_assoc, List.singleton_append, List.map_cons]

theorem dictAppend_keys (d : List (List Char × List (List Char)))
    (k : List Char) (v : List Char) :
    (dictAppend d k v).map Prod.fst =
      if k ∈ d.map Prod.fst then d.map Prod.fst else d.map Prod.fst ++ [k] := by
  induction d with
  | nil => simp [dictAppend]
  | cons e rest ihd =>
    obtain ⟨k2, vs⟩ := e
    by_cases hk : k2 = k
    · subst hk
      show (dictAppend ((k2, vs) :: rest) k2 v).map Prod.fst = _
      simp [dictAppend]
    · show (dictAppend ((k2, vs) :: rest) k v).map Prod.fst = _
      simp only [dictAppend, if_neg hk, List.map_cons, ihd]
      by_cases hm : k ∈ rest.map Prod.fst
      · rw [if_pos hm, if_pos (by simp [hm])]
      · rw [if_neg hm, if_neg (by
          simp only [List.mem_cons]
          rintro (he | hmm)
          · exact hk he.symm
          · exact hm hmm)]
        rfl

theorem dictAppend_nodup (d : List (List Char × List (List Char)))
    (k : List Char) (v : List Char) (h : (d.map Prod.fst).Nodup) :
    ((dictAppend d k v).map Prod.fst).Nodup := by
  rw [dictAppend_keys]
  by_cases hm : k ∈ d.map Prod.fst
  · rw [if_pos hm]
    exact h
  · rw [if_neg hm]
    simp [List.nodup_append, h, hm]

theorem foldl_dict_nodup : ∀ (prs : List (List Char × List Char))
    (d : List (List Char × List (List Char))), (d.map Prod.fst).Nodup →
    ((List.foldl (fun d p => dictAppend d p.1 p.2) d prs).map Prod.fst).Nodup := by
  intro prs
  induction prs with
  | nil => intro d h; exact h
  | cons p t ihp =>
    intro d h
    rw [List.foldl_cons]
    exact ihp _ (dictAppend_nodup d p.1 p.2 h)

theorem parseQs_keys_nodup (q : List Char) : ((parseQs q).map Prod.fst).Nodup := by
  unfold parseQs
  exact foldl_dict_nodup _ [] (by simp)

theorem dictAppend_vals (P : List Char → Prop) :
    ∀ (d : List (List Char × List (List Char))) (k : List Char) (v : List Char),
    (∀ e ∈ d, ∀ x ∈ e.2, P x) → P v →
    ∀ e ∈ dictAppend d k v, ∀ x ∈ e.2, P x := by
  intro d
  induction d with
  | nil =>
    intro k v _ hv e he x hx
    simp only [dictAppend, List.mem_singleton] at he
    subst he
    simp only [List.mem_singleton] at hx
    subst hx
    exact hv
  | cons e0 rest ihd =>
    intro k v hd hv e he x hx
    obtain ⟨k2, vs⟩ := e0
    by_cases hk : k2 = k
    · rw [show dictAppend ((k2, vs) :: rest) k v = (k2, vs ++ [v]) :: rest by
        simp [dictAppend, hk]] at he
      rcases List.mem_cons.mp he with rfl | he2
      · rcases List.mem_append.mp hx with hx2 | hx2
        · exact hd (k2, vs) (List.mem_cons_self _ _) x hx2
        · simp only [List.mem_singleton] at hx2
          subst hx2
          exact hv
      · exact hd e (List.mem_cons_of_mem _ he2) x hx
    · rw [show dictAppend ((k2, vs) :: rest) k v = (k2, vs) :: dictAppend rest k v by
        simp [dictAppend, hk]] at he
      rcases List.mem_cons.mp he with rfl | he2
      · exact hd (k2, vs) (List.mem_cons_self _ _) x hx
      · exact ihd k v (fun e2 h2 => hd e2 (List.mem_cons_of_mem _ h2)) hv e he2 x hx

theorem foldl_dict_vals (P : List Char → Prop) :
    ∀ (prs : List (List Char × List Char)) (d : List (List Char × List (List Char))),
    (∀ p ∈ prs, P p.2) → (∀ e ∈ d, ∀ x ∈ e.2, P x) →
    ∀ e ∈ List.foldl (fun d p => dictAppend d p.1 p.2) d prs, ∀ x ∈ e.2, P x := by
  intro prs
  induction prs with
  | nil => intro d _ hd; exact hd
  | cons p t ihp =>
    intro d hp hd
    rw [List.foldl_cons]
    exact ihp _ (fun p2 h2 => hp p2 (List.mem_cons_of_mem _ h2))
      (dictAppend_vals P d p.1 p.2 hd (hp p (List.mem_cons_self _ _)))

theorem unquoteAuxF_ne : ∀ (fuel : Nat) (s : List Char) (buf : List Nat),
    (s ≠ [] ∨ buf ≠ []) → unquoteAuxF fuel s buf ≠ [] := by
  intro fuel
  induction fuel with
  | zero =>
    intro s buf h
    cases s with
    | nil =>
      rcases h with h | h
      · exact absurd rfl h
      · show utf8DecodeR buf.reverse ≠ []
        exact utf8DecodeR_ne _ (by simpa using h)
    | cons c r =>
      show utf8DecodeR buf.reverse ++ (c :: r) ≠ []
      simp
  | succ f ihf =>
    intro s buf h
    cases s with
    | nil =>
      rcases h with h | h
      · exact absurd rfl h
      · show utf8DecodeR buf.reverse ≠ []
        exact utf8DecodeR_ne _ (by simpa using h)
    | cons c r =>
      show unquoteAuxF (f + 1) (c :: r) buf ≠ []
      simp only [unquoteAuxF]
      split
      · split
        · split
          · exact ihf _ _ (Or.inr (List.cons_ne_nil _ _))
          · exact ihf _ _ (Or.inr (List.cons_ne_nil _ _))
        · exact ihf _ _ (Or.inr (List.cons_ne_nil _ _))
      · split
        · exact ihf _ _ (Or.inr (List.cons_ne_nil _ _))
        · simp

theorem unquotePlusL_ne (s : List Char) (h : s ≠ []) : unquotePlusL s ≠ [] := by
  unfold unquotePlusL
  apply unquoteAuxF_ne
  exact Or.inl (by simpa using h)

theorem parseQsl_val_ne (q : List Char) : ∀ p ∈ parseQsl q, p.2 ≠ [] := by
  intro p hp
  unfold parseQsl at hp
  rw [List.mem_filterMap] at hp
  obtain ⟨piece, _, hf⟩ := hp
  by_cases hnil : piece = []
  · rw [if_pos hnil] at hf
    cases hf
  · rw [if_neg hnil] at hf
    cases hsp : splitFirst '=' piece with
    | none =>
      rw [hsp] at hf
      cases hf
    | some nv =>
      obtain ⟨n, v⟩ := nv
      rw [hsp] at hf
      have hf2 : (if v = [] then none
          else some (unquotePlusL n, unquotePlusL v)) = some p := hf
      by_cases hv : v = []
      · rw [if_pos hv] at hf2
        cases hf2
      · rw [if_neg hv] at hf2
        cases hf2
        exact unquotePlusL_ne v hv

theorem parseQs_val_ne (q : List Char) :
    ∀ e ∈ parseQs q, ∀ v ∈ e.2, v ≠ [] := by
  unfold parseQs
  exact foldl_dict_vals _ _ [] (fun p hp => parseQsl_val_ne q p hp) (by simp)

theorem lookupVals_map (keys : List (List Char)) (vals : List Char → List (List Char)) :
    ∀ k ∈ keys, lookupVals (keys.map fun k2 => (k2, vals k2)) k = vals k := by
  induction keys with
  | nil => intro k hk; cases hk
  | cons k0 kt ihk =>
    intro k hk
    rw [List.map_cons]
    show lookupVals ((k0, vals k0) :: kt.map fun k2 => (k2, vals k2)) k = vals k
    simp only [lookupVals]
    by_cases h0 : k0 = k
    · rw [if_pos h0, h0]
    · rw [if_neg h0]
      rcases List.mem_cons.mp hk with rfl | hk2
      · exact absurd rfl h0
      · exact ihk k hk2

theorem lookupVals_mem : ∀ (d : List (List Char × List (List Char))) (k : List Char),
    k ∈ d.map Prod.fst → (k, lookupVals d k) ∈ d := by
  intro d
  induction d with
  | nil => intro k hk; cases hk
  | cons e rest ihd =>
    intro k hk
    obtain ⟨k2, vs⟩ := e
    show (k, lookupVals ((k2, vs) :: rest) k) ∈ _
    simp only [lookupVals]
    by_cases h0 : k2 = k
    · rw [if_pos h0, h0]
      exact List.mem_cons_self _ _
    · rw [if_neg h0]
      rcases List.mem_cons.mp hk with he | hk2
      · exact absurd he.symm h0
      · exact List.mem_cons_of_mem _ (ihd k hk2)

/-! ## §16 Idempotence of `_normalize_query` -/

theorem flatMap_congr_mem {α β : Type} (l : List α) (f g : α → List β)
    (h : ∀ a ∈ l, f a = g a) : l.flatMap f = l.flatMap g := by
  induction l with
  | nil => rfl
  | cons a t ihl =>
    rw [List.flatMap_cons, List.flatMap_cons, h a (List.mem_cons_self _ _),
      ihl fun x hx => h x (List.mem_cons_of_mem _ hx)]

theorem normalizeQuery_idem (q : List Char) :
    normalizeQueryL (normalizeQueryL q) = normalizeQueryL q := by
  by_cases hq : q = []
  · subst hq
    rfl
  by_cases hP : queryParams q = []
  · have h1 : normalizeQueryL q = [] := by
      unfold normalizeQueryL
      rw [if_neg hq, if_pos hP]
    rw [h1]
    rfl
  set P := queryParams q with hPdef
  set keys := List.insertionSort strLeP (P.map Prod.fst) with hkeys
  set pairs := keys.flatMap fun k =>
    (List.insertionSort strLeP (lookupVals P k)).map fun v => (k, v) with hpairs
  have hQ : normalizeQueryL q = urlencodeL pairs := by
    unfold normalizeQueryL
    rw [if_neg hq, if_neg hP]
  rw [hQ]
  by_cases hQnil : urlencodeL pairs = []
  · rw [hQnil]
    rfl
  have hsubl : (P.map Prod.fst).Sublist ((parseQs q).map Prod.fst) := by
    rw [hPdef]
    unfold queryParams
    exact List.Sublist.map Prod.fst ((List.filter_sublist _).trans (List.filter_sublist _))
  have hnodP : (P.map Prod.fst).Nodup := List.Nodup.sublist hsubl (parseQs_keys_nodup q)
  have hpermk : keys.Perm (P.map Prod.fst) := List.perm_insertionSort _ _
  have hknd : keys.Nodup := hpermk.nodup_iff.mpr hnodP
  have hksorted : List.Sorted strLeP keys := List.sorted_insertionSort _ _
  have hentry : ∀ k ∈ keys, (k, lookupVals P k) ∈ P := fun k hk =>
    lookupVals_mem P k (hpermk.mem_iff.mp hk)
  have hPfilter2 := fun e (he : e ∈ P) => (List.mem_filter.mp (hPdef ▸ he)).2
  have hPin1 := fun e (he : e ∈ P) => (List.mem_filter.mp (hPdef ▸ he)).1
  have hPtrack := fun e (he : e ∈ P) => (List.mem_filter.mp (hPin1 e he)).2
  have hPq : ∀ e ∈ P, e ∈ parseQs q := fun e he => (List.mem_filter.mp (hPin1 e he)).1
  have hsortv : ∀ k : List Char,
      (List.insertionSort strLeP (lookupVals P k)).Perm (lookupVals P k) :=
    fun k => List.perm_insertionSort _ _
  have hvalne : ∀ k ∈ keys, lookupVals P k ≠ [] := by
    intro k hk
    have h2 := hPfilter2 _ (hentry k hk)
    simp only [Bool.and_eq_true, decide_eq_true_eq] at h2
    exact h2.1
  have hvne : ∀ k ∈ keys, ∀ v ∈ lookupVals P k, v ≠ [] := by
    intro k hk v hv
    exact parseQs_val_ne q _ (hPq _ (hentry k hk)) v hv
  have hpairsval : ∀ p ∈ pairs, p.2 ≠ [] := by
    intro p hp
    rw [hpairs] at hp
    simp only [List.mem_flatMap, List.mem_map] at hp
    obtain ⟨k, hk, v, hv, rfl⟩ := hp
    exact hvne k hk v ((hsortv k).mem_iff.mp hv)
  have hkeysne : keys ≠ [] := by
    intro h0
    exact hP (hPdef ▸ List.map_eq_nil_iff.mp ((h0 ▸ hpermk).symm.eq_nil))
  have hpairsne : pairs ≠ [] := by
    obtain ⟨k0, kt, hk0⟩ : ∃ k0 kt, keys = k0 :: kt := by
      cases hc : keys with
      | nil => exact absurd hc hkeysne
      | cons a b => exact ⟨a, b, rfl⟩
    rw [hpairs, hk0, List.flatMap_cons]
    intro hnil
    rcases List.append_eq_nil.mp hnil with ⟨h1, _⟩
    rw [List.map_eq_nil_iff] at h1
    exact hvalne k0 (hk0 ▸ List.mem_cons_self _ _) ((h1 ▸ hsortv k0).symm.eq_nil)
  have hqsl : parseQsl (urlencodeL pairs) = pairs :=
    parseQsl_urlencode pairs hpairsne hpairsval
  have hgroup : parseQs (urlencodeL pairs) = keys.map fun k =>
      (k, List.insertionSort strLeP (lookupVals P k)) := by
    unfold parseQs
    rw [hqsl, hpairs]
    exact foldl_dict_groups keys _ [] hknd
      (fun k hk h0 => hvalne k hk ((h0 ▸ hsortv k).symm.eq_nil))
      (fun k _ => by simp)
  have hf1 : ∀ e ∈ (keys.map fun k =>
      (k, List.insertionSort strLeP (lookupVals P k))),
      (!isTrackingKey (lowerL e.1)) = true := by
    intro e he
    simp only [List.mem_map] at he
    obtain ⟨k, hk, rfl⟩ := he
    exact hPtrack (k, lookupVals P k) (hentry k hk)
  have hf2 : ∀ e ∈ (keys.map fun k =>
      (k, List.insertionSort strLeP (lookupVals P k))),
      (decide (e.2 ≠ []) && e.2.any fun v => decide (pyStripL v ≠ [])) = true := by
    intro e he
    simp only [List.mem_map] at he
    obtain ⟨k, hk, rfl⟩ := he
    have h2 := hPfilter2 _ (hentry k hk)
    simp only [Bool.and_eq_true, decide_eq_true_eq, List.any_eq_true] at h2 ⊢
    obtain ⟨h2a, x, hx, h2b⟩ := h2
    exact ⟨fun h0 => h2a ((h0 ▸ hsortv k).symm.eq_nil),
      x, (hsortv k).mem_iff.mpr hx, h2b⟩
  have hqp2 : queryParams (urlencodeL pairs) = keys.map fun k =>
      (k, List.insertionSort strLeP (lookupVals P k)) := by
    unfold queryParams
    rw [hgroup, List.filter_eq_self.mpr hf1, List.filter_eq_self.mpr hf2]
  have hqp2ne : ¬queryParams (urlencodeL pairs) = [] := by
    rw [hqp2]
    simp [hkeysne]
  unfold normalizeQueryL
  rw [if_neg hQnil, if_neg hqp2ne, hqp2]
  have hmapfst : ((keys.map fun k =>
      (k, List.insertionSort strLeP (lookupVals P k))).map Prod.fst) = keys := by
    rw [List.map_map]
    exact (List.map_congr_left fun a _ => rfl).trans (List.map_id keys)
  rw [hmapfst, List.Sorted.insertionSort_eq hksorted]
  have hcong : ∀ k ∈ keys,
      ((List.insertionSort strLeP (lookupVals (keys.map fun k2 =>
          (k2, List.insertionSort strLeP (lookupVals P k2))) k)).map fun v => (k, v))
        = (List.insertionSort strLeP (lookupVals P k)).map fun v => (k, v) := by
    intro k hk
    rw [lookupVals_map keys _ k hk,
      List.Sorted.insertionSort_eq (List.sorted_insertionSort _ _)]
  rw [flatMap_congr_mem _ _ _ hcong]

/-! ## §17 Reparsing a canonically assembled URL -/

theorem dropWhile_all (p : Char → Bool) : ∀ l : List Char,
    (∀ c ∈ l, p c = false) → l.dropWhile p = l := by
  intro l h
  cases l with
  | nil => rfl
  | cons c t =>
    rw [List.dropWhile_cons, if_neg (by
      rw [h c (List.mem_cons_self _ _)]
      exact Bool.false_ne_true)]

theorem pyStripL_all (l : List Char) (h : ∀ c ∈ l, isPyWs c = false) :
    pyStripL l = l := by
  unfold pyStripL
  rw [dropWhile_all _ l h,
    dropWhile_all _ l.reverse fun c hc => h c (List.mem_reverse.mp hc)]
  exact List.reverse_reverse l

theorem mem_collapseAux : ∀ (l : List Char) (b : Bool) (x : Char),
    x ∈ collapseAux l b → x ∈ l := by
  intro l
  induction l with
  | nil =>
    intro b x hx
    simp [collapseAux] at hx
  | cons c rest ih =>
    intro b x hx
    simp only [collapseAux] at hx
    by_cases hc : c = '/'
    · rw [if_pos hc] at hx
      cases b with
      | true =>
        rw [if_pos rfl] at hx
        exact List.mem_cons_of_mem _ (ih true x hx)
      | false =>
        rw [if_neg (by simp)] at hx
        rcases List.mem_cons.mp hx with rfl | hx2
        · rw [hc]
          exact List.mem_cons_self _ _
        · exact List.mem_cons_of_mem _ (ih true x hx2)
    · rw [if_neg hc] at hx
      rcases List.mem_cons.mp hx with rfl | hx2
      · exact List.mem_cons_self _ _
      · exact List.mem_cons_of_mem _ (ih false x hx2)

theorem mem_rstripSlash (l : List Char) (x : Char) (hx : x ∈ rstripSlash l) :
    x ∈ l := by
  unfold rstripSlash at hx
  rw [List.mem_reverse] at hx
  exact List.mem_reverse.mp ((List.dropWhile_sublist _).subset hx)

theorem mem_pathStep2 (l : List Char) (x : Char) (hx : x ∈ pathStep2 l) :
    x ∈ l := by
  unfold pathStep2 at hx
  by_cases h : (decide (l.length > 1) && decide (l.getLast? = some '/')) = true
  · rw [if_pos h] at hx
    exact mem_rstripSlash l x hx
  · rw [if_neg h] at hx
    exact hx

theorem mem_normalizePathL (p0 : List Char) (x : Char)
    (hx : x ∈ normalizePathL p0) : x = '/' ∨ x ∈ p0 := by
  unfold normalizePathL at hx
  by_cases hp : p0 = []
  · rw [if_pos hp] at hx
    simp at hx
    exact Or.inl hx
  · rw [if_neg hp] at hx
    by_cases h2 : (pathStep2 (collapseSlashes p0)).take 1 ≠ ['/']
    · rw [if_pos h2] at hx
      rcases List.mem_cons.mp hx with rfl | hx2
      · exact Or.inl rfl
      · exact Or.inr (mem_collapseAux p0 false x (mem_pathStep2 _ x hx2))
    · rw [if_neg h2] at hx
      exact Or.inr (mem_collapseAux p0 false x (mem_pathStep2 _ x hx))

theorem stripWww_sublist (d : List Char) : (stripWww d).Sublist d := by
  unfold stripWww
  split
  · rename_i w1 w2 w3 rest
    split
    · split
      · rename_i tail heq
        have h2 : ('.' :: tail).Sublist rest := by
          rw [← heq]
          exact List.dropWhile_sublist _
        exact ((List.sublist_cons_self '.' tail).trans h2).trans
          ((List.sublist_cons_self _ _).trans
            ((List.sublist_cons_self _ _).trans (List.sublist_cons_self _ _)))
      all_goals exact List.Sublist.refl _
    · exact List.Sublist.refl _
  all_goals exact List.Sublist.refl _

theorem stripM_sublist (d : List Char) : (stripM d).Sublist d := by
  unfold stripM
  split
  · split
    · exact (List.sublist_cons_self _ _).trans (List.sublist_cons_self _ _)
    · exact List.Sublist.refl _
  all_goals exact List.Sublist.refl _

theorem stripMobile_sublist (d : List Char) : (stripMobile d).Sublist d := by
  unfold stripMobile
  split
  · exact List.drop_sublist _ _
  · exact List.Sublist.refl _

theorem normalizeDomainL_sublist (d : List Char) :
    (normalizeDomainL d).Sublist d := by
  unfold normalizeDomainL
  split
  · exact List.Sublist.refl _
  · exact ((stripMobile_sublist _).trans (stripM_sublist _)).trans (stripWww_sublist d)

theorem mem_lowerL (l : List Char) (x : Char) (hx : x ∈ lowerL l) :
    x ∈ l ∨ (97 ≤ x.toNat ∧ x.toNat ≤ 122) := by
  unfold lowerL at hx
  rw [List.mem_map] at hx
  obtain ⟨y, hy, rfl⟩ := hx
  by_cases hu : isUpperA y = true
  · right
    have hb := isUpperA_iff.mp hu
    rw [lowerChar_toNat, if_pos hu]
    omega
  · left
    rw [show lowerChar y = y by
      unfold lowerChar
      rw [if_neg hu]]
    exact hy

theorem lowerL_fix_of (l : List Char) (h : ∀ x ∈ l, lowerChar x = x) :
    lowerL l = l :=
  (List.map_congr_left h).trans (List.map_id l)

theorem lowerL_out_fix (s : List Char) : ∀ x ∈ lowerL s, lowerChar x = x := by
  intro x hx
  unfold lowerL at hx
  rw [List.mem_map] at hx
  obtain ⟨y, _, rfl⟩ := hx
  exact lowerChar_idem y

theorem lowerChar_schemeChar (c : Char) (h : isSchemeChar c = true) :
    isSchemeChar (lowerChar c) = true := by
  by_cases hu : isUpperA c = true
  · have hb := isUpperA_iff.mp hu
    have ht := lowerChar_toNat c
    rw [if_pos hu] at ht
    simp only [isSchemeChar, Bool.or_eq_true, Bool.and_eq_true, decide_eq_true_eq]
    refine Or.inl (Or.inl (Or.inl (Or.inl (Or.inl ⟨?_, ?_⟩))))
    · exact charLe_of_toNat (by
        show (97 : Nat) ≤ _
        omega)
    · exact charLe_of_toNat (by
        show _ ≤ (122 : Nat)
        omega)
  · rw [show lowerChar c = c by
      unfold lowerChar
      rw [if_neg hu]]
    exact h

theorem lowerChar_alpha (c : Char) (h : isAlphaA c = true) :
    isAlphaA (lowerChar c) = true := by
  by_cases hu : isUpperA c = true
  · have hb := isUpperA_iff.mp hu
    have ht := lowerChar_toNat c
    rw [if_pos hu] at ht
    simp only [isAlphaA, Bool.or_eq_true, Bool.and_eq_true, decide_eq_true_eq]
    refine Or.inl ⟨?_, ?_⟩
    · exact charLe_of_toNat (by
        show (97 : Nat) ≤ _
        omega)
    · exact charLe_of_toNat (by
        show _ ≤ (122 : Nat)
        omega)
  · rw [show lowerChar c = c by
      unfold lowerChar
      rw [if_neg hu]]
    exact h

theorem schemeChar_range (c : Char) (h : isSchemeChar c = true) :
    43 ≤ c.toNat ∧ c.toNat ≤ 122 := by
  simp only [isSchemeChar, Bool.or_eq_true, Bool.and_eq_true, decide_eq_true_eq] at h
  rcases h with ((((⟨h1, h2⟩ | ⟨h1, h2⟩) | ⟨h1, h2⟩) | rfl) | rfl) | rfl
  · exact ⟨by have := charLe_toNat h1; have hz : ('a').toNat = 97 := rfl; omega,
      by have := charLe_toNat h2; have hz : ('z').toNat = 122 := rfl; omega⟩
  · exact ⟨by have := charLe_toNat h1; have hz : ('A').toNat = 65 := rfl; omega,
      by have := charLe_toNat h2; have hz : ('Z').toNat = 90 := rfl; omega⟩
  · exact ⟨by have := charLe_toNat h1; have hz : ('0').toNat = 48 := rfl; omega,
      by have := charLe_toNat h2; have hz : ('9').toNat = 57 := rfl; omega⟩
  · decide
  · decide
  · decide

theorem takeDropAny_app (stops : List Char) : ∀ (a : List Char) (s0 : Char)
    (b : List Char), (∀ c ∈ a, c ∉ stops) → s0 ∈ stops →
    takeUntilAny stops (a ++ s0 :: b) = a ∧
      dropFromAny stops (a ++ s0 :: b) = s0 :: b := by
  intro a
  induction a with
  | nil =>
    intro s0 b _ hs
    refine ⟨?_, ?_⟩
    · show takeUntilAny stops (s0 :: b) = []
      simp only [takeUntilAny]
      rw [if_pos hs]
    · show dropFromAny stops (s0 :: b) = s0 :: b
      simp only [dropFromAny]
      rw [if_pos hs]
  | cons c a2 iha =>
    intro s0 b h hs
    have hc : c ∉ stops := h c (List.mem_cons_self _ _)
    obtain ⟨ih1, ih2⟩ := iha s0 b (fun x hx => h x (List.mem_cons_of_mem _ hx)) hs
    rw [List.cons_append]
    refine ⟨?_, ?_⟩
    · simp only [takeUntilAny]
      rw [if_neg hc, ih1]
    · simp only [dropFromAny]
      rw [if_neg hc, ih2]

theorem splitScheme_app (S R : List Char) (hne : S ≠ [])
    (hsc : ∀ c ∈ S, isSchemeChar c = true)
    (hal : isAlphaA (S.headD 'a') = true) :
    splitScheme (S ++ ':' :: R) = (lowerL S, R) := by
  have hcolon : ':' ∉ S := fun hm => by
    have h2 := hsc ':' hm
    exact absurd h2 (by decide)
  unfold splitScheme
  rw [splitFirst_app ':' S R hcolon]
  cases S with
  | nil => exact absurd rfl hne
  | cons c t =>
    show (if isAlphaA c && (c :: t).all isSchemeChar then (lowerL (c :: t), R)
        else ([], (c :: t) ++ ':' :: R)) = (lowerL (c :: t), R)
    rw [if_pos (by
      rw [Bool.and_eq_true]
      refine ⟨hal, ?_⟩
      rw [List.all_eq_true]
      intro x hx
      exact hsc x hx)]

theorem urlunparse_canon (S N P Q : List Char) (hSne : S ≠ [])
    (hNne : N ≠ []) (hPh : P.take 1 = ['/']) :
    urlunparseL ⟨S, N, P, [], Q, []⟩ =
      S ++ ':' :: '/' :: '/' :: (N ++ P) ++ (if Q = [] then [] else '?' :: Q) := by
  unfold urlunparseL
  show urlunsplitL S N (if ([] : List Char) ≠ [] then P ++ ';' :: [] else P) Q [] = _
  rw [if_neg (by simp)]
  unfold urlunsplitL
  have hnet : urlNet S N P = '/' :: '/' :: (N ++ P) := by
    unfold urlNet
    rw [if_pos (by simp [hNne]), if_neg (by simp [hPh])]
  rw [hnet]
  have hsch : schemeJoin S ('/' :: '/' :: (N ++ P)) =
      S ++ ':' :: '/' :: '/' :: (N ++ P) := by
    unfold schemeJoin
    rw [if_pos hSne]
  rw [hsch]
  have hfr : ∀ u : List Char, fragJoin u [] = u := by
    intro u
    unfold fragJoin
    rw [if_neg (by simp)]
  rw [hfr]
  unfold queryJoin
  by_cases hQ : Q = []
  · rw [if_neg (by simp [hQ]), if_pos hQ, List.append_nil]
  · rw [if_pos hQ, if_neg hQ]

theorem ws_clean (c : Char) (hws : isPyWs c = false) :
    (!(c = '\t' || c = '\x0d' || c = '\n')) = true := by
  simp only [Bool.not_eq_true', Bool.or_eq_false_iff, decide_eq_false_iff_not]
  refine ⟨⟨fun he => ?_, fun he => ?_⟩, fun he => ?_⟩
  · rw [he] at hws
    exact absurd hws (by decide)
  · rw [he] at hws
    exact absurd hws (by decide)
  · rw [he] at hws
    exact absurd hws (by decide)

theorem urlparse_canon (S N P Q : List Char)
    (hSne : S ≠ [])
    (hSsc : ∀ c ∈ S, isSchemeChar c = true)
    (hSal : isAlphaA (S.headD 'a') = true)
    (hSlo : lowerL S = S)
    (hNne : N ≠ [])
    (hNc : ∀ c ∈ N, c ≠ '/' ∧ c ≠ '?' ∧ c ≠ '#' ∧ c ≠ '[' ∧ c ≠ ']' ∧
      isPyWs c = false)
    (hPh : P.take 1 = ['/'])
    (hPc : ∀ c ∈ P, c ≠ '?' ∧ c ≠ '#' ∧ c ≠ ';' ∧ isPyWs c = false)
    (hQc : ∀ c ∈ Q, (alwaysSafe c || c = '+' || c = '%' || c = '=' || c = '&') = true) :
    urlparseL (urlunparseL ⟨S, N, P, [], Q, []⟩) = some ⟨S, N, P, [], Q, []⟩ := by
  obtain ⟨s0, S2, hS0⟩ : ∃ s0 S2, S = s0 :: S2 := by
    cases S with
    | nil => exact absurd rfl hSne
    | cons a b => exact ⟨a, b, rfl⟩
  obtain ⟨Pt, hPt⟩ : ∃ Pt, P = '/' :: Pt := by
    cases P with
    | nil => simp at hPh
    | cons p0 t =>
      have hp0 : p0 = '/' := by simpa using hPh
      exact ⟨t, by rw [hp0]⟩
  have hs0sc : isSchemeChar s0 = true := hSsc s0 (by rw [hS0]; exact List.mem_cons_self _ _)
  have hs0r := schemeChar_range s0 hs0sc
  have hSclean : ∀ c ∈ S, (!(c = '\t' || c = '\x0d' || c = '\n')) = true := by
    intro c hc
    have hr := schemeChar_range c (hSsc c hc)
    have h9 : ('\t').toNat = 9 := rfl
    have h13 : ('\x0d').toNat = 13 := rfl
    have h10 : ('\n').toNat = 10 := rfl
    simp only [Bool.not_eq_true', Bool.or_eq_false_iff, decide_eq_false_iff_not]
    refine ⟨⟨fun he => ?_, fun he => ?_⟩, fun he => ?_⟩
    · rw [he, h9] at hr
      omega
    · rw [he, h13] at hr
      omega
    · rw [he, h10] at hr
      omega
  have hqmP : '?' ∉ P := fun hm => (hPc '?' hm).1 rfl
  have hhashP : '#' ∉ P := fun hm => (hPc '#' hm).2.1 rfl
  have hNstops : ∀ c ∈ N, c ∉ (['/', '?', '#'] : List Char) := by
    intro c hc hm
    obtain ⟨h1, h2, h3, _, _, _⟩ := hNc c hc
    simp only [List.mem_cons, List.not_mem_nil, or_false] at hm
    rcases hm with rfl | rfl | rfl
    · exact h1 rfl
    · exact h2 rfl
    · exact h3 rfl
  have hlb : '[' ∉ N := fun hm => (hNc '[' hm).2.2.2.1 rfl
  have hrb : ']' ∉ N := fun hm => (hNc ']' hm).2.2.2.2.1 rfl
  have main : ∀ Qt : List Char,
      (∀ c ∈ Qt, (!(c = '\t' || c = '\x0d' || c = '\n')) = true) →
      ('#' ∉ Qt) →
      (querySplit (P ++ Qt) = (P, Q)) →
      urlparseL (S ++ ':' :: '/' :: '/' :: (N ++ P) ++ Qt)
        = some ⟨S, N, P, [], Q, []⟩ := by
    intro Qt hQtClean hQtHash hQtSplit
    have hfilterall : ∀ c ∈ s0 ::
        ((S2 ++ ':' :: '/' :: '/' :: (N ++ P)) ++ Qt),
        (!(c = '\t' || c = '\x0d' || c = '\n')) = true := by
      intro c hc
      rcases List.mem_cons.mp hc with rfl | hc
      · exact hSclean c (by rw [hS0]; exact List.mem_cons_self _ _)
      rcases List.mem_append.mp hc with hc | hc
      · rcases List.mem_append.mp hc with hc | hc
        · exact hSclean c (by rw [hS0]; exact List.mem_cons_of_mem _ hc)
        rcases List.mem_cons.mp hc with rfl | hc
        · decide
        rcases List.mem_cons.mp hc with rfl | hc
        · decide
        rcases List.mem_cons.mp hc with rfl | hc
        · decide
        rcases List.mem_append.mp hc with hc | hc
        · exact ws_clean c (hNc c hc).2.2.2.2.2
        · exact ws_clean c (hPc c hc).2.2.2
      · exact hQtClean c hc
    have hclean : schemeRest (S ++ ':' :: '/' :: '/' :: (N ++ P) ++ Qt)
        = (S, '/' :: '/' :: (N ++ P) ++ Qt) := by
      unfold schemeRest
      rw [hS0, List.cons_append, List.cons_append, List.dropWhile_cons,
        if_neg (by
          simp only [decide_eq_true_eq]
          omega),
        List.filter_eq_self.mpr hfilterall,
        ← List.cons_append, ← List.cons_append, ← hS0,
        List.append_assoc, List.cons_append,
        splitScheme_app S _ hSne hSsc hSal, hSlo]
    have hnet : netlocSplit ('/' :: '/' :: (N ++ P) ++ Qt) = (N, P ++ Qt) := by
      rw [List.cons_append, List.cons_append]
      rw [show netlocSplit ('/' :: '/' :: ((N ++ P) ++ Qt))
          = (takeUntilAny ['/', '?', '#'] ((N ++ P) ++ Qt),
             dropFromAny ['/', '?', '#'] ((N ++ P) ++ Qt)) from rfl]
      have hr : (N ++ P) ++ Qt = N ++ ('/' :: (Pt ++ Qt)) := by
        rw [hPt, List.append_assoc, List.cons_append]
      rw [hr]
      obtain ⟨ht, hd⟩ := takeDropAny_app ['/', '?', '#'] N '/' (Pt ++ Qt) hNstops (by simp)
      rw [ht, hd, ← List.cons_append, ← hPt]
    have hfrag : fragSplit (P ++ Qt) = (P ++ Qt, []) := by
      unfold fragSplit
      rw [splitFirst_none '#' _ (by
        intro hm
        rcases List.mem_append.mp hm with hm | hm
        · exact hhashP hm
        · exact hQtHash hm)]
    have hsplit : urlsplitL (S ++ ':' :: '/' :: '/' :: (N ++ P) ++ Qt)
        = some ⟨S, N, P, [], Q, []⟩ := by
      unfold urlsplitL
      rw [hclean]
      dsimp only
      rw [hnet]
      dsimp only
      rw [hfrag]
      dsimp only
      rw [hQtSplit]
      dsimp only
      rw [if_neg (by simp [hlb, hrb])]
    unfold urlparseL
    rw [hsplit]
    dsimp only
    rw [if_neg fun hm => (hPc ';' hm).2.2.1 rfl]
  rw [urlunparse_canon S N P Q hSne hNne hPh]
  by_cases hQ : Q = []
  · rw [if_pos hQ]
    refine main [] (by simp) (by simp) ?_
    unfold querySplit
    rw [List.append_nil, splitFirst_none '?' P hqmP, hQ]
  · rw [if_neg hQ]
    refine main ('?' :: Q) ?_ ?_ ?_
    · intro c hc
      rcases List.mem_cons.mp hc with rfl | hcq
      · decide
      · have hq := hQc c hcq
        simp only [Bool.not_eq_true', Bool.or_eq_false_iff, decide_eq_false_iff_not]
        refine ⟨⟨fun he => ?_, fun he => ?_⟩, fun he => ?_⟩
        · rw [he] at hq
          exact absurd hq (by decide)
        · rw [he] at hq
          exact absurd hq (by decide)
        · rw [he] at hq
          exact absurd hq (by decide)
    · intro hm
      rcases List.mem_cons.mp hm with he | hmq
      · exact absurd he (by decide)
      · have hq := hQc '#' hmq
        exact absurd hq (by decide)
    · unfold querySplit
      rw [splitFirst_app '?' P Q hqmP]

/-! ## §18 Idempotence of `canonicalize_url` on well-behaved URLs -/

theorem pyWs_toNat (c : Char) (h : isPyWs c = true) : c.toNat ≤ 32 := by
  simp only [isPyWs, Bool.or_eq_true, decide_eq_true_eq] at h
  rcases h with ((((rfl | rfl) | rfl) | rfl) | rfl) | rfl <;> decide

theorem schemeChar_not_ws (c : Char) (h : isSchemeChar c = true) :
    isPyWs c = false := by
  cases hws : isPyWs c with
  | false => rfl
  | true =>
    have h1 := pyWs_toNat c hws
    have h2 := schemeChar_range c h
    omega

theorem encOK_not_ws (c : Char)
    (h : (alwaysSafe c || c = '+' || c = '%' || c = '=' || c = '&') = true) :
    isPyWs c = false := by
  cases hws : isPyWs c with
  | false => rfl
  | true =>
    simp only [isPyWs, Bool.or_eq_true, decide_eq_true_eq] at hws
    rcases hws with ((((rfl | rfl) | rfl) | rfl) | rfl) | rfl <;>
      exact absurd h (by decide)

theorem normalizeQuery_class (q0 : List Char) : ∀ c ∈ normalizeQueryL q0,
    (alwaysSafe c || c = '+' || c = '%' || c = '=' || c = '&') = true := by
  intro c hc
  unfold normalizeQueryL at hc
  by_cases h0 : q0 = []
  · rw [if_pos h0] at hc
    cases hc
  rw [if_neg h0] at hc
  by_cases h1 : queryParams q0 = []
  · rw [if_pos h1] at hc
    cases hc
  rw [if_neg h1] at hc
  unfold urlencodeL at hc
  rcases mem_intercalateAmp _ c hc with rfl | ⟨piece, hp, hcp⟩
  · decide
  · simp only [List.mem_map] at hp
    obtain ⟨pr, _, rfl⟩ := hp
    rcases List.mem_append.mp hcp with hcq | hcq
    · have := quotePlusL_class _ c hcq
      simp only [Bool.or_eq_true] at this ⊢
      tauto
    · rcases List.mem_cons.mp hcq with rfl | hcq
      · decide
      · have := quotePlusL_class _ c hcq
        simp only [Bool.or_eq_true] at this ⊢
        tauto

/-- Idempotence of `canonicalize_url` for URLs whose host reaches a fixpoint
of the domain stripping after one pass (plus syntactic well-formedness of the
parsed components). -/
theorem canonicalize_idem_aux (u : String) (p : UrlParts)
    (hp : urlparseL (pyStripL u.data) = some p)
    (hnl : p.netloc ≠ [])
    (hpar : p.params = [])
    (hsc : ∀ c ∈ p.scheme, isSchemeChar c = true)
    (hal : p.scheme = [] ∨ isAlphaA (p.scheme.headD 'a') = true)
    (hnc : ∀ c ∈ p.netloc, c ≠ '/' ∧ c ≠ '?' ∧ c ≠ '#' ∧ c ≠ '[' ∧ c ≠ ']' ∧
      isPyWs c = false)
    (hpc : ∀ c ∈ p.path, c ≠ '?' ∧ c ≠ '#' ∧ c ≠ ';' ∧ isPyWs c = false)
    (hdne : normalizeDomainL (lowerL p.netloc) ≠ [])
    (hdom : normalizeDomainL (normalizeDomainL (lowerL p.netloc))
      = normalizeDomainL (lowerL p.netloc)) :
    canonicalizeUrl (canonicalizeUrl u) = canonicalizeUrl u := by
  set S : List Char := if p.scheme ≠ [] then lowerL p.scheme else "https".data
    with hSdef
  set N : List Char := normalizeDomainL (lowerL p.netloc) with hNdef
  set P : List Char := normalizePathL p.path with hPdef
  set Q : List Char := normalizeQueryL p.query with hQdef
  have hSne : S ≠ [] := by
    rw [hSdef]
    by_cases hs : p.scheme = []
    · rw [if_neg fun hne => hne hs]
      decide
    · rw [if_pos hs]
      simp [lowerL, hs]
  have hSsc2 : ∀ c ∈ S, isSchemeChar c = true := by
    intro c hc
    rw [hSdef] at hc
    by_cases hs : p.scheme = []
    · rw [if_neg fun hne => hne hs] at hc
      fin_cases hc <;> decide
    · rw [if_pos hs] at hc
      simp only [lowerL, List.mem_map] at hc
      obtain ⟨y, hy, rfl⟩ := hc
      exact lowerChar_schemeChar y (hsc y hy)
  have hSal2 : isAlphaA (S.headD 'a') = true := by
    rw [hSdef]
    by_cases hs : p.scheme = []
    · rw [if_neg fun hne => hne hs]
      decide
    · rw [if_pos hs]
      rcases hal with h | h
      · exact absurd h hs
      · cases hsch : p.scheme with
        | nil => exact absurd hsch hs
        | cons a t =>
          show isAlphaA ((lowerL (a :: t)).headD 'a') = true
          simp only [lowerL, List.map_cons, List.headD_cons]
          rw [hsch] at h
          simp only [List.headD_cons] at h
          exact lowerChar_alpha a h
  have hSlo : lowerL S = S := by
    rw [hSdef]
    by_cases hs : p.scheme = []
    · rw [if_neg fun hne => hne hs]
      decide
    · rw [if_pos hs]
      exact lowerL_idem _
  have hNsub : ∀ c ∈ N, c ∈ lowerL p.netloc := by
    intro c hc
    rw [hNdef] at hc
    exact (normalizeDomainL_sublist _).subset hc
  have hNc2 : ∀ c ∈ N, c ≠ '/' ∧ c ≠ '?' ∧ c ≠ '#' ∧ c ≠ '[' ∧ c ≠ ']' ∧
      isPyWs c = false := by
    intro c hc
    rcases mem_lowerL _ c (hNsub c hc) with hcm | hrange
    · exact hnc c hcm
    · have h47 : ('/').toNat = 47 := rfl
      have h63 : ('?').toNat = 63 := rfl
      have h35 : ('#').toNat = 35 := rfl
      have h91 : ('[').toNat = 91 := rfl
      have h93 : (']').toNat = 93 := rfl
      refine ⟨fun he => ?_, fun he => ?_, fun he => ?_, fun he => ?_, fun he => ?_, ?_⟩
      · rw [he, h47] at hrange
        omega
      · rw [he, h63] at hrange
        omega
      · rw [he, h35] at hrange
        omega
      · rw [he, h91] at hrange
        omega
      · rw [he, h93] at hrange
        omega
      · cases hws : isPyWs c with
        | false => rfl
        | true =>
          have := pyWs_toNat c hws
          omega
  have hPh : P.take 1 = ['/'] := by
    rw [hPdef]
    exact normPath_starts p.path
  have hPc2 : ∀ c ∈ P, c ≠ '?' ∧ c ≠ '#' ∧ c ≠ ';' ∧ isPyWs c = false := by
    intro c hc
    rw [hPdef] at hc
    rcases mem_normalizePathL p.path c hc with rfl | hcm
    · exact ⟨by decide, by decide, by decide, by decide⟩
    · exact hpc c hcm
  have hQc2 : ∀ c ∈ Q,
      (alwaysSafe c || c = '+' || c = '%' || c = '=' || c = '&') = true := by
    intro c hc
    rw [hQdef] at hc
    exact normalizeQuery_class p.query c hc
  have hNne : N ≠ [] := hdne
  have hu0 : pyStripL u.data ≠ [] := by
    intro h0
    rw [h0] at hp
    have h2 : urlparseL ([] : List Char) = some ⟨[], [], [], [], [], []⟩ := rfl
    rw [h2] at hp
    cases hp
    exact hnl rfl
  have hc1 : canonicalizeUrl u = String.mk (urlunparseL (canonParts p)) := by
    unfold canonicalizeUrl
    rw [if_neg hu0, hp]
    dsimp only
    rw [if_neg (by simp [hnl])]
  have hparts : canonParts p = ⟨S, N, P, [], Q, []⟩ := by
    unfold canonParts
    rw [hpar, if_pos hnl]
  have hUnp := urlunparse_canon S N P Q hSne hNne hPh
  have hstrip : pyStripL (urlunparseL ⟨S, N, P, [], Q, []⟩)
      = urlunparseL ⟨S, N, P, [], Q, []⟩ := by
    rw [hUnp]
    apply pyStripL_all
    intro c hc
    rcases List.mem_append.mp hc with hc | hc
    · rcases List.mem_append.mp hc with hc | hc
      · exact schemeChar_not_ws c (hSsc2 c hc)
      · rcases List.mem_cons.mp hc with rfl | hc
        · decide
        rcases List.mem_cons.mp hc with rfl | hc
        · decide
        rcases List.mem_cons.mp hc with rfl | hc
        · decide
        rcases List.mem_append.mp hc with hc | hc
        · exact (hNc2 c hc).2.2.2.2.2
        · exact (hPc2 c hc).2.2.2
    · by_cases hq0 : Q = []
      · rw [if_pos hq0] at hc
        cases hc
      · rw [if_neg hq0] at hc
        rcases List.mem_cons.mp hc with rfl | hc
        · decide
        · exact encOK_not_ws c (hQc2 c hc)
  have hU1ne : urlunparseL ⟨S, N, P, [], Q, []⟩ ≠ [] := by
    rw [hUnp]
    intro h0
    rcases List.append_eq_nil.mp h0 with ⟨h1, _⟩
    rcases List.append_eq_nil.mp h1 with ⟨h2, _⟩
    exact hSne h2
  have hparse2 : urlparseL (urlunparseL ⟨S, N, P, [], Q, []⟩)
      = some ⟨S, N, P, [], Q, []⟩ :=
    urlparse_canon S N P Q hSne hSsc2 hSal2 hSlo hNne hNc2 hPh hPc2 hQc2
  have hNlo : lowerL N = N := by
    apply lowerL_fix_of
    intro x hx
    exact lowerL_out_fix p.netloc x (hNsub x hx)
  have hparts2 : canonParts ⟨S, N, P, [], Q, []⟩ = ⟨S, N, P, [], Q, []⟩ := by
    unfold canonParts
    dsimp only
    rw [if_pos hSne, if_pos hNne, hSlo, hNlo, hdom]
    rw [hPdef, normPath_idem, hQdef, normalizeQuery_idem]
  have hc2 : canonicalizeUrl (String.mk (urlunparseL (canonParts p)))
      = String.mk (urlunparseL (canonParts p)) := by
    rw [hparts]
    unfold canonicalizeUrl
    rw [show (String.mk (urlunparseL ⟨S, N, P, [], Q, []⟩)).data
        = urlunparseL ⟨S, N, P, [], Q, []⟩ from rfl]
    rw [hstrip, if_neg hU1ne, hparse2]
    dsimp only
    rw [if_neg (by simp [hSne])]
    rw [hparts2]
  rw [hc1, hc2]

/-- C6 (counterexample): the URL `https://www.www.example.com/` is valid (it
parses with a scheme and a host), yet canonicalization with default options
is not idempotent on it: the first pass strips one `www.` prefix and the
second pass strips another, because the anchored `www` pattern is applied
once per call. -/
theorem c6_counterexample :
    (∃ p : UrlParts,
        urlparseL (pyStripL ("https://www.www.example.com/").data) = some p ∧
          (p.scheme ≠ [] ∨ p.netloc ≠ [])) ∧
      canonicalizeUrl (canonicalizeUrl "https://www.www.example.com/")
        ≠ canonicalizeUrl "https://www.www.example.com/" := by
  refine ⟨⟨⟨"https".data, "www.www.example.com".data, "/".data, [], [], []⟩,
    by decide, by decide⟩, by decide⟩

/-- C6 (amended): canonicalization with default options is idempotent on
every URL that parses into a host and well-formed components (no reserved or
whitespace characters in host and path, no params) whose host reaches a
fixpoint of the domain prefix stripping after one application. On such URLs
`canonicalize_url (canonicalize_url u) = canonicalize_url u`; the fixpoint
hypothesis is necessary, as hosts like `www.www.example.com` show. -/
theorem c6_canonicalizeIdempotent (u : String) (p : UrlParts)
    (hp : urlparseL (pyStripL u.data) = some p)
    (hnl : p.netloc ≠ [])
    (hpar : p.params = [])
    (hsc : ∀ c ∈ p.scheme, isSchemeChar c = true)
    (hal : p.scheme = [] ∨ isAlphaA (p.scheme.headD 'a') = true)
    (hnc : ∀ c ∈ p.netloc, c ≠ '/' ∧ c ≠ '?' ∧ c ≠ '#' ∧ c ≠ '[' ∧ c ≠ ']' ∧
      isPyWs c = false)
    (hpc : ∀ c ∈ p.path, c ≠ '?' ∧ c ≠ '#' ∧ c ≠ ';' ∧ isPyWs c = false)
    (hdne : normalizeDomainL (lowerL p.netloc) ≠ [])
    (hdom : normalizeDomainL (normalizeDomainL (lowerL p.netloc))
      = normalizeDomainL (lowerL p.netloc)) :
    canonicalizeUrl (canonicalizeUrl u) = canonicalizeUrl u :=
  canonicalize_idem_aux u p hp hnl hpar hsc hal hnc hpc hdne hdom

theorem c6_canonicalizeIdempotent_witness :
    (urlparseL (pyStripL ("https://www.example.com/post?id=123").data)
        = some ⟨"https".data, "www.example.com".data, "/post".data, [],
            "id=123".data, []⟩) ∧
      canonicalizeUrl (canonicalizeUrl "https://www.example.com/post?id=123")
        = canonicalizeUrl "https://www.example.com/post?id=123" :=
  ⟨by decide,
    c6_canonicalizeIdempotent "https://www.example.com/post?id=123"
      ⟨"https".data, "www.example.com".data, "/post".data, [], "id=123".data, []⟩
      (by decide) (by decide) (by decide) (by decide) (by decide) (by decide)
      (by decide) (by decide) (by decide)⟩

/-- C7: with default options, both
`canonicalize_url("https://www.example.com/post?id=123&utm_source=x#frag")`
and `canonicalize_url("https://EXAMPLE.com/post?utm_medium=y&id=123")` are
exactly the string `https://example.com/post?id=123`. -/
theorem c7_canonicalizeConcrete :
    canonicalizeUrl "https://www.example.com/post?id=123&utm_source=x#frag"
        = "https://example.com/post?id=123" ∧
      canonicalizeUrl "https://EXAMPLE.com/post?utm_medium=y&id=123"
        = "https://example.com/post?id=123" :=
  ⟨by decide, by decide⟩


end Osint
